import Mathlib

/-!
# Verification of the parso `BaseParser` engine (`parso/parser.py`)

A shallow embedding of the parser engine: the token-lookahead proxy
(`_TokenGeneratorProxy`), transition resolution (`_token_to_transition`,
the nested `get_possible_plan` / `superior_plan` disambiguation), the
driving loop (`BaseParser.parse` / `_add_token` / `_pop`), and the tree
builder (`convert_node` / `convert_leaf`).

Conventions of the embedding:
* The lazily-pulled token generator is a finite `List Token` together with
  a cursor `srcPos`; `next(self._tokens)` on the raw generator reads
  `src[srcPos]` and advances the cursor, and `StopIteration` is the `none`
  case.
* Python exceptions become an explicit error type `PErr`; an `assert`
  failure is the error `PErr.assertFail`, an uncaught `IndexError` is
  `PErr.indexErr`, and the unbound-local `NameError` that `parse` hits on
  an empty token source is `PErr.nameErr`.
* Recursion in `get_possible_plan` (the speculative lookahead calls itself
  while simulating candidate plans) and the `parse` driving loop are not
  structurally decreasing, so they take a fuel parameter; `PErr.fuel` is
  the out-of-fuel artifact of the embedding, not a behavior of the code.
* Python `dict`s keyed by plan or transition objects are association lists
  in registration order; lookup takes the first hit, and building the
  candidate table of `get_possible_plan` collapses equal plans exactly as
  the dict comprehension collapses equal keys.
* The field `prefix` of tokens is named `pfx`, `type` is `typ`, the
  `contains_syntax` flag of a token type is `contains_stx`, and the
  mutable `end` slot of a release range is `stop`.
-/

namespace Parso

/-- A token type tag (e.g. NAME, ENDMARKER); `contains_stx` embeds the
`contains_syntax` flag consulted by `_token_to_transition`. -/
structure TokType where
  name : String
  contains_stx : Bool
deriving DecidableEq, Repr

/-- A token, as the 4-tuple `(type, string, start_pos, prefix)` produced by
the tokenizer and unpacked by `_add_token` and `error_recovery`. -/
structure Token where
  typ : TokType
  string : String
  start_pos : Nat × Nat
  pfx : String
deriving DecidableEq, Repr

/-- `parso.pgen2.generator.ReservedString`: a keyword string, with its
softness flag. -/
structure ReservedString where
  value : String
  soft : Bool
deriving DecidableEq, Repr

/-- A key of a DFA state's transition table: either a token type or a
reserved keyword string. -/
inductive TransitionKey where
  | ofType (t : TokType)
  | ofReserved (r : ReservedString)
deriving DecidableEq, Repr

/-- `DFAPlan`: the next DFA state for the active frame plus the DFA states
to push as new frames.  DFA states are named by index into
`Grammar.dfas`. -/
structure Plan where
  next_dfa : Nat
  dfa_pushes : List Nat
deriving DecidableEq, Repr

/-- A DFA state: its owning rule, finality flag, and ordered transition
table. -/
structure DFAState where
  from_rule : String
  is_final : Bool
  transitions : List (TransitionKey × Plan)
deriving DecidableEq, Repr

instance : Inhabited DFAState := ⟨⟨"", false, []⟩⟩

/-- The compiled grammar tables handed to the parser: the DFA states
(indexed by `Nat` names), the reserved strings registry
(`reserved_syntax_strings`, value ↦ soft flag), and the index of the start
nonterminal's first DFA (`nonterminal_to_dfas[start_nonterminal][0]`). -/
structure Grammar where
  dfas : List DFAState
  reserved_strings : List (String × Bool)
  start_dfa : Nat
deriving DecidableEq, Repr

/-- Look a DFA state up by index. -/
def Grammar.dfa (g : Grammar) (i : Nat) : DFAState :=
  g.dfas.getD i default

/-- `_token_to_transition(grammar, type_, value)`: the tuple of candidate
transition keys for a token — both the reserved-string key and the type
key for a soft keyword, only the reserved-string key for a hard keyword,
and only the type key otherwise. -/
def token_to_transition (g : Grammar) (typ : TokType) (value : String) :
    List TransitionKey :=
  if typ.contains_stx then
    match (g.reserved_strings.find? (fun p => p.1 == value)) with
    | some p =>
        if p.2 then
          [.ofReserved ⟨value, true⟩, .ofType typ]
        else
          [.ofReserved ⟨value, false⟩]
    | none => [.ofType typ]
  else
    [.ofType typ]

/-- One entry of `_TokenGeneratorProxy._release_ranges`: the
`[start, end, eaten_tokens]` triple; `stop` is `none` while the range is
still open. -/
structure ReleaseRange where
  start : Nat
  stop : Option Nat
  cache : List Token
deriving DecidableEq, Repr

/-- `_TokenGeneratorProxy`: the raw generator (`src` plus cursor
`srcPos`), the sequential-consumption counter, and the release ranges. -/
structure Proxy where
  src : List Token
  srcPos : Nat
  counter : Nat
  release_ranges : List ReleaseRange
deriving DecidableEq, Repr

/-- Errors of the engine.  `syntaxErr`/`internalErr` are
`ParserSyntaxError` and `InternalParseError`; the others embed raw Python
exceptions (`AssertionError`, `IndexError`, the unbound-local `NameError`,
`NotImplementedError`), and `fuel` is the embedding's termination
artifact. -/
inductive PErr where
  | syntaxErr (message : String) (typ : TokType) (value : String)
      (start_pos : Nat × Nat) (pfx : String)
  | internalErr (msg : String) (typ : TokType) (value : String)
      (start_pos : Nat × Nat)
  | assertFail
  | indexErr
  | nameErr
  | notImplemented
  | fuel
deriving DecidableEq, Repr

/-- Pull one token from the raw generator (`next(self._tokens)` on the
wrapped generator); `none` is `StopIteration`. -/
def Proxy.rawNext (p : Proxy) : Option (Token × Proxy) :=
  match p.src[p.srcPos]? with
  | some t => some (t, { p with srcPos := p.srcPos + 1 })
  | none => none

/-- The eaten-token cache of `_release_ranges[-1]`. -/
def Proxy.lastCache (p : Proxy) : List Token :=
  (p.release_ranges.getLast?.map ReleaseRange.cache).getD []

/-- Replace `_release_ranges[-1]` by `f` applied to it (no-op when the
list is empty, which the code never does). -/
def Proxy.modifyLast (p : Proxy) (f : ReleaseRange → ReleaseRange) : Proxy :=
  { p with release_ranges :=
      match p.release_ranges.getLast? with
      | some r => p.release_ranges.dropLast ++ [f r]
      | none => p.release_ranges }

/-- The pull loop of `_TokenGeneratorProxy.eat`: pull `n` fresh tokens
from the raw generator, appending each to `_release_ranges[-1]`'s cache as
it arrives; stops early (reporting `false`, i.e. `StopIteration`) when the
generator is exhausted, keeping the tokens already appended. -/
def Proxy.pullN (p : Proxy) : Nat → Proxy × Bool
  | 0 => (p, true)
  | n + 1 =>
    match p.rawNext with
    | some (t, p') =>
        (p'.modifyLast (fun r => { r with cache := r.cache ++ [t] })).pullN n
    | none => (p, false)

/-- `_TokenGeneratorProxy.eat(point)`: return the `point`-th token of the
innermost-registered range's cache, pulling and caching fresh tokens from
the raw generator while the cache is too short.  `none` is the
`StopIteration` escaping from the pull loop. -/
def Proxy.eat (p : Proxy) (point : Nat) : Option Token × Proxy :=
  let cache := p.lastCache
  if point < cache.length then
    (cache[point]?, p)
  else
    match p.pullN (point + 1 - cache.length) with
    | (p', true) => (p'.lastCache[point]?, p')
    | (p', false) => (none, p')

/-- `_TokenGeneratorProxy.can_advance(to)`: try to eat, report failure
instead of raising (the eat is cached, so the model keeps the proxy the
eat produced, exactly as the code does). -/
def Proxy.can_advance (p : Proxy) (pt : Nat) : Bool × Proxy :=
  match p.eat pt with
  | (some _, p') => (true, p')
  | (none, p') => (false, p')

/-- The scan of `_TokenGeneratorProxy.__next__` over `_release_ranges`:
assert each visited range is closed, and stop at the first range
containing `counter`.  `ok none` means no range matched; `ok (some t)`
returns the cached token. -/
def scanRanges (counter : Nat) : List ReleaseRange → Except PErr (Option Token)
  | [] => .ok none
  | r :: rest =>
    match r.stop with
    | none => .error .assertFail
    | some stop =>
        if r.start ≤ counter ∧ counter < stop then
          match r.cache[counter - r.start]? with
          | some t => .ok (some t)
          | none => .error .indexErr
        else
          scanRanges counter rest

/-- `_TokenGeneratorProxy.__next__`: serve the token from a closed release
range containing the current position, else pull from the raw generator;
`ok none` is `StopIteration` (the counter is only advanced on success). -/
def Proxy.next (p : Proxy) : Except PErr (Option (Token × Proxy)) :=
  match scanRanges p.counter p.release_ranges with
  | .error e => .error e
  | .ok (some t) => .ok (some (t, { p with counter := p.counter + 1 }))
  | .ok none =>
    match p.rawNext with
    | some (t, p') => .ok (some (t, { p' with counter := p'.counter + 1 }))
    | none => .ok none

/-- Entry to `_TokenGeneratorProxy.release()`: append a fresh open range
`[counter, None, []]`. -/
def Proxy.releaseOpen (p : Proxy) : Proxy :=
  { p with release_ranges := p.release_ranges ++ [⟨p.counter, none, []⟩] }

/-- Exit from `_TokenGeneratorProxy.release()`: lock `_release_ranges[-1]`
(whatever range is last at that moment) to `counter` plus the number of
tokens it ate. -/
def Proxy.releaseClose (p : Proxy) : Proxy :=
  p.modifyLast (fun r => { r with stop := some (p.counter + r.cache.length) })

/-- The scan of Python's `max(items, key=...)`: a later item replaces the
current maximum only when strictly greater, so the first item of maximal
key wins. -/
def maxFirstGo (m : Plan × Nat) : List (Plan × Nat) → Plan × Nat
  | [] => m
  | y :: rest => maxFirstGo (if y.2 > m.2 then y else m) rest

/-- Python's `max(items, key=...)`: the first item of maximal key. -/
def maxFirst : List (Plan × Nat) → Option (Plan × Nat)
  | [] => none
  | x :: rest => some (maxFirstGo x rest)

/-- `superior_plan(table, winner=False)` from `_add_token`: compute each
origin's branch length, take the first origin of maximal branch length,
and return it only when the maximum is unique or `winner` is set. -/
def superior_plan (table : List (Plan × List Plan)) (winner : Bool) :
    Option Plan :=
  let possibilities := table.map (fun ob => (ob.1, ob.2.length))
  match maxFirst possibilities with
  | none => none
  | some (superior_origin, superior_branch_length) =>
      if (possibilities.map Prod.snd).count superior_branch_length = 1 ∨ winner
      then some superior_origin
      else none

/-- The dict comprehension
`{possible_plan: [possible_plan] for possible_plan in possible_plans}`:
an association list in first-occurrence order; a duplicate (equal) plan
re-assigns the same singleton value and keeps its original slot. -/
def mkPlanTable (plans : List Plan) : List (Plan × List Plan) :=
  plans.foldl
    (fun acc pl => if acc.any (fun e => e.1 == pl) then acc else acc ++ [(pl, [pl])])
    []

mutual

/-- `get_possible_plan(possible_transitions, transition_table)` (the inner
function of `_add_token`): collect the plans of the matching transition
keys; zero or one plan is immediate, two launch the speculative lookahead
under a `release()` scope.  `fuel` bounds the recursion of the embedding
(the lookahead simulation calls `get_possible_plan` again). -/
def get_possible_plan (g : Grammar) (fuel : Nat)
    (possible_transitions : List TransitionKey)
    (transition_table : List (TransitionKey × Plan)) (p : Proxy) :
    Except PErr (Option Plan × Proxy) :=
  match fuel with
  | 0 => .error .fuel
  | f + 1 =>
    let possible_plans := possible_transitions.filterMap
      (fun tr => (transition_table.find? (fun e => e.1 == tr)).map Prod.snd)
    match possible_plans with
    | [] => .ok (none, p)
    | [possible_plan] => .ok (some possible_plan, p)
    | _ =>
      let possible_plan_table := mkPlanTable possible_plans
      match lookahead_loop g f [] possible_plan_table 0 p.releaseOpen with
      | .error e => .error e
      | .ok (r, p') => .ok (r, p'.releaseClose)

/-- The `while superior_plan(possible_plan_table) is None` loop of the
speculative lookahead: each iteration eats one more lookahead token
(breaking when the buffer reports no more input — `can_advance` performs
the cached eat) and drives every live candidate one step. -/
def lookahead_loop (g : Grammar) (fuel : Nat) (dead_plans : List Plan)
    (table : List (Plan × List Plan)) (counter : Nat) (p : Proxy) :
    Except PErr (Option Plan × Proxy) :=
  match fuel with
  | 0 => .error .fuel
  | f + 1 =>
    if (superior_plan table false).isSome then
      .ok (superior_plan table true, p)
    else
      match p.eat counter with
      | (none, p') => .ok (superior_plan table true, p')
      | (some token, p') =>
        let next_transitions := token_to_transition g token.typ token.string
        match extend_table g f dead_plans table next_transitions p' with
        | .error e => .error e
        | .ok (dead', table', p'') =>
            lookahead_loop g f dead' table' (counter + 1) p''

/-- The `for origin, possible_plans in possible_plan_table.items()` body:
skip dead candidates; otherwise try the current plan's pushed states in
reverse on the lookahead token, marking the candidate dead when none
matches and appending the matched plan to its branch otherwise.  The
table is rebuilt in the same order (Python mutates the branch lists in
place). -/
def extend_table (g : Grammar) (fuel : Nat) (dead_plans : List Plan)
    (entries : List (Plan × List Plan))
    (next_transitions : List TransitionKey) (p : Proxy) :
    Except PErr (List Plan × List (Plan × List Plan) × Proxy) :=
  match fuel with
  | 0 => .error .fuel
  | f + 1 =>
    match entries with
    | [] => .ok (dead_plans, [], p)
    | (origin, branch) :: rest =>
      if dead_plans.contains origin then
        match extend_table g f dead_plans rest next_transitions p with
        | .error e => .error e
        | .ok (dead', rest', p') => .ok (dead', (origin, branch) :: rest', p')
      else
        let current_plan := branch.getLast?.getD origin
        match try_pushes g f current_plan.dfa_pushes.reverse next_transitions p with
        | .error e => .error e
        | .ok (none, p') =>
          match extend_table g f (dead_plans ++ [origin]) rest next_transitions p' with
          | .error e => .error e
          | .ok (dead', rest', p'') => .ok (dead', (origin, branch) :: rest', p'')
        | .ok (some next_possible_plan, p') =>
          match extend_table g f dead_plans rest next_transitions p' with
          | .error e => .error e
          | .ok (dead', rest', p'') =>
              .ok (dead', (origin, branch ++ [next_possible_plan]) :: rest', p'')

/-- `for dfa_push in reversed(current_plan.dfa_pushes)` with its `else`
clause: return the first push state whose table yields a plan for the
lookahead token (recursing into `get_possible_plan`, which may itself
speculate), or `none` when every push fails, which kills the candidate. -/
def try_pushes (g : Grammar) (fuel : Nat) (pushes : List Nat)
    (next_transitions : List TransitionKey) (p : Proxy) :
    Except PErr (Option Plan × Proxy) :=
  match fuel with
  | 0 => .error .fuel
  | f + 1 =>
    match pushes with
    | [] => .ok (none, p)
    | d :: rest =>
      match get_possible_plan g f next_transitions (g.dfa d).transitions p with
      | .error e => .error e
      | .ok (some pl, p') => .ok (some pl, p')
      | .ok (none, p') => try_pushes g f rest next_transitions p'

end

/-- Modelled from the spec: the tree node and leaf value types live in
`parso.tree`, outside the engine source; §3 gives their shape.  A Node is
a rule name plus an ordered, owned list of children; a Leaf is text,
start position and leading trivia (the default constructor `tree.Leaf` is
called as `Leaf(value, start_pos, prefix)`).  Parent back-references are
non-owning lookups (§3, §9) and are not part of the value. -/
inductive PTree where
  | leaf (value : String) (start_pos : Nat × Nat) (pfx : String)
  | node (rule : String) (children : List PTree)

mutual

/-- Decidable equality for trees (the nested `List PTree` defeats
`deriving`). -/
def PTree.decEq : (a b : PTree) → Decidable (a = b)
  | .leaf v s pf, .leaf v' s' pf' =>
    if h : v = v' ∧ s = s' ∧ pf = pf' then
      isTrue (by obtain ⟨h1, h2, h3⟩ := h; rw [h1, h2, h3])
    else
      isFalse (fun he => by cases he; exact h ⟨rfl, rfl, rfl⟩)
  | .leaf _ _ _, .node _ _ => isFalse (fun he => by cases he)
  | .node _ _, .leaf _ _ _ => isFalse (fun he => by cases he)
  | .node r cs, .node r' cs' =>
    if h1 : r = r' then
      match PTree.decEqList cs cs' with
      | isTrue h2 => isTrue (by rw [h1, h2])
      | isFalse h2 => isFalse (fun he => by cases he; exact h2 rfl)
    else
      isFalse (fun he => by cases he; exact h1 rfl)

/-- Decidable equality for lists of trees. -/
def PTree.decEqList : (a b : List PTree) → Decidable (a = b)
  | [], [] => isTrue rfl
  | [], _ :: _ => isFalse (fun he => by cases he)
  | _ :: _, [] => isFalse (fun he => by cases he)
  | a :: as, b :: bs =>
    match PTree.decEq a b, PTree.decEqList as bs with
    | isTrue h1, isTrue h2 => isTrue (by rw [h1, h2])
    | isFalse h1, _ => isFalse (fun he => by cases he; exact h1 rfl)
    | _, isFalse h2 => isFalse (fun he => by cases he; exact h2 rfl)

end

instance : DecidableEq PTree := PTree.decEq

/-- `StackNode`: a frame of the parse stack — the current DFA cursor and
the already-built children. -/
structure StackNode where
  dfa : Nat
  nodes : List PTree
deriving DecidableEq

/-- `BaseParser.convert_node`: `node_map` is empty in the base parser, so
this always builds the default `tree.Node` from the rule name and
children (setting each child's non-owning parent pointer, not
modelled). -/
def convert_node (nonterminal : String) (children : List PTree) : PTree :=
  .node nonterminal children

/-- `BaseParser.convert_leaf`: `leaf_map` is empty in the base parser, so
this always builds the default `tree.Leaf(value, start_pos, prefix)` (the
token type only selects the constructor and is dropped by the default
one). -/
def convert_leaf (typ : TokType) (value : String) (pfx : String)
    (start_pos : Nat × Nat) : PTree :=
  .leaf value start_pos pfx

/-- The node built by `BaseParser._pop` from the popped frame: the single
child itself when there is exactly one, else a `convert_node` wrapper of
the frame's rule. -/
def pop_new_node (g : Grammar) (tos : StackNode) : PTree :=
  match tos.nodes with
  | [n] => n
  | ns => convert_node (g.dfa tos.dfa).from_rule ns

/-- `BaseParser.error_recovery(token)`: with error recovery enabled the
base class raises `NotImplementedError`; otherwise it unpacks the token
and raises `ParserSyntaxError('SyntaxError: invalid syntax', ErrorLeaf
(type_, value, start_pos, prefix))`.  The error-leaf fields are embedded
in the `syntaxErr` value. -/
def error_recovery (err_rec : Bool) (token : Token) : PErr :=
  if err_rec then .notImplemented
  else .syntaxErr "SyntaxError: invalid syntax" token.typ token.string
    token.start_pos token.pfx

/-- The `while True` retry loop of `BaseParser._add_token`.  The stack is
stored top-first (`stack.head` is Python's `stack[-1]`).  On a missing
plan: a final top frame is popped (`_pop`) and the token retried; a
non-final one goes to `error_recovery` (`ParserSyntaxError` when error
recovery is disabled, `NotImplementedError` otherwise).  `_pop` on a
single-frame stack underflows: the `IndexError` is raised inside the
`except KeyError` handler, so it escapes uncaught (`PErr.indexErr`) — the
`except IndexError → InternalParseError("too much input")` arm only
guards the lookup in the `try` block itself. -/
def add_token_loop (g : Grammar) (fuel : Nat) (err_rec : Bool) (token : Token)
    (possible_transitions : List TransitionKey) :
    Nat → List StackNode → Proxy → Except PErr (List StackNode × Proxy)
  | 0, _, _ =>
    -- The loop pops one frame per iteration, so `stack.length + 1` rounds
    -- always suffice; this is the embedding's bound, never reached.
    .error .fuel
  | _ + 1, [], _ =>
    -- `stack[-1].dfa.transitions` inside the `try` would raise IndexError,
    -- caught and re-raised as "too much input"; unreachable from `parse`.
    .error (.internalErr "too much input" token.typ token.string token.start_pos)
  | lf + 1, tos :: rest, p =>
    match get_possible_plan g fuel possible_transitions
        (g.dfa tos.dfa).transitions p with
    | .error e => .error e
    | .ok (some plan, p') =>
      -- stack[-1].dfa = plan.next_dfa; push a frame per dfa_push; then
      -- append the leaf to the new top of stack.
      let stack2 := plan.dfa_pushes.reverse.map (fun d => (⟨d, []⟩ : StackNode))
        ++ ({ tos with dfa := plan.next_dfa } :: rest)
      match stack2 with
      | [] => .error .indexErr  -- unreachable: stack2 is nonempty
      | top :: rest2 =>
        let leaf := convert_leaf token.typ token.string token.pfx token.start_pos
        .ok ({ top with nodes := top.nodes ++ [leaf] } :: rest2, p')
    | .ok (none, p') =>
      if (g.dfa tos.dfa).is_final then
        match rest with
        | [] => .error .indexErr  -- `_pop` underflow: bare IndexError escapes
        | parent :: below =>
            add_token_loop g fuel err_rec token possible_transitions lf
              ({ parent with nodes := parent.nodes ++ [pop_new_node g tos] }
                :: below) p'
      else
        .error (error_recovery err_rec token)

/-- `BaseParser._add_token(token)`: compute the candidate transition keys
once, then run the retry loop (with its always-sufficient round bound). -/
def add_token (g : Grammar) (fuel : Nat) (err_rec : Bool) (token : Token)
    (stack : List StackNode) (p : Proxy) :
    Except PErr (List StackNode × Proxy) :=
  add_token_loop g fuel err_rec token
    (token_to_transition g token.typ token.string) (stack.length + 1) stack p

/-- The `for token in self._tokens` driving loop of `BaseParser.parse`:
pull from the proxy, feed `_add_token`, and remember the last token seen
(the loop variable `token` read again after the loop). -/
def main_loop (g : Grammar) (err_rec : Bool) :
    Nat → List StackNode → Proxy → Option Token →
    Except PErr (List StackNode × Proxy × Option Token)
  | 0, _, _, _ => .error .fuel
  | f + 1, stack, p, last =>
    match p.next with
    | .error e => .error e
    | .ok none => .ok (stack, p, last)
    | .ok (some (token, p')) =>
      match add_token g (f + 1) err_rec token stack p' with
      | .error e => .error e
      | .ok (stack', p'') => main_loop g err_rec f stack' p'' (some token)

/-- The `while True` reduce-to-root phase of `BaseParser.parse` after the
token source is exhausted: a non-final top frame raises
`InternalParseError("incomplete input", ...)` naming the last token (the
loop variable is unbound when the source was empty: `PErr.nameErr`);
otherwise pop until one frame remains and convert it. -/
def finish_loop (g : Grammar) (last : Option Token) :
    Nat → List StackNode → Except PErr PTree
  | 0, _ =>
    -- One frame is popped per round, so `stack.length + 1` rounds always
    -- suffice; this is the embedding's bound, never reached.
    .error .fuel
  | _ + 1, [] => .error .indexErr  -- `self.stack[-1]` on an empty stack
  | lf + 1, tos :: rest =>
    if (g.dfa tos.dfa).is_final then
      match rest with
      | [] => .ok (convert_node (g.dfa tos.dfa).from_rule tos.nodes)
      | parent :: below =>
          finish_loop g last lf
            ({ parent with nodes := parent.nodes ++ [pop_new_node g tos] }
              :: below)
    else
      match last with
      | some t => .error (.internalErr "incomplete input" t.typ t.string
          t.start_pos)
      | none => .error .nameErr

/-- `BaseParser.parse(tokens)` with the given error-recovery flag: one
frame for the start DFA, a fresh proxy over the token source, the driving
loop, then the reduce-to-root phase. -/
def parse (g : Grammar) (fuel : Nat) (err_rec : Bool) (tokens : List Token) :
    Except PErr PTree :=
  match main_loop g err_rec fuel [(⟨g.start_dfa, []⟩ : StackNode)]
      ⟨tokens, 0, 0, []⟩ none with
  | .error e => .error e
  | .ok (stack', _, last) => finish_loop g last (stack'.length + 1) stack'

/-! ## Observations and buffer invariants -/

/-- The stream of tokens an observer obtains from `k` successive
sequential `next()` calls on the buffer (stopping at `StopIteration` or
any raised exception). -/
def deliver : Nat → Proxy → List Token
  | 0, _ => []
  | k + 1, p =>
    match p.next with
    | .ok (some (t, p')) => t :: deliver k p'
    | _ => []

/-- Peek `n` tokens ahead inside the innermost speculative scope:
`eat(0) … eat(n-1)`. -/
def peekN (p : Proxy) (n : Nat) : Proxy :=
  (List.range n).foldl (fun q i => (q.eat i).2) p

mutual

/-- The code a tree reproduces: each leaf contributes its prefix followed
by its text, in left-to-right leaf order. -/
def PTree.code : PTree → String
  | .leaf v _ pf => pf ++ v
  | .node _ cs => PTree.codeList cs

/-- `PTree.code` over a children list. -/
def PTree.codeList : List PTree → String
  | [] => ""
  | t :: ts => PTree.code t ++ PTree.codeList ts

end

/-- The code of a token sequence: prefix followed by text for each
token. -/
def tokensCode : List Token → String
  | [] => ""
  | t :: ts => t.pfx ++ t.string ++ tokensCode ts

/-- Well-formed release ranges over the source, starting no earlier than
`prevStop`: every range is closed, its `stop` is `start` plus its cache
size, it lies inside the source, its cache is exactly the source tokens
of positions `[start, stop)`, and consecutive ranges do not overlap. -/
def rangesWF (src : List Token) : Nat → List ReleaseRange → Bool
  | _, [] => true
  | prevStop, r :: rest =>
    r.stop == some (r.start + r.cache.length) &&
    prevStop ≤ r.start &&
    r.start + r.cache.length ≤ src.length &&
    r.cache == (src.drop r.start).take r.cache.length &&
    rangesWF src (r.start + r.cache.length) rest

/-- The `stop` of the last release range (0 when there is none): under
`rangesWF` this is the least position past every recorded range. -/
def lastStop : List ReleaseRange → Nat
  | [] => 0
  | [r] => r.stop.getD 0
  | _ :: rest => lastStop rest

/-- A buffer state whose speculation record is intact: ranges well formed
and opened no later than the current read position, with the raw cursor
at the maximum of the read position and the cached frontier.  Every state
reachable by opening scopes only at fresh positions satisfies this. -/
def good (p : Proxy) : Bool :=
  rangesWF p.src 0 p.release_ranges &&
  p.release_ranges.all (fun r => r.start ≤ p.counter) &&
  p.counter ≤ p.src.length &&
  p.srcPos == max p.counter (lastStop p.release_ranges)

/-- A buffer state with no cached-but-unconsumed tokens pending replay:
the next sequential read comes fresh from the raw source. -/
def atFresh (p : Proxy) : Bool :=
  lastStop p.release_ranges ≤ p.counter

/-- A buffer in the middle of an open speculative scope: the closed
prefix of the record is well formed, and the single open last range
started at the current read position (scopes never advance `counter`),
with its cache aligned on the raw source. -/
def goodOpen (p : Proxy) (closed : List ReleaseRange) : Bool :=
  (p.release_ranges ==
    closed ++ [⟨p.counter, none, (p.src.drop p.counter).take
      (p.srcPos - p.counter)⟩]) &&
  rangesWF p.src 0 closed &&
  closed.all (fun r => r.start ≤ p.counter) &&
  lastStop closed ≤ p.counter &&
  p.counter ≤ p.srcPos &&
  p.srcPos ≤ p.src.length

/-! ## Pure counterparts of the speculative resolver -/

/-- The `possible_plans` list computed by `get_possible_plan`: the plans
of the matching transition keys, in candidate order. -/
def plansOf (possible_transitions : List TransitionKey)
    (transition_table : List (TransitionKey × Plan)) : List Plan :=
  possible_transitions.filterMap
    (fun tr => (transition_table.find? (fun e => e.1 == tr)).map Prod.snd)

/-- The scan of `try_pushes` when every consulted table is unambiguous:
skip push states whose table offers no plan for the token, stop at the
first offering exactly one.  An ambiguous consultation (two or more
matching plans) is the nested-speculation case, which always corrupts
the speculation record; the scan conservatively reports `none` there and
the corruption is tracked separately through `poisoned`. -/
def scanHit (g : Grammar) : List Nat → List TransitionKey → Option Plan
  | [], _ => none
  | d :: rest, K =>
    match plansOf K (g.dfa d).transitions with
    | [] => scanHit g rest K
    | [pl] => some pl
    | _ => none

/-- One candidate's simulated continuation chain: starting from `P`, each
listed plan is obtained from the previous one's pushed states by an
unambiguous `scanHit` on the corresponding lookahead token. -/
def chain_ok (g : Grammar) : Plan → List Plan → List Token → Bool
  | _, [], [] => true
  | P, P' :: L, t :: ts =>
    (scanHit g P.dfa_pushes.reverse
      (token_to_transition g t.typ t.string) == some P') &&
    chain_ok g P' L ts
  | _, _, _ => false

/-- The pure table evolution of one `extend_table` round (valid when no
consultation of the round was ambiguous): dead candidates are skipped, a
failed scan kills the candidate, a successful one appends the matched
plan to its branch. -/
def extend_pure (g : Grammar) (dead : List Plan) :
    List (Plan × List Plan) → List TransitionKey →
    List Plan × List (Plan × List Plan)
  | [], _ => (dead, [])
  | (origin, branch) :: rest, K =>
    if dead.contains origin then
      let r := extend_pure g dead rest K
      (r.1, (origin, branch) :: r.2)
    else
      match scanHit g (branch.getLast?.getD origin).dfa_pushes.reverse K with
      | none =>
        let r := extend_pure g (dead ++ [origin]) rest K
        (r.1, (origin, branch) :: r.2)
      | some np =>
        let r := extend_pure g dead rest K
        (r.1, (origin, branch ++ [np]) :: r.2)

/-- A corrupted speculation record: some release range other than the
last is still open (`stop = none`).  `release()`'s exit only ever locks
the *last* range, so such a range can never be closed again, and every
subsequent sequential `__next__` either replays an earlier cache or trips
`assert end is not None` — it can never report `StopIteration`. -/
def poisoned : List ReleaseRange → Bool
  | [] => false
  | [_] => false
  | r :: rest => r.stop.isNone || poisoned rest

/-- The code accumulated on the parse stack: the concatenated leaf code
of every frame's children, outermost frame last (the stack is stored
top-first, so the head frame's children come last). -/
def stackCode : List StackNode → String
  | [] => ""
  | f :: rest => stackCode rest ++ PTree.codeList f.nodes

/-- Driving-loop phase: the buffer is intact and at a fresh position
(the next sequential read pulls from the raw generator). -/
def phaseFresh (p : Proxy) : Prop := good p = true ∧ atFresh p = true

/-- Driving-loop phase: the buffer is intact mid-replay of a resolved
lookahead window, and the stack's top block carries the winning plan's
pushed states, whose simulated chain covers the rest of the window. -/
def phaseReplay (g : Grammar) (stack : List StackNode) (p : Proxy) : Prop :=
  good p = true ∧ p.counter < lastStop p.release_ranges ∧
  ∃ (B rest : List StackNode) (P : Plan) (L : List Plan),
    stack = B ++ rest ∧
    B.map StackNode.dfa = P.dfa_pushes.reverse ∧
    L.length = lastStop p.release_ranges - p.counter ∧
    chain_ok g P L ((p.src.drop p.counter).take L.length) = true

/-- Driving-loop phase: the raw generator is exhausted and the recorded
ranges replay exactly the remaining source tokens (an empty scan result
at the very end is the coming `StopIteration`). -/
def phaseExh (p : Proxy) : Prop :=
  p.srcPos = p.src.length ∧ p.counter ≤ p.src.length ∧
  ∀ c, p.counter ≤ c → c ≤ p.src.length →
    scanRanges c p.release_ranges = .ok p.src[c]?

/-- The driving-loop invariant: one of the three phases holds. -/
def loopInv (g : Grammar) (stack : List StackNode) (p : Proxy) : Prop :=
  phaseFresh p ∨ phaseReplay g stack p ∨ phaseExh p

/-! ## Concrete instances -/

/-- The NAME token type (participates in keyword syntax). -/
def tNAME : TokType := ⟨"NAME", true⟩

/-- The ENDMARKER token type. -/
def tEND : TokType := ⟨"ENDMARKER", false⟩

/-- A NAME token at line 1 and the given column, with a one-space
prefix. -/
def mkName (s : String) (col : Nat) : Token := ⟨tNAME, s, (1, col), " "⟩

/-- An ENDMARKER token. -/
def mkEnd (col : Nat) : Token := ⟨tEND, "", (1, col), ""⟩

/-- The transition key of the soft reserved string `"a"`. -/
def keyA : TransitionKey := .ofReserved ⟨"a", true⟩

/-- Five distinct NAME tokens, the source of the buffer
counterexample. -/
def src5 : List Token :=
  [mkName "a" 0, mkName "b" 1, mkName "c" 2, mkName "d" 3, mkName "e" 4]

/-- A fresh buffer over `src5`. -/
def prox0 : Proxy := ⟨src5, 0, 0, []⟩

/-- `prox0` after one speculative scope that peeked three tokens and was
abandoned, and one sequential `next()` — a reachable state that still has
two cached tokens pending replay. -/
def proxMid : Proxy :=
  match (((prox0.releaseOpen.eat 0).2.eat 1).2.eat 2).2.releaseClose.next with
  | .ok (some (_, q)) => q
  | _ => prox0

/-- Grammar for the nested-speculation failing input: the start state and
the pushed state `X` both hold plans for the soft key `"a"` and for NAME,
so the lookahead recursion speculates inside a speculation. -/
def gram5 : Grammar :=
  { dfas :=
      [ ⟨"S", false, [(keyA, ⟨10, [1]⟩), (.ofType tNAME, ⟨10, [2]⟩)]⟩
      , ⟨"X", false, [(keyA, ⟨11, [3]⟩), (.ofType tNAME, ⟨11, [4]⟩)]⟩
      , ⟨"Y", false, [(.ofType tEND, ⟨12, []⟩)]⟩
      , ⟨"Z", false, [(.ofType tNAME, ⟨12, []⟩)]⟩
      , ⟨"W", false, [(.ofType tEND, ⟨12, []⟩)]⟩
      ]
    reserved_strings := [("a", true)]
    start_dfa := 0 }

/-- Tokens driving `gram5` into nested speculation: two soft keywords in
a row. -/
def toks5 : List Token := [mkName "a" 0, mkName "a" 2, mkName "x" 4, mkEnd 5]

/-- A plan reached through the reserved-string key in `gram2`. -/
def planRes : Plan := ⟨1, []⟩

/-- A plan reached through the token-type key in `gram2`. -/
def planTyp : Plan := ⟨2, []⟩

/-- Grammar whose start state registers the NAME-type transition *before*
the soft reserved string `"a"`: under the claim, a tie should go to
`planTyp`. -/
def gram2 : Grammar :=
  { dfas := [ ⟨"S", false, [(.ofType tNAME, planTyp), (keyA, planRes)]⟩ ]
    reserved_strings := [("a", true)]
    start_dfa := 0 }

/-- Grammar with a unit-production `expr_stmt` (state 3): per the code
comment, `expr_stmt` should still be created, yet `_pop` elides it. -/
def gram6 : Grammar :=
  { dfas :=
      [ ⟨"file", false, [(.ofType tNAME, ⟨1, [3]⟩)]⟩
      , ⟨"file", false, [(.ofType tEND, ⟨2, []⟩)]⟩
      , ⟨"file", true, []⟩
      , ⟨"expr_stmt", true, []⟩
      ]
    reserved_strings := []
    start_dfa := 0 }

/-- Tokens for `gram6`: one NAME (the single `expr_stmt` child) and the
end marker. -/
def toks6 : List Token := [mkName "x" 0, mkEnd 1]

/-- A two-state grammar accepting exactly one NAME. -/
def gram7 : Grammar :=
  { dfas := [ ⟨"S", false, [(.ofType tNAME, ⟨1, []⟩)]⟩, ⟨"S", true, []⟩ ]
    reserved_strings := []
    start_dfa := 0 }

/-- A grammar requiring two NAMEs; one NAME leaves the cursor
non-final. -/
def gram8 : Grammar :=
  { dfas := [ ⟨"S", false, [(.ofType tNAME, ⟨1, []⟩)]⟩,
              ⟨"S", false, [(.ofType tNAME, ⟨2, []⟩)]⟩,
              ⟨"S", true, []⟩ ]
    reserved_strings := []
    start_dfa := 0 }

/-- A grammar whose start state is final: an unmatched token on the
lone final frame makes `_pop` underflow. -/
def gram10 : Grammar :=
  { dfas := [ ⟨"S", true, [(.ofType tNAME, ⟨0, []⟩)]⟩ ]
    reserved_strings := []
    start_dfa := 0 }

/-- A soft-keyword grammar where `"a"` opens either a keyword construct
(push `KW`, continued by NAME) or a name expression (push `NM`, continued
by ENDMARKER); used as the witness for successful disambiguation. -/
def gramS : Grammar :=
  { dfas :=
      [ ⟨"S", false, [(keyA, ⟨1, [2]⟩), (.ofType tNAME, ⟨1, [4]⟩)]⟩
      , ⟨"S", false, [(.ofType tEND, ⟨6, []⟩)]⟩
      , ⟨"KW", false, [(.ofType tNAME, ⟨3, []⟩)]⟩
      , ⟨"KW", true, []⟩
      , ⟨"NM", false, [(.ofType tEND, ⟨5, []⟩)]⟩
      , ⟨"NM", true, []⟩
      , ⟨"S", true, []⟩
      ]
    reserved_strings := [("a", true)]
    start_dfa := 0 }

/-- Tokens resolved to the keyword branch of `gramS`. -/
def toksS : List Token := [mkName "a" 0, mkName "x" 2, mkEnd 3]

deriving instance DecidableEq for Except

/-! ## Theorems -/

/-! ### Buffer lemmas -/

theorem good_parts {p : Proxy} (h : good p = true) :
    rangesWF p.src 0 p.release_ranges = true ∧
    (∀ r ∈ p.release_ranges, r.start ≤ p.counter) ∧
    p.counter ≤ p.src.length ∧
    p.srcPos = max p.counter (lastStop p.release_ranges) := by
  simp only [good, Bool.and_eq_true, List.all_eq_true, decide_eq_true_eq,
    beq_iff_eq] at h
  tauto

theorem lastStop_cons {r : ReleaseRange} {rest : List ReleaseRange}
    (h : rest ≠ []) : lastStop (r :: rest) = lastStop rest := by
  cases rest with
  | nil => exact absurd rfl h
  | cons a l => rfl

theorem rangesWF_parts {src : List Token} {prev : Nat} {r : ReleaseRange}
    {rest : List ReleaseRange}
    (h : rangesWF src prev (r :: rest) = true) :
    r.stop = some (r.start + r.cache.length) ∧ prev ≤ r.start ∧
    r.start + r.cache.length ≤ src.length ∧
    r.cache = (src.drop r.start).take r.cache.length ∧
    rangesWF src (r.start + r.cache.length) rest = true := by
  simp only [rangesWF, Bool.and_eq_true, beq_iff_eq, decide_eq_true_eq] at h
  tauto

theorem rangesWF_lastStop_ge {src : List Token} {prev : Nat}
    {rs : List ReleaseRange} (h : rangesWF src prev rs = true)
    (hne : rs ≠ []) : prev ≤ lastStop rs := by
  induction rs generalizing prev with
  | nil => exact absurd rfl hne
  | cons r rest ih =>
    obtain ⟨h1, h2, h3, h4, h5⟩ := rangesWF_parts h
    cases rest with
    | nil => simp [lastStop, h1]; omega
    | cons a l =>
      rw [lastStop_cons (by simp)]
      exact le_trans (by omega) (ih h5 (by simp))

theorem rangesWF_lastStop_le_len {src : List Token} {prev : Nat}
    {rs : List ReleaseRange} (h : rangesWF src prev rs = true) :
    lastStop rs ≤ src.length := by
  induction rs generalizing prev with
  | nil => simp [lastStop]
  | cons r rest ih =>
    obtain ⟨h1, h2, h3, h4, h5⟩ := rangesWF_parts h
    cases rest with
    | nil => simp [lastStop, h1]; omega
    | cons a l => rw [lastStop_cons (by simp)]; exact ih h5

theorem scanRanges_good {src : List Token} {prev c : Nat}
    {rs : List ReleaseRange} (h : rangesWF src prev rs = true)
    (hst : ∀ r ∈ rs, r.start ≤ c) :
    scanRanges c rs = .ok (if c < lastStop rs then src[c]? else none) := by
  induction rs generalizing prev with
  | nil => simp [scanRanges, lastStop]
  | cons r rest ih =>
    obtain ⟨h1, h2, h3, h4, h5⟩ := rangesWF_parts h
    have hstart : r.start ≤ c := hst r (by simp)
    have hred : scanRanges c (r :: rest) =
        if r.start ≤ c ∧ c < r.start + r.cache.length then
          (match r.cache[c - r.start]? with
            | some t => Except.ok (some t)
            | none => Except.error PErr.indexErr)
        else scanRanges c rest := by
      rw [scanRanges, h1]
    rw [hred]
    by_cases hc : c < r.start + r.cache.length
    · -- served from this range
      have hidx : c - r.start < r.cache.length := by omega
      have hgc : r.cache[c - r.start]? = src[c]? := by
        rw [h4]
        rw [List.getElem?_take_of_lt hidx, List.getElem?_drop]
        congr 1
        omega
      have hclen : c < src.length := by omega
      have hstop : c < lastStop (r :: rest) := by
        cases rest with
        | nil => simp [lastStop, h1]; omega
        | cons a l =>
          rw [lastStop_cons (by simp)]
          have := rangesWF_lastStop_ge h5 (by simp)
          omega
      rw [if_pos hstop, if_pos (And.intro hstart hc), hgc]
      cases hx : src[c]? with
      | none => rw [List.getElem?_eq_none_iff] at hx; omega
      | some t => rfl
    · -- skip to the later ranges
      rw [if_neg (fun hand => hc hand.2)]
      cases rest with
      | nil =>
        have hns : ¬ c < lastStop [r] := by simp [lastStop, h1]; omega
        rw [if_neg hns]
        simp [scanRanges]
      | cons a l =>
        rw [ih h5 (fun q hq => hst q (by simp [hq]))]
        rw [show lastStop (r :: a :: l) = lastStop (a :: l) from
          lastStop_cons (by simp)]

theorem next_good_some {p : Proxy} {t : Token} (h : good p = true)
    (hx : p.src[p.counter]? = some t) :
    ∃ p', p.next = .ok (some (t, p')) ∧ good p' = true ∧
      p'.counter = p.counter + 1 ∧ p'.src = p.src := by
  obtain ⟨h1, h2, h3, h4⟩ := good_parts h
  have hlen : p.counter < p.src.length := by
    by_contra hge
    rw [List.getElem?_eq_none_iff.2 (by omega)] at hx
    cases hx
  have hlast := rangesWF_lastStop_le_len h1
  have hscan : scanRanges p.counter p.release_ranges =
      .ok (if p.counter < lastStop p.release_ranges then
        p.src[p.counter]? else none) := scanRanges_good h1 h2
  rw [Proxy.next, hscan]
  by_cases hlt : p.counter < lastStop p.release_ranges
  · -- replayed from a closed range
    rw [if_pos hlt, hx]
    refine ⟨_, rfl, ?_, rfl, rfl⟩
    simp only [good, Bool.and_eq_true, List.all_eq_true, decide_eq_true_eq,
      beq_iff_eq]
    refine ⟨⟨⟨h1, fun r hr => ?_⟩, ?_⟩, ?_⟩
    · have := h2 r hr; omega
    · omega
    · omega
  · -- pulled fresh from the raw generator
    rw [if_neg hlt]
    have hpos : p.srcPos = p.counter := by omega
    rw [Proxy.rawNext, hpos, hx]
    refine ⟨_, rfl, ?_, rfl, rfl⟩
    simp only [good, Bool.and_eq_true, List.all_eq_true, decide_eq_true_eq,
      beq_iff_eq]
    refine ⟨⟨⟨h1, fun r hr => ?_⟩, ?_⟩, ?_⟩
    · have := h2 r hr; omega
    · omega
    · omega

theorem next_good_none {p : Proxy} (h : good p = true)
    (hx : p.src[p.counter]? = none) :
    p.next = .ok none := by
  obtain ⟨h1, h2, h3, h4⟩ := good_parts h
  have hlen : p.src.length ≤ p.counter := by
    by_contra hge
    rw [List.getElem?_eq_getElem (by omega)] at hx
    cases hx
  have hlast := rangesWF_lastStop_le_len h1
  have hscan : scanRanges p.counter p.release_ranges =
      .ok (if p.counter < lastStop p.release_ranges then
        p.src[p.counter]? else none) := scanRanges_good h1 h2
  rw [Proxy.next, hscan, if_neg (by omega)]
  have hpos : p.srcPos = p.counter := by omega
  rw [Proxy.rawNext, hpos, hx]

theorem deliver_good {p : Proxy} (h : good p = true) (k : Nat) :
    deliver k p = (p.src.drop p.counter).take k := by
  induction k generalizing p with
  | zero => simp [deliver]
  | succ k ih =>
    cases hx : p.src[p.counter]? with
    | some t =>
      obtain ⟨p', hnext, hg', hc', hs'⟩ := next_good_some h hx
      rw [deliver, hnext]
      have hlen : p.counter < p.src.length := by
        by_contra hge
        rw [List.getElem?_eq_none_iff.2 (by omega)] at hx
        cases hx
      show t :: deliver k p' = (p.src.drop p.counter).take (k + 1)
      rw [ih hg', hc', hs']
      rw [List.drop_eq_getElem_cons hlen]
      have ht : p.src[p.counter] = t := by
        rw [List.getElem?_eq_getElem hlen] at hx
        exact Option.some.inj hx
      rw [ht, List.take_succ_cons]
    | none =>
      rw [deliver, next_good_none h hx]
      have hlen : p.src.length ≤ p.counter := by
        by_contra hge
        rw [List.getElem?_eq_getElem (by omega)] at hx
        cases hx
      rw [List.drop_eq_nil_of_le hlen]
      simp

theorem lastStop_concat (rs : List ReleaseRange) (r : ReleaseRange) :
    lastStop (rs ++ [r]) = r.stop.getD 0 := by
  induction rs with
  | nil => rfl
  | cons a l ih =>
    rw [List.cons_append,
      lastStop_cons (by simp), ih]

theorem rangesWF_append_one {src : List Token} {prev : Nat}
    {rs : List ReleaseRange} {r' : ReleaseRange}
    (h : rangesWF src prev rs = true) (h0 : prev ≤ r'.start)
    (h1 : lastStop rs ≤ r'.start)
    (h2 : r'.stop = some (r'.start + r'.cache.length))
    (h3 : r'.start + r'.cache.length ≤ src.length)
    (h4 : r'.cache = (src.drop r'.start).take r'.cache.length) :
    rangesWF src prev (rs ++ [r']) = true := by
  induction rs generalizing prev with
  | nil =>
    simp only [List.nil_append, rangesWF, Bool.and_eq_true, beq_iff_eq,
      decide_eq_true_eq]
    exact ⟨⟨⟨⟨h2, h0⟩, h3⟩, by rw [← h4]⟩, trivial⟩
  | cons a l ih =>
    obtain ⟨g1, g2, g3, g4, g5⟩ := rangesWF_parts h
    have hl : lastStop l ≤ r'.start := by
      cases l with
      | nil => simp [lastStop]
      | cons b m =>
        rw [lastStop_cons (by simp)] at h1
        exact h1
    have hstep : a.start + a.cache.length ≤ r'.start := by
      cases l with
      | nil => simp [lastStop, g1] at h1; omega
      | cons b m =>
        have := rangesWF_lastStop_ge g5 (by simp)
        rw [lastStop_cons (by simp)] at h1
        omega
    simp only [List.cons_append, rangesWF, Bool.and_eq_true, beq_iff_eq,
      decide_eq_true_eq]
    refine ⟨⟨⟨⟨g1, g2⟩, g3⟩, by rw [← g4]⟩, ?_⟩
    exact ih g5 hstep hl

theorem goodOpen_parts {p : Proxy} {closed : List ReleaseRange}
    (h : goodOpen p closed = true) :
    p.release_ranges = closed ++ [⟨p.counter, none,
      (p.src.drop p.counter).take (p.srcPos - p.counter)⟩] ∧
    rangesWF p.src 0 closed = true ∧
    (∀ r ∈ closed, r.start ≤ p.counter) ∧
    lastStop closed ≤ p.counter ∧
    p.counter ≤ p.srcPos ∧ p.srcPos ≤ p.src.length := by
  simp only [goodOpen, Bool.and_eq_true, List.all_eq_true, beq_iff_eq,
    decide_eq_true_eq] at h
  tauto

theorem good_intro {p : Proxy}
    (hB : rangesWF p.src 0 p.release_ranges = true)
    (hC : ∀ r ∈ p.release_ranges, r.start ≤ p.counter)
    (hD : p.counter ≤ p.src.length)
    (hE : p.srcPos = max p.counter (lastStop p.release_ranges)) :
    good p = true := by
  simp only [good, Bool.and_eq_true, beq_iff_eq, List.all_eq_true,
    decide_eq_true_eq]
  exact ⟨⟨⟨hB, hC⟩, hD⟩, hE⟩

theorem goodOpen_intro {p : Proxy} {closed : List ReleaseRange}
    (hA : p.release_ranges = closed ++ [⟨p.counter, none,
      (p.src.drop p.counter).take (p.srcPos - p.counter)⟩])
    (hB : rangesWF p.src 0 closed = true)
    (hC : ∀ r ∈ closed, r.start ≤ p.counter)
    (hD : lastStop closed ≤ p.counter)
    (hE : p.counter ≤ p.srcPos) (hF : p.srcPos ≤ p.src.length) :
    goodOpen p closed = true := by
  simp only [goodOpen, Bool.and_eq_true, beq_iff_eq, List.all_eq_true,
    decide_eq_true_eq]
  exact ⟨⟨⟨⟨⟨hA, hB⟩, hC⟩, hD⟩, hE⟩, hF⟩

theorem releaseOpen_goodOpen {p : Proxy} (hg : good p = true)
    (hf : atFresh p = true) :
    goodOpen p.releaseOpen p.release_ranges = true := by
  obtain ⟨h1, h2, h3, h4⟩ := good_parts hg
  simp only [atFresh, decide_eq_true_eq] at hf
  have hpos : p.srcPos = p.counter := by omega
  refine goodOpen_intro ?_ h1 h2 hf
    (by simp only [Proxy.releaseOpen]; omega)
    (by simp only [Proxy.releaseOpen]; omega)
  simp only [Proxy.releaseOpen, hpos]
  simp

theorem pullN_goodOpen {p : Proxy} {closed : List ReleaseRange}
    (h : goodOpen p closed = true) (n : Nat) :
    goodOpen (p.pullN n).1 closed = true ∧
    (p.pullN n).1.counter = p.counter ∧ (p.pullN n).1.src = p.src := by
  induction n generalizing p with
  | zero => exact ⟨h, rfl, rfl⟩
  | succ n ih =>
    obtain ⟨h1, h2, h3, h4, h5, h6⟩ := goodOpen_parts h
    rw [Proxy.pullN, Proxy.rawNext]
    cases hx : p.src[p.srcPos]? with
    | none => exact ⟨h, rfl, rfl⟩
    | some t =>
      have hlt : p.srcPos < p.src.length := by
        by_contra hge
        rw [List.getElem?_eq_none_iff.2 (by omega)] at hx
        cases hx
      have hcache : (p.src.drop p.counter).take (p.srcPos - p.counter)
          ++ [t] = (p.src.drop p.counter).take (p.srcPos + 1 - p.counter) := by
        have hm : p.srcPos + 1 - p.counter = (p.srcPos - p.counter) + 1 := by
          omega
        rw [hm, List.take_succ]
        have hdg : (p.src.drop p.counter)[p.srcPos - p.counter]? = some t := by
          rw [List.getElem?_drop]
          rw [show p.counter + (p.srcPos - p.counter) = p.srcPos by omega]
          exact hx
        rw [hdg]
        rfl
      have hg' : goodOpen (({ p with srcPos := p.srcPos + 1 } :
          Proxy).modifyLast
          (fun r => { r with cache := r.cache ++ [t] })) closed = true := by
        refine goodOpen_intro ?_ h2 h3 h4 (by simp [Proxy.modifyLast]; omega)
          (by simp [Proxy.modifyLast]; omega)
        simp only [Proxy.modifyLast, h1]
        rw [List.getLast?_concat, List.dropLast_concat]
        simp only [List.cons_append, List.nil_append]
        rw [hcache]
      obtain ⟨i1, i2, i3⟩ := ih hg'
      refine ⟨i1, ?_, ?_⟩
      · rw [i2]; simp [Proxy.modifyLast]
      · rw [i3]; simp [Proxy.modifyLast]

theorem eat_goodOpen {p : Proxy} {closed : List ReleaseRange}
    (h : goodOpen p closed = true) (pt : Nat) :
    goodOpen (p.eat pt).2 closed = true ∧
    (p.eat pt).2.counter = p.counter ∧ (p.eat pt).2.src = p.src := by
  rw [Proxy.eat]
  by_cases hc : pt < p.lastCache.length
  · simp only [hc, if_true]
    refine ⟨h, ?_, ?_⟩ <;> trivial
  · simp only [hc, if_false]
    obtain ⟨i1, i2, i3⟩ := pullN_goodOpen h (pt + 1 - p.lastCache.length)
    cases hp : p.pullN (pt + 1 - p.lastCache.length) with
    | mk q b =>
      rw [hp] at i1 i2 i3
      cases b
      · exact ⟨i1, i2, i3⟩
      · exact ⟨i1, i2, i3⟩

theorem peekN_goodOpen {p : Proxy} {closed : List ReleaseRange}
    (h : goodOpen p closed = true) (n : Nat) :
    goodOpen (peekN p n) closed = true ∧
    (peekN p n).counter = p.counter ∧ (peekN p n).src = p.src := by
  induction n generalizing p with
  | zero => exact ⟨h, rfl, rfl⟩
  | succ n ih =>
    rw [peekN, List.range_succ, List.foldl_append]
    obtain ⟨i1, i2, i3⟩ := ih h
    rw [show (List.range n).foldl (fun q i => (q.eat i).2) p = peekN p n
      from rfl]
    obtain ⟨j1, j2, j3⟩ := eat_goodOpen i1 n
    simp only [List.foldl_cons, List.foldl_nil]
    exact ⟨j1, by rw [j2, i2], by rw [j3, i3]⟩

theorem releaseClose_good {p : Proxy} {closed : List ReleaseRange}
    (h : goodOpen p closed = true) :
    good p.releaseClose = true ∧
    p.releaseClose.counter = p.counter ∧ p.releaseClose.src = p.src := by
  obtain ⟨h1, h2, h3, h4, h5, h6⟩ := goodOpen_parts h
  have hclen : ((p.src.drop p.counter).take (p.srcPos - p.counter)).length
      = p.srcPos - p.counter := by
    rw [List.length_take, List.length_drop]
    omega
  have hq : p.releaseClose.release_ranges = closed ++
      [⟨p.counter, some (p.counter + (p.srcPos - p.counter)),
        (p.src.drop p.counter).take (p.srcPos - p.counter)⟩] := by
    simp only [Proxy.releaseClose, Proxy.modifyLast, h1]
    rw [List.getLast?_concat, List.dropLast_concat]
    simp only [hclen]
  have hcnt : p.releaseClose.counter = p.counter := by
    simp [Proxy.releaseClose, Proxy.modifyLast]
  have hsrc : p.releaseClose.src = p.src := by
    simp [Proxy.releaseClose, Proxy.modifyLast]
  have hsp : p.releaseClose.srcPos = p.srcPos := by
    simp [Proxy.releaseClose, Proxy.modifyLast]
  refine ⟨?_, hcnt, hsrc⟩
  refine good_intro ?_ ?_ ?_ ?_
  · rw [hq, hsrc]
    refine rangesWF_append_one h2 (by simp) (by simpa using h4) ?_ ?_ ?_
    · simp [hclen]
    · simp [hclen]; omega
    · simp [hclen]
  · intro r hr
    rw [hq] at hr
    rcases List.mem_append.1 hr with hin | hin
    · have := h3 r hin
      omega
    · simp at hin
      rw [hin, hcnt]
  · rw [hcnt, hsrc]; omega
  · rw [hq, hcnt, hsp, lastStop_concat]
    simp
    omega

/-- C4: the amended claim.  For every buffer state with no
cached-but-unreplayed tokens pending (`atFresh`: the next sequential read
comes fresh from the raw source) and intact speculation record (`good`),
opening a speculative scope, peeking `n` tokens ahead and closing the
scope without sequential consumption leaves the buffer observationally
unchanged: every subsequent sequential `next()` stream is exactly the one
of the unspeculated buffer — no token dropped, duplicated or
reordered. -/
theorem c4_fresh_speculation_invisible (p : Proxy) (n k : Nat)
    (h1 : good p = true) (h2 : atFresh p = true) :
    deliver k (peekN p.releaseOpen n).releaseClose = deliver k p := by
  have ho := releaseOpen_goodOpen h1 h2
  obtain ⟨j1, j2, j3⟩ := peekN_goodOpen ho n
  obtain ⟨k1, k2, k3⟩ := releaseClose_good j1
  rw [deliver_good k1, deliver_good h1, k2, j2, k3, j3]
  rfl

/-- C4: witness for the amended claim at the concrete fresh buffer
`prox0`, peeking 3 ahead. -/
theorem c4_fresh_speculation_invisible_witness :
    deliver 5 (peekN prox0.releaseOpen 3).releaseClose = deliver 5 prox0 :=
  c4_fresh_speculation_invisible prox0 3 5 (by decide) (by decide)

theorem releaseClose_counter (p : Proxy) : p.releaseClose.counter = p.counter :=
  rfl

theorem releaseClose_src (p : Proxy) : p.releaseClose.src = p.src :=
  rfl

theorem pullN_counter_src (p : Proxy) (n : Nat) :
    (p.pullN n).1.counter = p.counter ∧ (p.pullN n).1.src = p.src := by
  induction n generalizing p with
  | zero => exact ⟨rfl, rfl⟩
  | succ n ih =>
    rw [Proxy.pullN, Proxy.rawNext]
    cases hx : p.src[p.srcPos]? with
    | none => exact ⟨rfl, rfl⟩
    | some t =>
      obtain ⟨i1, i2⟩ := ih (({ p with srcPos := p.srcPos + 1 } :
        Proxy).modifyLast (fun r => { r with cache := r.cache ++ [t] }))
      constructor
      · rw [i1]; rfl
      · rw [i2]; rfl

theorem eat_counter_src (p : Proxy) (pt : Nat) :
    (p.eat pt).2.counter = p.counter ∧ (p.eat pt).2.src = p.src := by
  rw [Proxy.eat]
  by_cases hc : pt < p.lastCache.length
  · simp only [hc, if_true]
    refine ⟨?_, ?_⟩ <;> trivial
  · simp only [hc, if_false]
    obtain ⟨i1, i2⟩ := pullN_counter_src p (pt + 1 - p.lastCache.length)
    cases hp : p.pullN (pt + 1 - p.lastCache.length) with
    | mk q b =>
      rw [hp] at i1 i2
      cases b
      · exact ⟨i1, i2⟩
      · exact ⟨i1, i2⟩

/-- The speculative resolver only ever opens scopes, eats lookahead and
closes scopes: it never advances the sequential counter nor swaps the
source.  Stated for the whole mutually recursive family at every fuel. -/
theorem extend_table_succ_cons (g : Grammar) (f : Nat) (dead : List Plan)
    (origin : Plan) (branch : List Plan) (rest : List (Plan × List Plan))
    (ntr : List TransitionKey) (p : Proxy) :
    extend_table g (f + 1) dead ((origin, branch) :: rest) ntr p =
      if dead.contains origin then
        match extend_table g f dead rest ntr p with
        | Except.error e => Except.error e
        | Except.ok (dead', rest', p') =>
            Except.ok (dead', (origin, branch) :: rest', p')
      else
        match try_pushes g f (branch.getLast?.getD origin).dfa_pushes.reverse
            ntr p with
        | Except.error e => Except.error e
        | Except.ok (none, p') =>
          (match extend_table g f (dead ++ [origin]) rest ntr p' with
            | Except.error e => Except.error e
            | Except.ok (dead', rest', p'') =>
                Except.ok (dead', (origin, branch) :: rest', p''))
        | Except.ok (some next_possible_plan, p') =>
          (match extend_table g f dead rest ntr p' with
            | Except.error e => Except.error e
            | Except.ok (dead', rest', p'') =>
                Except.ok (dead', (origin, branch ++ [next_possible_plan])
                  :: rest', p'')) := rfl

theorem try_pushes_succ_cons (g : Grammar) (f : Nat) (d : Nat)
    (rest : List Nat) (ntr : List TransitionKey) (p : Proxy) :
    try_pushes g (f + 1) (d :: rest) ntr p =
      match get_possible_plan g f ntr (g.dfa d).transitions p with
      | Except.error e => Except.error e
      | Except.ok (some pl, p') => Except.ok (some pl, p')
      | Except.ok (none, p') => try_pushes g f rest ntr p' := rfl

theorem gpp_family_counter_src (fuel : Nat) :
    (∀ (g : Grammar) (ptr : List TransitionKey)
      (ttable : List (TransitionKey × Plan)) (p : Proxy) (r : Option Plan)
      (p' : Proxy), get_possible_plan g fuel ptr ttable p = .ok (r, p') →
      p'.counter = p.counter ∧ p'.src = p.src) ∧
    (∀ (g : Grammar) (dead : List Plan) (table : List (Plan × List Plan))
      (c : Nat) (p : Proxy) (r : Option Plan) (p' : Proxy),
      lookahead_loop g fuel dead table c p = .ok (r, p') →
      p'.counter = p.counter ∧ p'.src = p.src) ∧
    (∀ (g : Grammar) (dead : List Plan) (entries : List (Plan × List Plan))
      (ntr : List TransitionKey) (p : Proxy) (d' : List Plan)
      (e' : List (Plan × List Plan)) (p' : Proxy),
      extend_table g fuel dead entries ntr p = .ok (d', e', p') →
      p'.counter = p.counter ∧ p'.src = p.src) ∧
    (∀ (g : Grammar) (pushes : List Nat) (ntr : List TransitionKey)
      (p : Proxy) (r : Option Plan) (p' : Proxy),
      try_pushes g fuel pushes ntr p = .ok (r, p') →
      p'.counter = p.counter ∧ p'.src = p.src) := by
  induction fuel with
  | zero =>
    refine ⟨?_, ?_, ?_, ?_⟩ <;> intro g
    · intro ptr ttable p r p' h
      rw [get_possible_plan] at h
      cases h
    · intro dead table c p r p' h
      rw [lookahead_loop] at h
      cases h
    · intro dead entries ntr p d' e' p' h
      rw [extend_table] at h
      cases h
    · intro pushes ntr p r p' h
      rw [try_pushes] at h
      cases h
  | succ f ih =>
    obtain ⟨ih1, ih2, ih3, ih4⟩ := ih
    refine ⟨?_, ?_, ?_, ?_⟩ <;> intro g
    · -- get_possible_plan
      intro ptr ttable p r p' h
      rw [get_possible_plan] at h
      cases hpl : ptr.filterMap
          (fun tr => (ttable.find? (fun e => e.1 == tr)).map Prod.snd) with
      | nil =>
        rw [hpl] at h
        have h' : (Except.ok (none, p) :
            Except PErr (Option Plan × Proxy)) = .ok (r, p') := h
        cases h'
        exact ⟨rfl, rfl⟩
      | cons a l =>
        cases l with
        | nil =>
          rw [hpl] at h
          have h' : (Except.ok (some a, p) :
              Except PErr (Option Plan × Proxy)) = .ok (r, p') := h
          cases h'
          exact ⟨rfl, rfl⟩
        | cons b m =>
          rw [hpl] at h
          have h' : (match lookahead_loop g f []
              (mkPlanTable (a :: b :: m)) 0 p.releaseOpen with
            | Except.error e =>
                (Except.error e : Except PErr (Option Plan × Proxy))
            | Except.ok (r0, p2) => Except.ok (r0, p2.releaseClose)) =
              Except.ok (r, p') := h
          cases hll : lookahead_loop g f []
              (mkPlanTable (a :: b :: m)) 0 p.releaseOpen with
          | error e =>
            rw [hll] at h'
            cases h'
          | ok q =>
            rcases q with ⟨r0, p2⟩
            rw [hll] at h'
            have h'' : (Except.ok (r0, p2.releaseClose) :
                Except PErr (Option Plan × Proxy)) = .ok (r, p') := h'
            injection h'' with hq
            injection hq with hr hp
            obtain ⟨i1, i2⟩ := ih2 g [] (mkPlanTable (a :: b :: m)) 0
              p.releaseOpen r0 p2 hll
            refine ⟨?_, ?_⟩
            · rw [← hp, releaseClose_counter, i1]; rfl
            · rw [← hp, releaseClose_src, i2]; rfl
    · -- lookahead_loop
      intro dead table c p r p' h
      rw [lookahead_loop] at h
      by_cases hs : (superior_plan table false).isSome
      · rw [if_pos hs] at h
        have h' : (Except.ok (superior_plan table true, p) :
            Except PErr (Option Plan × Proxy)) = .ok (r, p') := h
        cases h'
        exact ⟨rfl, rfl⟩
      · rw [if_neg hs] at h
        obtain ⟨e1, e2⟩ := eat_counter_src p c
        cases he : p.eat c with
        | mk tk p1 =>
          rw [he] at h e1 e2
          cases tk with
          | none =>
            have h' : (Except.ok (superior_plan table true, p1) :
                Except PErr (Option Plan × Proxy)) = .ok (r, p') := h
            cases h'
            exact ⟨e1, e2⟩
          | some token =>
            have h' : (match extend_table g f dead table
                (token_to_transition g token.typ token.string) p1 with
              | Except.error e =>
                  (Except.error e : Except PErr (Option Plan × Proxy))
              | Except.ok (dead', table', p'') =>
                  lookahead_loop g f dead' table' (c + 1) p'') =
                Except.ok (r, p') := h
            cases hex : extend_table g f dead table
                (token_to_transition g token.typ token.string) p1 with
            | error e => rw [hex] at h'; cases h'
            | ok q =>
              rcases q with ⟨d2, t2, p2⟩
              rw [hex] at h'
              have h'' : lookahead_loop g f d2 t2 (c + 1) p2 =
                  Except.ok (r, p') := h'
              obtain ⟨x1, x2⟩ := ih3 g dead table
                (token_to_transition g token.typ token.string) p1 d2 t2 p2 hex
              obtain ⟨y1, y2⟩ := ih2 g d2 t2 (c + 1) p2 r p' h''
              exact ⟨by rw [y1, x1, e1], by rw [y2, x2, e2]⟩
    · -- extend_table
      intro dead entries ntr p d' e' p' h
      cases entries with
      | nil =>
        have h' : (Except.ok (dead, ([], p)) :
            Except PErr (List Plan × List (Plan × List Plan) × Proxy)) =
            .ok (d', e', p') := h
        cases h'
        exact ⟨rfl, rfl⟩
      | cons a rest =>
        rcases a with ⟨origin, branch⟩
        rw [extend_table_succ_cons] at h
        by_cases hd : dead.contains origin
        · rw [if_pos hd] at h
          cases hex : extend_table g f dead rest ntr p with
          | error e => rw [hex] at h; cases h
          | ok q =>
            rcases q with ⟨d2, r2, p2⟩
            rw [hex] at h
            have h' : (Except.ok (d2, (origin, branch) :: r2, p2) :
                Except PErr (List Plan × List (Plan × List Plan) × Proxy)) =
                .ok (d', e', p') := h
            injection h' with hq
            injection hq with hq1 hq2
            injection hq2 with hq3 hq4
            obtain ⟨x1, x2⟩ := ih3 g dead rest ntr p d2 r2 p2 hex
            exact ⟨by rw [← hq4, x1], by rw [← hq4, x2]⟩
        · rw [if_neg hd] at h
          cases htp : try_pushes g f
              (branch.getLast?.getD origin).dfa_pushes.reverse ntr p with
          | error e => rw [htp] at h; cases h
          | ok q =>
            rcases q with ⟨nxt, p1⟩
            rw [htp] at h
            obtain ⟨t1, t2⟩ := ih4 g
              (branch.getLast?.getD origin).dfa_pushes.reverse ntr p nxt p1 htp
            cases nxt with
            | none =>
              have h' : (match extend_table g f (dead ++ [origin]) rest ntr
                  p1 with
                | Except.error e => (Except.error e :
                    Except PErr (List Plan × List (Plan × List Plan) × Proxy))
                | Except.ok (dead2, rest2, p2) =>
                    Except.ok (dead2, (origin, branch) :: rest2, p2)) =
                  Except.ok (d', e', p') := h
              cases hex : extend_table g f (dead ++ [origin]) rest ntr p1 with
              | error e => rw [hex] at h'; cases h'
              | ok q2 =>
                rcases q2 with ⟨d2, r2, p2⟩
                rw [hex] at h'
                have h'' : (Except.ok (d2, (origin, branch) :: r2, p2) :
                    Except PErr (List Plan × List (Plan × List Plan) ×
                      Proxy)) = .ok (d', e', p') := h'
                injection h'' with hq
                injection hq with hq1 hq2
                injection hq2 with hq3 hq4
                obtain ⟨x1, x2⟩ := ih3 g (dead ++ [origin]) rest ntr p1 d2 r2
                  p2 hex
                exact ⟨by rw [← hq4, x1, t1], by rw [← hq4, x2, t2]⟩
            | some np =>
              have h' : (match extend_table g f dead rest ntr p1 with
                | Except.error e => (Except.error e :
                    Except PErr (List Plan × List (Plan × List Plan) × Proxy))
                | Except.ok (dead2, rest2, p2) =>
                    Except.ok (dead2, (origin, branch ++ [np]) :: rest2, p2)) =
                  Except.ok (d', e', p') := h
              cases hex : extend_table g f dead rest ntr p1 with
              | error e => rw [hex] at h'; cases h'
              | ok q2 =>
                rcases q2 with ⟨d2, r2, p2⟩
                rw [hex] at h'
                have h'' : (Except.ok (d2, (origin, branch ++ [np]) :: r2,
                    p2) : Except PErr (List Plan × List (Plan × List Plan) ×
                      Proxy)) = .ok (d', e', p') := h'
                injection h'' with hq
                injection hq with hq1 hq2
                injection hq2 with hq3 hq4
                obtain ⟨x1, x2⟩ := ih3 g dead rest ntr p1 d2 r2 p2 hex
                exact ⟨by rw [← hq4, x1, t1], by rw [← hq4, x2, t2]⟩
    · -- try_pushes
      intro pushes ntr p r p' h
      cases pushes with
      | nil =>
        have h' : (Except.ok (none, p) :
            Except PErr (Option Plan × Proxy)) = .ok (r, p') := h
        cases h'
        exact ⟨rfl, rfl⟩
      | cons d rest =>
        rw [try_pushes_succ_cons] at h
        cases hg : get_possible_plan g f ntr (g.dfa d).transitions p with
        | error e => rw [hg] at h; cases h
        | ok q =>
          rcases q with ⟨pl, p1⟩
          rw [hg] at h
          obtain ⟨t1, t2⟩ := ih1 g ntr (g.dfa d).transitions p pl p1 hg
          cases pl with
          | some x =>
            have h' : (Except.ok (some x, p1) :
                Except PErr (Option Plan × Proxy)) = .ok (r, p') := h
            cases h'
            exact ⟨t1, t2⟩
          | none =>
            have h' : try_pushes g f rest ntr p1 = Except.ok (r, p') := h
            obtain ⟨x1, x2⟩ := ih4 g rest ntr p1 r p' h'
            exact ⟨by rw [x1, t1], by rw [x2, t2]⟩
theorem maxFirstGo_spec (l : List (Plan × Nat)) (m : Plan × Nat) :
    (maxFirstGo m l = m ∨ maxFirstGo m l ∈ l) ∧
    m.2 ≤ (maxFirstGo m l).2 ∧ ∀ x ∈ l, x.2 ≤ (maxFirstGo m l).2 := by
  induction l generalizing m with
  | nil => exact ⟨Or.inl rfl, le_refl _, by simp⟩
  | cons y rest ih =>
    rw [maxFirstGo]
    by_cases hy : y.2 > m.2
    · rw [if_pos hy]
      obtain ⟨a1, a2, a3⟩ := ih y
      refine ⟨?_, by omega, ?_⟩
      · rcases a1 with h | h
        · exact Or.inr (by simp [h])
        · exact Or.inr (by simp [h])
      · intro x hx
        rcases List.mem_cons.1 hx with hx | hx
        · subst hx; exact a2
        · exact a3 x hx
    · rw [if_neg hy]
      obtain ⟨a1, a2, a3⟩ := ih m
      refine ⟨?_, a2, ?_⟩
      · rcases a1 with h | h
        · exact Or.inl h
        · exact Or.inr (by simp [h])
      · intro x hx
        rcases List.mem_cons.1 hx with hx | hx
        · subst hx; omega
        · exact a3 x hx

theorem two_mem_count {l : List (Plan × Nat)} {a b : Plan × Nat} {v : Nat}
    (ha : a ∈ l) (hb : b ∈ l) (hne : a ≠ b) (hva : a.2 = v)
    (hvb : b.2 = v) : 2 ≤ (l.map Prod.snd).count v := by
  induction l with
  | nil => cases ha
  | cons x rest ih =>
    rw [List.map_cons, List.count_cons]
    rcases List.mem_cons.1 ha with hax | hax
    · rcases List.mem_cons.1 hb with hbx | hbx
      · exact absurd (hax.trans hbx.symm) hne
      · have hmem : v ∈ rest.map Prod.snd :=
          List.mem_map.2 ⟨b, hbx, hvb⟩
        have := List.count_pos_iff.2 hmem
        have hxv : (x.2 == v) = true := by
          rw [beq_iff_eq, ← hax, hva]
        rw [hxv]
        have hone : (if (true = true) then 1 else 0) = 1 := rfl
        rw [hone]
        omega
    · rcases List.mem_cons.1 hb with hbx | hbx
      · have hmem : v ∈ rest.map Prod.snd :=
          List.mem_map.2 ⟨a, hax, hva⟩
        have := List.count_pos_iff.2 hmem
        have hxv : (x.2 == v) = true := by
          rw [beq_iff_eq, ← hbx, hvb]
        rw [hxv]
        have hone : (if (true = true) then 1 else 0) = 1 := rfl
        rw [hone]
        omega
      · have := ih hax hbx
        omega

theorem superior_plan_eq (table : List (Plan × List Plan)) (winner : Bool) :
    superior_plan table winner =
      match maxFirst (table.map (fun ob => (ob.1, ob.2.length))) with
      | none => none
      | some (o, l) =>
          if ((table.map (fun ob => (ob.1, ob.2.length))).map
              Prod.snd).count l = 1 ∨ winner then some o else none := rfl

theorem possibilities_snd (table : List (Plan × List Plan)) :
    (table.map (fun ob => (ob.1, ob.2.length))).map Prod.snd =
    table.map (fun e => e.2.length) := by
  rw [List.map_map]
  rfl

theorem superior_plan_unique {table : List (Plan × List Plan)} {w : Plan}
    {bw : List Plan} {c : Nat}
    (h1 : (w, bw) ∈ table) (h2 : bw.length = c + 1)
    (h3 : ∀ e ∈ table, e.2.length ≤ c + 1)
    (h4 : (table.map (fun e => e.2.length)).count (c + 1) = 1) :
    superior_plan table false = some w ∧
    superior_plan table true = some w := by
  cases htab : table with
  | nil => rw [htab] at h1; cases h1
  | cons e0 rest0 =>
    subst htab
    have hP : (e0 :: rest0).map (fun ob => (ob.1, ob.2.length)) =
        (e0.1, e0.2.length) :: rest0.map (fun ob => (ob.1, ob.2.length)) :=
      List.map_cons _ _ _
    obtain ⟨s1, s2, s3⟩ := maxFirstGo_spec
      (rest0.map (fun ob => (ob.1, ob.2.length))) (e0.1, e0.2.length)
    set r := maxFirstGo (e0.1, e0.2.length)
      (rest0.map (fun ob => (ob.1, ob.2.length))) with hr
    have hrmem : r ∈ (e0 :: rest0).map (fun ob => (ob.1, ob.2.length)) := by
      rw [hP]
      rcases s1 with h | h
      · rw [h]; exact List.mem_cons_self _ _
      · exact List.mem_cons_of_mem _ h
    have hwc : (w, c + 1) ∈ (e0 :: rest0).map
        (fun ob => (ob.1, ob.2.length)) :=
      List.mem_map.2 ⟨(w, bw), h1, by rw [h2]⟩
    have hbound : ∀ x ∈ (e0 :: rest0).map (fun ob => (ob.1, ob.2.length)),
        x.2 ≤ r.2 := by
      intro x hx
      rw [hP] at hx
      rcases List.mem_cons.1 hx with hx | hx
      · rw [hx]; exact s2
      · exact s3 x hx
    have hge : c + 1 ≤ r.2 := hbound (w, c + 1) hwc
    have hle : r.2 ≤ c + 1 := by
      obtain ⟨e, he, hre⟩ := List.mem_map.1 hrmem
      rw [← hre]
      exact h3 e he
    have hrv : r.2 = c + 1 := le_antisymm hle hge
    have hrw : r = (w, c + 1) := by
      by_contra hner
      have h2c := two_mem_count hrmem hwc hner hrv rfl
      rw [possibilities_snd] at h2c
      omega
    have hmf : maxFirst ((e0 :: rest0).map (fun ob => (ob.1, ob.2.length)))
        = some (w, c + 1) := by
      rw [hP, maxFirst, ← hr, hrw]
    have hcount : (((e0 :: rest0).map (fun ob => (ob.1, ob.2.length))).map
        Prod.snd).count (c + 1) = 1 := by
      rw [possibilities_snd]
      exact h4
    constructor
    · rw [superior_plan_eq, hmf]
      have hcond : (((e0 :: rest0).map
          (fun ob => (ob.1, ob.2.length))).map Prod.snd).count (c + 1) = 1
          ∨ (false = true) := Or.inl hcount
      show (if (((e0 :: rest0).map
          (fun ob => (ob.1, ob.2.length))).map Prod.snd).count (c + 1) = 1
          ∨ (false = true) then some w else none) = some w
      rw [if_pos hcond]
    · rw [superior_plan_eq, hmf]
      have hcond : (((e0 :: rest0).map
          (fun ob => (ob.1, ob.2.length))).map Prod.snd).count (c + 1) = 1
          ∨ (true = true) := Or.inr rfl
      show (if (((e0 :: rest0).map
          (fun ob => (ob.1, ob.2.length))).map Prod.snd).count (c + 1) = 1
          ∨ (true = true) then some w else none) = some w
      rw [if_pos hcond]

theorem lookahead_loop_succ (g : Grammar) (f : Nat) (dead : List Plan)
    (table : List (Plan × List Plan)) (c : Nat) (p : Proxy) :
    lookahead_loop g (f + 1) dead table c p =
      if (superior_plan table false).isSome then
        Except.ok (superior_plan table true, p)
      else
        match p.eat c with
        | (none, p') => Except.ok (superior_plan table true, p')
        | (some token, p') =>
          match extend_table g f dead table
              (token_to_transition g token.typ token.string) p' with
          | Except.error e => Except.error e
          | Except.ok (dead', table', p'') =>
              lookahead_loop g f dead' table' (c + 1) p'' := rfl

/-- C3: during soft-keyword disambiguation, (i) as soon as exactly one
candidate remains alive — its branch was extended this round to length
`c + 1`, every other branch stopped earlier, making `c + 1` attained once
— the loop returns that candidate at once, pulling nothing further and
leaving the buffer untouched; (ii) when the buffer reports no more input
the loop likewise stops with the current best; (iii) the resolver never
consumes: whenever `get_possible_plan` leaves the speculation record
intact (`good` in and out, as in any single un-nested disambiguation),
the subsequent sequential token stream is exactly the stream of the
buffer before the lookahead — every peeked token remains available for
ordinary consumption. -/
theorem c3_lookahead_minimal :
    (∀ (g : Grammar) (f : Nat) (dead : List Plan)
      (table : List (Plan × List Plan)) (w : Plan) (bw : List Plan)
      (c : Nat) (p : Proxy),
      (w, bw) ∈ table → bw.length = c + 1 →
      (∀ e ∈ table, e.2.length ≤ c + 1) →
      (table.map (fun e => e.2.length)).count (c + 1) = 1 →
      lookahead_loop g (f + 1) dead table c p = .ok (some w, p)) ∧
    (∀ (g : Grammar) (f : Nat) (dead : List Plan)
      (table : List (Plan × List Plan)) (c : Nat) (p p' : Proxy),
      superior_plan table false = none → p.eat c = (none, p') →
      lookahead_loop g (f + 1) dead table c p =
        .ok (superior_plan table true, p')) ∧
    (∀ (g : Grammar) (f : Nat) (ptr : List TransitionKey)
      (ttable : List (TransitionKey × Plan)) (p p' : Proxy)
      (r : Option Plan) (k : Nat),
      good p = true → good p' = true →
      get_possible_plan g f ptr ttable p = .ok (r, p') →
      deliver k p' = deliver k p) := by
  refine ⟨?_, ?_, ?_⟩
  · intro g f dead table w bw c p h1 h2 h3 h4
    obtain ⟨s1, s2⟩ := superior_plan_unique h1 h2 h3 h4
    rw [lookahead_loop_succ, if_pos (by rw [s1]; rfl), s2]
  · intro g f dead table c p p' hsup heat
    rw [lookahead_loop_succ, if_neg (by rw [hsup]; simp), heat]
  · intro g f ptr ttable p p' r k hg hg' hstep
    obtain ⟨hc, hs⟩ := (gpp_family_counter_src f).1 g ptr ttable p r p' hstep
    rw [deliver_good hg', deliver_good hg, hc, hs]

/-- C3: witness.  (i) at a two-candidate table where only `planRes`'s
branch was extended, the loop stops at once with `planRes` and the buffer
untouched; (ii) at an exhausted buffer the tied table stops with the
best-so-far; (iii) the `gram2` disambiguation leaves the delivered stream
unchanged. -/
theorem c3_lookahead_minimal_witness :
    lookahead_loop gram2 1 []
      [(planRes, [planRes, planTyp]), (planTyp, [planTyp])] 1
      ⟨[], 0, 0, []⟩ = .ok (some planRes, ⟨[], 0, 0, []⟩) ∧
    lookahead_loop gram2 1 [] [(planRes, [planRes]), (planTyp, [planTyp])]
      0 ⟨[], 0, 0, [⟨0, none, []⟩]⟩ =
      .ok (superior_plan [(planRes, [planRes]), (planTyp, [planTyp])] true,
        ⟨[], 0, 0, [⟨0, none, []⟩]⟩) ∧
    deliver 3 ⟨[], 0, 0, [⟨0, some 0, []⟩]⟩ = deliver 3 ⟨[], 0, 0, []⟩ :=
  ⟨c3_lookahead_minimal.1 gram2 0 [] _ planRes [planRes, planTyp] 1 _
      (by decide) (by decide) (by decide) (by decide),
    c3_lookahead_minimal.2.1 gram2 0 [] _ 0 _ _ (by decide) (by decide),
    c3_lookahead_minimal.2.2 gram2 40
      (token_to_transition gram2 tNAME "a") (gram2.dfa 0).transitions
      ⟨[], 0, 0, []⟩ ⟨[], 0, 0, [⟨0, some 0, []⟩]⟩ (some planRes) 3
      (by decide) (by decide) (by decide)⟩

/-- C2: the amended claim.  (i) The end-of-lookahead winner always has a
branch of maximal length (the longest chain of matched lookahead
tokens).  (ii) When both candidate plans of a soft keyword survive to
end-of-input in a tie, the winner is the plan collected through the
*reserved-string* key — the first element of `_token_to_transition`'s
tuple — regardless of where the two keys sit in the DFA state's
transition table (stated with the source exhausted, so both branches
stay at length one); the choice is a pure function of the tables, hence
deterministic across runs. -/
theorem c2_tie_break_candidate_order :
    (∀ (tbl : List (Plan × List Plan)) (o : Plan),
      superior_plan tbl true = some o →
      ∃ b, (o, b) ∈ tbl ∧ ∀ e ∈ tbl, e.2.length ≤ b.length) ∧
    (∀ (g : Grammar) (f : Nat) (typ : TokType) (v : String)
      (table : List (TransitionKey × Plan)) (p : Proxy) (pr pt : Plan),
      typ.contains_stx = true →
      g.reserved_strings.find? (fun q => q.1 == v) = some (v, true) →
      table.find? (fun e => e.1 == TransitionKey.ofReserved ⟨v, true⟩)
        = some (TransitionKey.ofReserved ⟨v, true⟩, pr) →
      table.find? (fun e => e.1 == TransitionKey.ofType typ)
        = some (TransitionKey.ofType typ, pt) →
      pr ≠ pt →
      p.src.length ≤ p.srcPos → p.release_ranges = [] →
      get_possible_plan g (f + 2) (token_to_transition g typ v) table p
        = .ok (some pr, p.releaseOpen.releaseClose)) := by
  constructor
  · intro tbl o hsup
    cases htab : tbl with
    | nil =>
      rw [htab, superior_plan_eq] at hsup
      have h' : (none : Option Plan) = some o := hsup
      cases h'
    | cons e0 rest0 =>
      subst htab
      obtain ⟨s1, s2, s3⟩ := maxFirstGo_spec
        (rest0.map (fun ob => (ob.1, ob.2.length))) (e0.1, e0.2.length)
      set r := maxFirstGo (e0.1, e0.2.length)
        (rest0.map (fun ob => (ob.1, ob.2.length))) with hr
      have hrmem : r ∈ (e0 :: rest0).map (fun ob => (ob.1, ob.2.length)) := by
        rw [List.map_cons]
        rcases s1 with h | h
        · rw [h]; exact List.mem_cons_self _ _
        · exact List.mem_cons_of_mem _ h
      have hbound : ∀ x ∈ (e0 :: rest0).map (fun ob => (ob.1, ob.2.length)),
          x.2 ≤ r.2 := by
        intro x hx
        rw [List.map_cons] at hx
        rcases List.mem_cons.1 hx with hx | hx
        · rw [hx]; exact s2
        · exact s3 x hx
      have hmf : maxFirst ((e0 :: rest0).map (fun ob => (ob.1, ob.2.length)))
          = some r := by
        rw [List.map_cons, maxFirst, ← hr]
      rw [superior_plan_eq, hmf] at hsup
      have hsup' : (if (((e0 :: rest0).map
          (fun ob => (ob.1, ob.2.length))).map Prod.snd).count r.2 = 1
          ∨ (true = true) then some r.1 else none) = some o := hsup
      rw [if_pos (Or.inr rfl)] at hsup'
      have ho : o = r.1 := (Option.some.inj hsup').symm
      obtain ⟨e, he, hre⟩ := List.mem_map.1 hrmem
      refine ⟨e.2, ?_, ?_⟩
      · have : (o, e.2) = e := by
          rw [ho, ← hre]
        rw [this]
        exact he
      · intro e' he'
        have hb := hbound (e'.1, e'.2.length)
          (List.mem_map.2 ⟨e', he', rfl⟩)
        have hlen : e.2.length = r.2 := by rw [← hre]
        calc e'.2.length ≤ r.2 := hb
          _ = e.2.length := hlen.symm
  · intro g f typ v table p pr pt hstx hsoft hpr hpt hne hexh hnr
    have hkeys : token_to_transition g typ v =
        [.ofReserved ⟨v, true⟩, .ofType typ] := by
      rw [token_to_transition]
      rw [if_pos hstx, hsoft]
      rfl
    have hplans : (token_to_transition g typ v).filterMap
        (fun tr => (table.find? (fun e => e.1 == tr)).map Prod.snd)
        = [pr, pt] := by
      rw [hkeys]
      rw [List.filterMap_cons, List.filterMap_cons, List.filterMap_nil]
      rw [hpr, hpt]
      rfl
    have hbeq : (pr == pt) = false := by
      rw [beq_eq_false_iff_ne]
      exact hne
    have hmk : mkPlanTable [pr, pt] = [(pr, [pr]), (pt, [pt])] := by
      rw [mkPlanTable]
      rw [List.foldl_cons, List.foldl_cons, List.foldl_nil]
      simp only [List.any_nil, List.nil_append, Bool.false_eq_true,
        if_false, List.any_cons, hbeq, Bool.or_self]
      rfl
    have hgo : maxFirstGo (pr, 1) [(pt, 1)] = (pr, 1) := by
      rw [maxFirstGo, if_neg (by simp), maxFirstGo]
    have hsupf : superior_plan [(pr, [pr]), (pt, [pt])] false = none := by
      rw [superior_plan_eq]
      show (match maxFirst [(pr, 1), (pt, 1)] with
        | none => none
        | some (o, l) =>
          if ([1, 1] : List Nat).count l = 1 ∨ (false = true)
          then some o else none) = none
      rw [maxFirst, hgo]
      show (if ([1, 1] : List Nat).count 1 = 1 ∨ (false = true)
        then some pr else none) = none
      rw [if_neg (by decide)]
    have hsupt : superior_plan [(pr, [pr]), (pt, [pt])] true = some pr := by
      rw [superior_plan_eq]
      show (match maxFirst [(pr, 1), (pt, 1)] with
        | none => none
        | some (o, l) =>
          if ([1, 1] : List Nat).count l = 1 ∨ (true = true)
          then some o else none) = some pr
      rw [maxFirst, hgo]
      show (if ([1, 1] : List Nat).count 1 = 1 ∨ (true = true)
        then some pr else none) = some pr
      rw [if_pos (Or.inr rfl)]
    have hlc : p.releaseOpen.lastCache = [] := by
      rw [Proxy.lastCache, Proxy.releaseOpen, hnr]
      rfl
    have heat : p.releaseOpen.eat 0 = (none, p.releaseOpen) := by
      rw [Proxy.eat]
      show (if 0 < p.releaseOpen.lastCache.length then
          (p.releaseOpen.lastCache[0]?, p.releaseOpen)
        else
          match p.releaseOpen.pullN (0 + 1 -
              p.releaseOpen.lastCache.length) with
          | (p', true) => (p'.lastCache[0]?, p')
          | (p', false) => (none, p')) = (none, p.releaseOpen)
      rw [hlc]
      have hraw : p.releaseOpen.rawNext = none := by
        rw [Proxy.rawNext]
        have : p.releaseOpen.src[p.releaseOpen.srcPos]? = none :=
          List.getElem?_eq_none_iff.2 (by
            show p.src.length ≤ p.srcPos
            exact hexh)
        rw [this]
      show (match p.releaseOpen.pullN 1 with
        | (p', true) => (p'.lastCache[0]?, p')
        | (p', false) => (none, p')) = (none, p.releaseOpen)
      rw [Proxy.pullN, hraw]
    rw [get_possible_plan]
    rw [hplans]
    show (match lookahead_loop g (f + 1) [] (mkPlanTable [pr, pt]) 0
        p.releaseOpen with
      | Except.error e => (Except.error e : Except PErr (Option Plan × Proxy))
      | Except.ok (r, p2) => Except.ok (r, p2.releaseClose)) =
      Except.ok (some pr, p.releaseOpen.releaseClose)
    rw [hmk, lookahead_loop_succ, if_neg (by rw [hsupf]; simp), heat, hsupt]

/-- C2: witness for the amended claim.  (i) On a table whose first branch
is strictly longer, the winner is that branch's origin; (ii) on `gram2`
(type key registered before the reserved key) the exhausted-input tie
goes to the reserved-key plan `planRes`. -/
theorem c2_tie_break_candidate_order_witness :
    (∃ b, (planRes, b) ∈ [(planRes, [planRes, planTyp]),
        (planTyp, [planTyp])] ∧
      ∀ e ∈ [(planRes, [planRes, planTyp]), (planTyp, [planTyp])],
        e.2.length ≤ b.length) ∧
    get_possible_plan gram2 40 (token_to_transition gram2 tNAME "a")
      (gram2.dfa 0).transitions ⟨[], 0, 0, []⟩
      = .ok (some planRes,
        (⟨[], 0, 0, []⟩ : Proxy).releaseOpen.releaseClose) :=
  ⟨c2_tie_break_candidate_order.1
      [(planRes, [planRes, planTyp]), (planTyp, [planTyp])] planRes
      (by decide),
    c2_tie_break_candidate_order.2 gram2 38 tNAME "a"
      (gram2.dfa 0).transitions ⟨[], 0, 0, []⟩ planRes planTyp
      (by decide) (by decide) (by decide) (by decide) (by decide)
      (by decide) (by decide)⟩

theorem finish_loop_zero (g : Grammar) (last : Option Token)
    (stack : List StackNode) :
    finish_loop g last 0 stack = .error .fuel := rfl

theorem finish_loop_succ_nil (g : Grammar) (last : Option Token) (lf : Nat) :
    finish_loop g last (lf + 1) [] = .error .indexErr := rfl

theorem finish_loop_succ_cons (g : Grammar) (last : Option Token) (lf : Nat)
    (tos : StackNode) (rest : List StackNode) :
    finish_loop g last (lf + 1) (tos :: rest) =
      if (g.dfa tos.dfa).is_final then
        match rest with
        | [] => Except.ok (convert_node (g.dfa tos.dfa).from_rule tos.nodes)
        | parent :: below =>
            finish_loop g last lf
              ({ parent with nodes := parent.nodes ++ [pop_new_node g tos] }
                :: below)
      else
        match last with
        | some t => Except.error (.internalErr "incomplete input" t.typ
            t.string t.start_pos)
        | none => Except.error PErr.nameErr := rfl

/-- C6: the amended claim.  (i) Whenever a frame is reduced with exactly
one child, the parent receives that child itself — for *every* rule `d`,
with no excluded set; (ii) only the final root conversion always builds
a wrapper node, even over a single child. -/
theorem c6_reduction_always_elides :
    (∀ (g : Grammar) (last : Option Token) (lf d : Nat) (n : PTree)
      (parent : StackNode) (below : List StackNode),
      (g.dfa d).is_final = true →
      finish_loop g last (lf + 1) (⟨d, [n]⟩ :: parent :: below)
        = finish_loop g last lf
            ({ parent with nodes := parent.nodes ++ [n] } :: below)) ∧
    (∀ (g : Grammar) (last : Option Token) (lf d : Nat) (n : PTree),
      (g.dfa d).is_final = true →
      finish_loop g last (lf + 1) [⟨d, [n]⟩]
        = .ok (.node (g.dfa d).from_rule [n])) := by
  constructor
  · intro g last lf d n parent below hfin
    rw [finish_loop_succ_cons, if_pos hfin]
    rfl
  · intro g last lf d n hfin
    rw [finish_loop_succ_cons, if_pos hfin]
    rfl

/-- C6: witness for the amended claim at a concrete final state. -/
theorem c6_reduction_always_elides_witness :
    finish_loop gram6 none 2
      [⟨3, [PTree.leaf "x" (1, 0) " "]⟩, ⟨1, []⟩]
      = finish_loop gram6 none 1
        [⟨1, [PTree.leaf "x" (1, 0) " "]⟩] ∧
    finish_loop gram6 none 1 [⟨2, [PTree.leaf "x" (1, 0) " "]⟩]
      = .ok (.node "file" [PTree.leaf "x" (1, 0) " "]) :=
  ⟨c6_reduction_always_elides.1 gram6 none 1 3 (PTree.leaf "x" (1, 0) " ")
      ⟨1, []⟩ [] (by decide),
    c6_reduction_always_elides.2 gram6 none 0 2 (PTree.leaf "x" (1, 0) " ")
      (by decide)⟩

theorem finish_loop_ok_node (g : Grammar) (last : Option Token) :
    ∀ (lf : Nat) (stack : List StackNode) (t : PTree),
    finish_loop g last lf stack = .ok t → ∃ r cs, t = PTree.node r cs := by
  intro lf
  induction lf with
  | zero =>
    intro stack t h
    rw [finish_loop_zero] at h
    cases h
  | succ lf ih =>
    intro stack t h
    cases stack with
    | nil =>
      rw [finish_loop_succ_nil] at h
      cases h
    | cons tos rest =>
      rw [finish_loop_succ_cons] at h
      by_cases hfin : (g.dfa tos.dfa).is_final = true
      · rw [if_pos hfin] at h
        cases rest with
        | nil =>
          have h' : (Except.ok (convert_node (g.dfa tos.dfa).from_rule
              tos.nodes) : Except PErr PTree) = .ok t := h
          injection h' with h''
          exact ⟨_, _, h''.symm⟩
        | cons parent below =>
          exact ih _ t h
      · rw [if_neg hfin] at h
        cases last with
        | some u => cases h
        | none => cases h

/-- C7: the amended claim.  On success `parse` always returns a root
Node — the final `convert_node` wrapper over the last frame's rule and
ordered children — even when the whole input collapsed to a single
symbol; it never returns the bare Leaf itself. -/
theorem c7_success_returns_node (g : Grammar) (fuel : Nat) (er : Bool)
    (toks : List Token) (tree : PTree)
    (h : parse g fuel er toks = .ok tree) :
    ∃ r cs, tree = PTree.node r cs := by
  rw [parse] at h
  cases hm : main_loop g er fuel [(⟨g.start_dfa, []⟩ : StackNode)]
      ⟨toks, 0, 0, []⟩ none with
  | error e => rw [hm] at h; cases h
  | ok q =>
    rcases q with ⟨stack', p', last⟩
    rw [hm] at h
    exact finish_loop_ok_node g last _ stack' tree h

/-- C7: witness for the amended claim at the single-symbol input. -/
theorem c7_success_returns_node_witness :
    ∃ r cs, PTree.node "S" [PTree.leaf "x" (1, 0) " "] = PTree.node r cs :=
  c7_success_returns_node gram7 40 false [mkName "x" 0]
    (PTree.node "S" [PTree.leaf "x" (1, 0) " "]) (by decide)

/-- C8: the amended claim.  When the driving loop exhausts the source
having seen at least one token and the top frame's cursor is non-final,
`parse` raises `InternalParseError("incomplete input", ...)` carrying the
last token's type, text and start position; and the `error_recovery`
path used for ordinary invalid input always produces `ParserSyntaxError`,
never an InternalError. -/
theorem c8_incomplete_input_internal (g : Grammar) (fuel : Nat)
    (toks : List Token) (tos : StackNode) (rest : List StackNode)
    (p' : Proxy) (t : Token) (tok : Token)
    (hrun : main_loop g false fuel [(⟨g.start_dfa, []⟩ : StackNode)]
        ⟨toks, 0, 0, []⟩ none = .ok (tos :: rest, p', some t))
    (hfin : (g.dfa tos.dfa).is_final = false) :
    parse g fuel false toks =
      .error (.internalErr "incomplete input" t.typ t.string t.start_pos)
    ∧ error_recovery false tok =
        .syntaxErr "SyntaxError: invalid syntax" tok.typ tok.string
          tok.start_pos tok.pfx := by
  constructor
  · rw [parse, hrun]
    show finish_loop g (some t) ((tos :: rest).length + 1) (tos :: rest)
      = .error (.internalErr "incomplete input" t.typ t.string t.start_pos)
    rw [show (tos :: rest).length + 1 = (rest.length + 1) + 1 from by simp]
    rw [finish_loop_succ_cons, if_neg (by rw [hfin]; simp)]
  · rw [error_recovery, if_neg (by simp)]

/-- C8: witness for the amended claim on `gram8` with the single NAME
token, whose parse stops mid-rule. -/
theorem c8_incomplete_input_internal_witness :
    parse gram8 40 false [mkName "x" 0] =
      .error (.internalErr "incomplete input" tNAME "x" (1, 0))
    ∧ error_recovery false (mkEnd 0) =
        .syntaxErr "SyntaxError: invalid syntax" tEND "" (1, 0) "" :=
  c8_incomplete_input_internal gram8 40 [mkName "x" 0]
    ⟨1, [PTree.leaf "x" (1, 0) " "]⟩ [] ⟨[mkName "x" 0], 1, 1, []⟩
    (mkName "x" 0) (mkEnd 0) (by decide) (by decide)

/-- C9: with error recovery disabled, a token with no matching transition
while the top frame's cursor is non-final stops the engine at once with
`ParserSyntaxError` whose error leaf is built from exactly the offending
token's type, text, position and prefix. -/
theorem c9_syntax_error_fail_stop (g : Grammar) (fuel : Nat) (tok : Token)
    (tos : StackNode) (rest : List StackNode) (p p' : Proxy)
    (hplan : get_possible_plan g fuel
        (token_to_transition g tok.typ tok.string)
        (g.dfa tos.dfa).transitions p = .ok (none, p'))
    (hfin : (g.dfa tos.dfa).is_final = false) :
    add_token g fuel false tok (tos :: rest) p =
      .error (.syntaxErr "SyntaxError: invalid syntax" tok.typ tok.string
        tok.start_pos tok.pfx) := by
  rw [add_token, add_token_loop, hplan]
  show (if (g.dfa tos.dfa).is_final = true then _ else
    Except.error (error_recovery false tok)) = _
  rw [if_neg (by rw [hfin]; simp), error_recovery, if_neg (by simp)]

/-- C9: witness at `gram8` (non-final start state) with an unmatched
ENDMARKER. -/
theorem c9_syntax_error_fail_stop_witness :
    add_token gram8 40 false (mkEnd 0) [⟨0, []⟩] ⟨[], 0, 0, []⟩ =
      .error (.syntaxErr "SyntaxError: invalid syntax" tEND "" (1, 0) "") :=
  c9_syntax_error_fail_stop gram8 40 (mkEnd 0) ⟨0, []⟩ [] ⟨[], 0, 0, []⟩
    ⟨[], 0, 0, []⟩ (by decide) (by decide)

/-- C5: failing input.  On `gram5`/`toks5` the resolver speculates while
already inside a speculation (both `"a"` tokens are ambiguous); the inner
`release()` scope leaves the outer range's `end` forever unset, so the
very next sequential read of the driving loop fails the
`assert end is not None` in `__next__` and the parse crashes — instead of
the isolated, outer-cache-consulting nested lookahead the claim
describes. -/
theorem c5_nested_speculation_crashes :
    parse gram5 40 false toks5 = .error .assertFail := by decide

/-- C2: counterexample.  In `gram2` the start state's transition table
registers the NAME-type key *first* and the soft reserved string `"a"`
second; on the token `a` with no lookahead available both candidates
survive to end-of-input in a tie, and the resolver picks `planRes` — the
plan found through the *reserved-string* key — although the claim says
the tie goes to the first-registered table entry, `planTyp`. -/
theorem c2_tie_break_not_table_order :
    (get_possible_plan gram2 40 (token_to_transition gram2 tNAME "a")
        (gram2.dfa 0).transitions ⟨[], 0, 0, []⟩).map Prod.fst
      = .ok (some planRes)
    ∧ (gram2.dfa 0).transitions.head? = some (.ofType tNAME, planTyp)
    ∧ planRes ≠ planTyp := by decide

/-- C4: counterexample.  `proxMid` is reached from a fresh buffer by
speculating three tokens ahead, abandoning, and consuming one token — a
legal state with two cached tokens pending replay.  Opening a scope
there, peeking `N = 2` and closing without consuming then loses tokens
`d` and `e`: the subsequent `next()` stream is cut short, differing from
the stream without the speculation. -/
theorem c4_speculation_not_side_effect_free :
    deliver 5 (peekN proxMid.releaseOpen 2).releaseClose
        = [mkName "b" 1, mkName "c" 2]
    ∧ deliver 5 proxMid
        = [mkName "b" 1, mkName "c" 2, mkName "d" 3, mkName "e" 4]
    ∧ ([mkName "b" 1, mkName "c" 2] : List Token)
        ≠ [mkName "b" 1, mkName "c" 2, mkName "d" 3, mkName "e" 4] := by
  decide

/-- C6: counterexample.  The `expr_stmt` frame of `gram6` completes with
exactly one child, and `_pop` hands that child through unwrapped: the
result tree holds `leaf "x"` directly under `file`, with no `expr_stmt`
node — although `expr_stmt` is in the code's own designated
still-to-be-created set, which the claim says always produces a wrapper
node. -/
theorem c6_expr_stmt_elided :
    parse gram6 40 false toks6 =
      .ok (.node "file" [.leaf "x" (1, 0) " ", .leaf "" (1, 1) ""]) := by
  decide

/-- C7: counterexample.  The whole input of `gram7` collapses to the
single NAME symbol, yet `parse` returns the wrapper
`node "S" [leaf "x"]` — built by the final `convert_node` — and not the
corresponding Leaf itself as the claim states. -/
theorem c7_single_symbol_still_wrapped :
    parse gram7 40 false [mkName "x" 0] =
      .ok (.node "S" [.leaf "x" (1, 0) " "]) := by decide

/-- C8: counterexample.  With an empty token source the top frame's
cursor (the start state of `gram7`) is non-final at exhaustion, but
`parse` does not raise `InternalParseError("incomplete input", ...)`: the
loop variable `token` was never bound, so the raise itself crashes with
`NameError` (`PErr.nameErr`). -/
theorem c8_empty_source_name_error :
    parse gram7 40 false [] = .error .nameErr := by decide

/-- C10: failing input.  On `gram10` (final start state) the end marker
has no transition, so the single final frame is reduced — but `_pop` on
the one-frame stack underflows, and because that `IndexError` is raised
inside the `except KeyError` handler, the
`except IndexError → InternalParseError("too much input")` arm of the
`try` never sees it: a bare `IndexError` escapes instead of any of the
three outcomes the claim allows. -/
theorem c10_pop_underflow_escapes :
    parse gram10 40 false [mkEnd 0] = .error .indexErr := by decide

/-! ## C1: code accounting over the stack -/

theorem codeList_append (a b : List PTree) :
    PTree.codeList (a ++ b) = PTree.codeList a ++ PTree.codeList b := by
  induction a with
  | nil =>
    rw [List.nil_append]
    show PTree.codeList b = "" ++ PTree.codeList b
    rw [String.empty_append]
  | cons t ts ih =>
    rw [List.cons_append, PTree.codeList, PTree.codeList, ih,
      String.append_assoc]

theorem codeList_single (t : PTree) :
    PTree.codeList [t] = PTree.code t := by
  rw [PTree.codeList, PTree.codeList, String.append_empty]

theorem pop_new_node_code (g : Grammar) (f : StackNode) :
    PTree.code (pop_new_node g f) = PTree.codeList f.nodes := by
  rw [pop_new_node]
  cases hn : f.nodes with
  | nil => rfl
  | cons t ts =>
    cases ts with
    | nil =>
      show PTree.code t = PTree.codeList [t]
      rw [codeList_single]
    | cons u us => rfl

theorem stackCode_pop (g : Grammar) (tos parent : StackNode)
    (below : List StackNode) :
    stackCode ({ parent with nodes := parent.nodes ++ [pop_new_node g tos] }
      :: below) = stackCode (tos :: parent :: below) := by
  show stackCode below ++
      PTree.codeList (parent.nodes ++ [pop_new_node g tos]) =
    (stackCode below ++ PTree.codeList parent.nodes) ++
      PTree.codeList tos.nodes
  rw [codeList_append, codeList_single, pop_new_node_code,
    String.append_assoc]

theorem stackCode_push_frames (ds : List Nat) (X : List StackNode) :
    stackCode (ds.map (fun d => (⟨d, []⟩ : StackNode)) ++ X) =
      stackCode X := by
  induction ds with
  | nil => rfl
  | cons d rest ih =>
    rw [List.map_cons, List.cons_append]
    show stackCode (rest.map (fun d => (⟨d, []⟩ : StackNode)) ++ X) ++
      PTree.codeList [] = stackCode X
    rw [ih]
    exact String.append_empty _

theorem stackCode_top_append (top : StackNode) (rest : List StackNode)
    (n : PTree) :
    stackCode ({ top with nodes := top.nodes ++ [n] } :: rest) =
      stackCode (top :: rest) ++ PTree.code n := by
  show stackCode rest ++ PTree.codeList (top.nodes ++ [n]) =
    (stackCode rest ++ PTree.codeList top.nodes) ++ PTree.code n
  rw [codeList_append, codeList_single, String.append_assoc]

theorem add_token_loop_succ_cons (g : Grammar) (fuel : Nat) (er : Bool)
    (tok : Token) (ptr : List TransitionKey) (lf : Nat) (tos : StackNode)
    (rest : List StackNode) (p : Proxy) :
    add_token_loop g fuel er tok ptr (lf + 1) (tos :: rest) p =
      match get_possible_plan g fuel ptr (g.dfa tos.dfa).transitions p with
      | .error e => .error e
      | .ok (some plan, p') =>
        (match plan.dfa_pushes.reverse.map (fun d => (⟨d, []⟩ : StackNode))
            ++ ({ tos with dfa := plan.next_dfa } :: rest) with
        | [] => .error .indexErr
        | top :: rest2 =>
          .ok ({ top with nodes := top.nodes ++
            [convert_leaf tok.typ tok.string tok.pfx tok.start_pos] }
              :: rest2, p'))
      | .ok (none, p') =>
        if (g.dfa tos.dfa).is_final then
          match rest with
          | [] => .error .indexErr
          | parent :: below =>
              add_token_loop g fuel er tok ptr lf
                ({ parent with nodes :=
                    parent.nodes ++ [pop_new_node g tos] } :: below) p'
        else .error (error_recovery er tok) := rfl

theorem add_token_loop_code (g : Grammar) (fuel : Nat) (er : Bool)
    (tok : Token) (ptr : List TransitionKey) :
    ∀ (bound : Nat) (stack st2 : List StackNode) (p p2 : Proxy),
    add_token_loop g fuel er tok ptr bound stack p = .ok (st2, p2) →
    stackCode st2 = stackCode stack ++ (tok.pfx ++ tok.string) := by
  intro bound
  induction bound with
  | zero => intro stack st2 p p2 h; cases h
  | succ lf ih =>
    intro stack st2 p p2 h
    cases stack with
    | nil => cases h
    | cons tos rest =>
      rw [add_token_loop_succ_cons] at h
      cases hg : get_possible_plan g fuel ptr (g.dfa tos.dfa).transitions p
        with
      | error e => rw [hg] at h; cases h
      | ok q =>
        rcases q with ⟨r, p'⟩
        rw [hg] at h
        cases r with
        | some plan =>
          have h1 : (match plan.dfa_pushes.reverse.map
              (fun d => (⟨d, []⟩ : StackNode))
              ++ ({ tos with dfa := plan.next_dfa } :: rest) with
            | [] =>
              (Except.error PErr.indexErr :
                Except PErr (List StackNode × Proxy))
            | top :: rest2 =>
              Except.ok (({ top with nodes := top.nodes ++
                [convert_leaf tok.typ tok.string tok.pfx tok.start_pos] } :
                  StackNode) :: rest2, p')) = .ok (st2, p2) := h
          cases hps : plan.dfa_pushes.reverse with
          | nil =>
            rw [hps] at h1
            have h' : (Except.ok ((⟨plan.next_dfa, tos.nodes ++
                [convert_leaf tok.typ tok.string tok.pfx tok.start_pos]⟩ :
                StackNode) :: rest, p') :
                Except PErr (List StackNode × Proxy)) = .ok (st2, p2) := h1
            injection h' with hq
            injection hq with hq1 hq2
            rw [← hq1]
            show stackCode rest ++ PTree.codeList (tos.nodes ++
              [convert_leaf tok.typ tok.string tok.pfx tok.start_pos]) =
              (stackCode rest ++ PTree.codeList tos.nodes) ++
                (tok.pfx ++ tok.string)
            rw [codeList_append, codeList_single, String.append_assoc]
            rfl
          | cons d ds =>
            rw [hps] at h1
            have h' : (Except.ok ((⟨d, [] ++ [convert_leaf tok.typ
                tok.string tok.pfx tok.start_pos]⟩ : StackNode) ::
                (ds.map (fun d => (⟨d, []⟩ : StackNode)) ++
                  ({ tos with dfa := plan.next_dfa } :: rest)), p') :
                Except PErr (List StackNode × Proxy)) = .ok (st2, p2) := h1
            injection h' with hq
            injection hq with hq1 hq2
            rw [← hq1]
            show stackCode (ds.map (fun d => (⟨d, []⟩ : StackNode)) ++
              ({ tos with dfa := plan.next_dfa } :: rest)) ++
              PTree.codeList ([] ++ [convert_leaf tok.typ tok.string
                tok.pfx tok.start_pos]) =
              (stackCode rest ++ PTree.codeList tos.nodes) ++
                (tok.pfx ++ tok.string)
            rw [stackCode_push_frames]
            show (stackCode rest ++ PTree.codeList tos.nodes) ++
              PTree.codeList [convert_leaf tok.typ tok.string tok.pfx
                tok.start_pos] =
              (stackCode rest ++ PTree.codeList tos.nodes) ++
                (tok.pfx ++ tok.string)
            rw [codeList_single]
            rfl
        | none =>
          have h1 : (if (g.dfa tos.dfa).is_final then
              match rest with
              | [] =>
                (Except.error PErr.indexErr :
                  Except PErr (List StackNode × Proxy))
              | parent :: below =>
                  add_token_loop g fuel er tok ptr lf
                    ({ parent with nodes :=
                        parent.nodes ++ [pop_new_node g tos] } :: below) p'
            else .error (error_recovery er tok)) = .ok (st2, p2) := h
          by_cases hfin : (g.dfa tos.dfa).is_final = true
          · rw [if_pos hfin] at h1
            cases rest with
            | nil => cases h1
            | cons parent below =>
              have := ih _ st2 p' p2 h1
              rw [this, stackCode_pop]
          · rw [if_neg hfin] at h1
            cases h1

theorem finish_loop_code (g : Grammar) (last : Option Token) :
    ∀ (bound : Nat) (stack : List StackNode) (t : PTree),
    finish_loop g last bound stack = .ok t →
    PTree.code t = stackCode stack := by
  intro bound
  induction bound with
  | zero => intro stack t h; cases h
  | succ lf ih =>
    intro stack t h
    cases stack with
    | nil => rw [finish_loop_succ_nil] at h; cases h
    | cons tos rest =>
      rw [finish_loop_succ_cons] at h
      by_cases hfin : (g.dfa tos.dfa).is_final = true
      · rw [if_pos hfin] at h
        cases rest with
        | nil =>
          have h' : (Except.ok (convert_node (g.dfa tos.dfa).from_rule
              tos.nodes) : Except PErr PTree) = .ok t := h
          injection h' with h''
          rw [← h'']
          show PTree.codeList tos.nodes = "" ++ PTree.codeList tos.nodes
          rw [String.empty_append]
        | cons parent below =>
          have := ih _ t h
          rw [this, stackCode_pop]
      · rw [if_neg hfin] at h
        cases last with
        | some u => cases h
        | none => cases h

/-! ## C1: persistence of a corrupted speculation record -/

theorem poisoned_cons_ne_nil {r : ReleaseRange} {rest : List ReleaseRange}
    (h : rest ≠ []) :
    poisoned (r :: rest) = (r.stop.isNone || poisoned rest) := by
  cases rest with
  | nil => exact absurd rfl h
  | cons a l => rfl

theorem poisoned_append_one (rs : List ReleaseRange) (r : ReleaseRange) :
    poisoned (rs ++ [r]) = rs.any (fun x => x.stop.isNone) := by
  induction rs with
  | nil => rfl
  | cons a l ih =>
    rw [List.cons_append, poisoned_cons_ne_nil (by simp), ih, List.any_cons]

theorem poisoned_any {rs : List ReleaseRange} (h : poisoned rs = true) :
    rs.any (fun x => x.stop.isNone) = true := by
  induction rs with
  | nil => cases h
  | cons a l ih =>
    cases l with
    | nil => cases h
    | cons b m =>
      rw [poisoned_cons_ne_nil (by simp), Bool.or_eq_true] at h
      rw [List.any_cons, Bool.or_eq_true]
      rcases h with h | h
      · exact Or.inl h
      · exact Or.inr (ih h)

theorem poisoned_mono (rs : List ReleaseRange) (r : ReleaseRange)
    (h : poisoned rs = true) : poisoned (rs ++ [r]) = true := by
  rw [poisoned_append_one]
  exact poisoned_any h

theorem poisoned_modify (f : ReleaseRange → ReleaseRange) :
    ∀ rs : List ReleaseRange,
    poisoned (match rs.getLast? with
      | some r => rs.dropLast ++ [f r]
      | none => rs) = poisoned rs
  | [] => rfl
  | [a] => rfl
  | a :: b :: t => by
    have ih := poisoned_modify f (b :: t)
    rw [List.getLast?_cons_cons]
    cases hg : (b :: t).getLast? with
    | none => rfl
    | some r =>
      rw [hg] at ih
      show poisoned (a :: ((b :: t).dropLast ++ [f r])) = poisoned (a :: b :: t)
      rw [poisoned_cons_ne_nil (by simp),
        poisoned_cons_ne_nil (by simp), ih]

theorem modifyLast_poisoned (p : Proxy) (f : ReleaseRange → ReleaseRange) :
    poisoned (p.modifyLast f).release_ranges = poisoned p.release_ranges :=
  poisoned_modify f p.release_ranges

theorem releaseOpen_ranges (p : Proxy) :
    p.releaseOpen.release_ranges =
      p.release_ranges ++ [⟨p.counter, none, []⟩] := rfl

theorem releaseOpen_poisoned (p : Proxy)
    (h : poisoned p.release_ranges = true) :
    poisoned p.releaseOpen.release_ranges = true := by
  rw [releaseOpen_ranges]
  exact poisoned_mono _ _ h

theorem releaseClose_poisoned (p : Proxy) :
    poisoned p.releaseClose.release_ranges = poisoned p.release_ranges :=
  modifyLast_poisoned p _

theorem pullN_poisoned (p : Proxy) (n : Nat) :
    poisoned (p.pullN n).1.release_ranges = poisoned p.release_ranges := by
  induction n generalizing p with
  | zero => rfl
  | succ n ih =>
    rw [Proxy.pullN, Proxy.rawNext]
    cases hx : p.src[p.srcPos]? with
    | none => rfl
    | some t =>
      rw [ih]
      exact modifyLast_poisoned _ _

theorem eat_poisoned (p : Proxy) (pt : Nat) :
    poisoned (p.eat pt).2.release_ranges = poisoned p.release_ranges := by
  rw [Proxy.eat]
  by_cases hc : pt < p.lastCache.length
  · simp only [hc, if_true]
  · simp only [hc, if_false]
    have := pullN_poisoned p (pt + 1 - p.lastCache.length)
    cases hp : p.pullN (pt + 1 - p.lastCache.length) with
    | mk q b =>
      rw [hp] at this
      cases b
      · exact this
      · exact this

/-- The open last range of an enclosing speculation scope: once a nested
scope is appended after it, the record is corrupted. -/
theorem lastOpen_releaseOpen_poisoned {p : Proxy} {r : ReleaseRange}
    (hg : p.release_ranges.getLast? = some r) (ho : r.stop = none) :
    poisoned p.releaseOpen.release_ranges = true := by
  rw [releaseOpen_ranges, poisoned_append_one]
  have hmem : r ∈ p.release_ranges := List.mem_of_mem_getLast? hg
  rw [List.any_eq_true]
  exact ⟨r, hmem, by rw [ho]; rfl⟩

theorem scanRanges_poisoned {rs : List ReleaseRange}
    (h : poisoned rs = true) (c : Nat) :
    scanRanges c rs ≠ .ok none := by
  induction rs generalizing c with
  | nil => cases h
  | cons r rest ih =>
    cases rest with
    | nil => cases h
    | cons b m =>
      rw [poisoned_cons_ne_nil (by simp), Bool.or_eq_true] at h
      cases hst : r.stop with
      | none =>
        rw [scanRanges, hst]
        intro hcon; cases hcon
      | some stop =>
        rcases h with h | h
        · rw [hst] at h; cases h
        · have hred : scanRanges c (r :: b :: m) =
              if r.start ≤ c ∧ c < stop then
                (match r.cache[c - r.start]? with
                  | some t => Except.ok (some t)
                  | none => Except.error PErr.indexErr)
              else scanRanges c (b :: m) := by
            rw [scanRanges, hst]
          rw [hred]
          by_cases hin : r.start ≤ c ∧ c < stop
          · rw [if_pos hin]
            cases hcc : r.cache[c - r.start]? with
            | some t => intro hcon; cases hcon
            | none => intro hcon; cases hcon
          · rw [if_neg hin]
            exact ih h c

theorem next_ranges {p p' : Proxy} {t : Token}
    (h : p.next = .ok (some (t, p'))) :
    p'.release_ranges = p.release_ranges ∧ p'.src = p.src ∧
    p'.counter = p.counter + 1 := by
  rw [Proxy.next] at h
  cases hs : scanRanges p.counter p.release_ranges with
  | error e => rw [hs] at h; cases h
  | ok o =>
    rw [hs] at h
    cases o with
    | some u =>
      have h' : (Except.ok (some (u, { p with counter := p.counter + 1 })) :
          Except PErr (Option (Token × Proxy))) = .ok (some (t, p')) := h
      injection h' with hq
      injection hq with hq2
      injection hq2 with hq3 hq4
      rw [← hq4]
      exact ⟨rfl, rfl, rfl⟩
    | none =>
      rw [Proxy.rawNext] at h
      cases hx : p.src[p.srcPos]? with
      | none => rw [hx] at h; cases h
      | some u =>
        rw [hx] at h
        have h' : (Except.ok (some (u, (⟨p.src, p.srcPos + 1,
            p.counter + 1, p.release_ranges⟩ : Proxy))) :
            Except PErr (Option (Token × Proxy))) = .ok (some (t, p')) := h
        injection h' with hq
        injection hq with hq2
        injection hq2 with hq3 hq4
        rw [← hq4]
        exact ⟨rfl, rfl, rfl⟩

theorem next_poisoned_not_none {p : Proxy}
    (h : poisoned p.release_ranges = true) : p.next ≠ .ok none := by
  rw [Proxy.next]
  cases hs : scanRanges p.counter p.release_ranges with
  | error e => intro hcon; cases hcon
  | ok o =>
    cases o with
    | some u => intro hcon; cases hcon
    | none => exact absurd hs (scanRanges_poisoned h p.counter)

theorem gpp_family_poisoned (fuel : Nat) :
    (∀ (g : Grammar) (ptr : List TransitionKey)
      (ttable : List (TransitionKey × Plan)) (p : Proxy) (r : Option Plan)
      (p' : Proxy), poisoned p.release_ranges = true →
      get_possible_plan g fuel ptr ttable p = .ok (r, p') →
      poisoned p'.release_ranges = true) ∧
    (∀ (g : Grammar) (dead : List Plan) (table : List (Plan × List Plan))
      (c : Nat) (p : Proxy) (r : Option Plan) (p' : Proxy),
      poisoned p.release_ranges = true →
      lookahead_loop g fuel dead table c p = .ok (r, p') →
      poisoned p'.release_ranges = true) ∧
    (∀ (g : Grammar) (dead : List Plan) (entries : List (Plan × List Plan))
      (ntr : List TransitionKey) (p : Proxy) (d' : List Plan)
      (e' : List (Plan × List Plan)) (p' : Proxy),
      poisoned p.release_ranges = true →
      extend_table g fuel dead entries ntr p = .ok (d', e', p') →
      poisoned p'.release_ranges = true) ∧
    (∀ (g : Grammar) (pushes : List Nat) (ntr : List TransitionKey)
      (p : Proxy) (r : Option Plan) (p' : Proxy),
      poisoned p.release_ranges = true →
      try_pushes g fuel pushes ntr p = .ok (r, p') →
      poisoned p'.release_ranges = true) := by
  induction fuel with
  | zero =>
    refine ⟨?_, ?_, ?_, ?_⟩ <;> intro g
    · intro ptr ttable p r p' _ h
      rw [get_possible_plan] at h
      cases h
    · intro dead table c p r p' _ h
      rw [lookahead_loop] at h
      cases h
    · intro dead entries ntr p d' e' p' _ h
      rw [extend_table] at h
      cases h
    · intro pushes ntr p r p' _ h
      rw [try_pushes] at h
      cases h
  | succ f ih =>
    obtain ⟨ih1, ih2, ih3, ih4⟩ := ih
    refine ⟨?_, ?_, ?_, ?_⟩ <;> intro g
    · -- get_possible_plan
      intro ptr ttable p r p' hpo h
      rw [get_possible_plan] at h
      cases hpl : ptr.filterMap
          (fun tr => (ttable.find? (fun e => e.1 == tr)).map Prod.snd) with
      | nil =>
        rw [hpl] at h
        have h' : (Except.ok (none, p) :
            Except PErr (Option Plan × Proxy)) = .ok (r, p') := h
        injection h' with hq
        injection hq with hq1 hq2
        rw [← hq2]
        exact hpo
      | cons a l =>
        cases l with
        | nil =>
          rw [hpl] at h
          have h' : (Except.ok (some a, p) :
              Except PErr (Option Plan × Proxy)) = .ok (r, p') := h
          injection h' with hq
          injection hq with hq1 hq2
          rw [← hq2]
          exact hpo
        | cons b m =>
          rw [hpl] at h
          have h' : (match lookahead_loop g f []
              (mkPlanTable (a :: b :: m)) 0 p.releaseOpen with
            | Except.error e =>
                (Except.error e : Except PErr (Option Plan × Proxy))
            | Except.ok (r0, p2) => Except.ok (r0, p2.releaseClose)) =
              Except.ok (r, p') := h
          cases hll : lookahead_loop g f []
              (mkPlanTable (a :: b :: m)) 0 p.releaseOpen with
          | error e => rw [hll] at h'; cases h'
          | ok q =>
            rcases q with ⟨r0, p2⟩
            rw [hll] at h'
            have h'' : (Except.ok (r0, p2.releaseClose) :
                Except PErr (Option Plan × Proxy)) = .ok (r, p') := h'
            injection h'' with hq
            injection hq with hr hp
            have hpo2 := ih2 g [] (mkPlanTable (a :: b :: m)) 0
              p.releaseOpen r0 p2 (releaseOpen_poisoned p hpo) hll
            rw [← hp, releaseClose_poisoned]
            exact hpo2
    · -- lookahead_loop
      intro dead table c p r p' hpo h
      rw [lookahead_loop_succ] at h
      by_cases hs : (superior_plan table false).isSome
      · rw [if_pos hs] at h
        have h' : (Except.ok (superior_plan table true, p) :
            Except PErr (Option Plan × Proxy)) = .ok (r, p') := h
        injection h' with hq
        injection hq with hq1 hq2
        rw [← hq2]
        exact hpo
      · rw [if_neg hs] at h
        have hep := eat_poisoned p c
        cases he : p.eat c with
        | mk tk p1 =>
          rw [he] at h hep
          cases tk with
          | none =>
            have h' : (Except.ok (superior_plan table true, p1) :
                Except PErr (Option Plan × Proxy)) = .ok (r, p') := h
            injection h' with hq
            injection hq with hq1 hq2
            rw [← hq2, hep]
            exact hpo
          | some token =>
            have h' : (match extend_table g f dead table
                (token_to_transition g token.typ token.string) p1 with
              | Except.error e =>
                  (Except.error e : Except PErr (Option Plan × Proxy))
              | Except.ok (dead', table', p'') =>
                  lookahead_loop g f dead' table' (c + 1) p'') =
                Except.ok (r, p') := h
            cases hex : extend_table g f dead table
                (token_to_transition g token.typ token.string) p1 with
            | error e => rw [hex] at h'; cases h'
            | ok q =>
              rcases q with ⟨d2, t2, p2⟩
              rw [hex] at h'
              have hpo1 : poisoned p1.release_ranges = true := by
                rw [hep]; exact hpo
              have hpo2 := ih3 g dead table
                (token_to_transition g token.typ token.string) p1 d2 t2 p2
                hpo1 hex
              exact ih2 g d2 t2 (c + 1) p2 r p' hpo2 h'
    · -- extend_table
      intro dead entries ntr p d' e' p' hpo h
      cases entries with
      | nil =>
        have h' : (Except.ok (dead, ([], p)) :
            Except PErr (List Plan × List (Plan × List Plan) × Proxy)) =
            .ok (d', e', p') := h
        injection h' with hq
        injection hq with hq1 hq2
        injection hq2 with hq3 hq4
        rw [← hq4]
        exact hpo
      | cons a rest =>
        rcases a with ⟨origin, branch⟩
        rw [extend_table_succ_cons] at h
        by_cases hd : dead.contains origin
        · rw [if_pos hd] at h
          cases hex : extend_table g f dead rest ntr p with
          | error e => rw [hex] at h; cases h
          | ok q =>
            rcases q with ⟨d2, r2, p2⟩
            rw [hex] at h
            have h' : (Except.ok (d2, (origin, branch) :: r2, p2) :
                Except PErr (List Plan × List (Plan × List Plan) × Proxy)) =
                .ok (d', e', p') := h
            injection h' with hq
            injection hq with hq1 hq2
            injection hq2 with hq3 hq4
            rw [← hq4]
            exact ih3 g dead rest ntr p d2 r2 p2 hpo hex
        · rw [if_neg hd] at h
          cases htp : try_pushes g f
              (branch.getLast?.getD origin).dfa_pushes.reverse ntr p with
          | error e => rw [htp] at h; cases h
          | ok q =>
            rcases q with ⟨nxt, p1⟩
            rw [htp] at h
            have hpo1 := ih4 g
              (branch.getLast?.getD origin).dfa_pushes.reverse ntr p nxt p1
              hpo htp
            cases nxt with
            | none =>
              have h' : (match extend_table g f (dead ++ [origin]) rest ntr
                  p1 with
                | Except.error e => (Except.error e :
                    Except PErr (List Plan × List (Plan × List Plan) × Proxy))
                | Except.ok (dead2, rest2, p2) =>
                    Except.ok (dead2, (origin, branch) :: rest2, p2)) =
                  Except.ok (d', e', p') := h
              cases hex : extend_table g f (dead ++ [origin]) rest ntr p1 with
              | error e => rw [hex] at h'; cases h'
              | ok q2 =>
                rcases q2 with ⟨d2, r2, p2⟩
                rw [hex] at h'
                have h'' : (Except.ok (d2, (origin, branch) :: r2, p2) :
                    Except PErr (List Plan × List (Plan × List Plan) ×
                      Proxy)) = .ok (d', e', p') := h'
                injection h'' with hq
                injection hq with hq1 hq2
                injection hq2 with hq3 hq4
                rw [← hq4]
                exact ih3 g (dead ++ [origin]) rest ntr p1 d2 r2 p2 hpo1 hex
            | some np =>
              have h' : (match extend_table g f dead rest ntr p1 with
                | Except.error e => (Except.error e :
                    Except PErr (List Plan × List (Plan × List Plan) × Proxy))
                | Except.ok (dead2, rest2, p2) =>
                    Except.ok (dead2, (origin, branch ++ [np]) :: rest2,
                      p2)) = Except.ok (d', e', p') := h
              cases hex : extend_table g f dead rest ntr p1 with
              | error e => rw [hex] at h'; cases h'
              | ok q2 =>
                rcases q2 with ⟨d2, r2, p2⟩
                rw [hex] at h'
                have h'' : (Except.ok (d2, (origin, branch ++ [np]) :: r2,
                    p2) : Except PErr (List Plan × List (Plan × List Plan) ×
                      Proxy)) = .ok (d', e', p') := h'
                injection h'' with hq
                injection hq with hq1 hq2
                injection hq2 with hq3 hq4
                rw [← hq4]
                exact ih3 g dead rest ntr p1 d2 r2 p2 hpo1 hex
    · -- try_pushes
      intro pushes ntr p r p' hpo h
      cases pushes with
      | nil =>
        have h' : (Except.ok (none, p) :
            Except PErr (Option Plan × Proxy)) = .ok (r, p') := h
        injection h' with hq
        injection hq with hq1 hq2
        rw [← hq2]
        exact hpo
      | cons d rest =>
        rw [try_pushes_succ_cons] at h
        cases hg : get_possible_plan g f ntr (g.dfa d).transitions p with
        | error e => rw [hg] at h; cases h
        | ok q =>
          rcases q with ⟨pl, p1⟩
          rw [hg] at h
          have hpo1 := ih1 g ntr (g.dfa d).transitions p pl p1 hpo hg
          cases pl with
          | some x =>
            have h' : (Except.ok (some x, p1) :
                Except PErr (Option Plan × Proxy)) = .ok (r, p') := h
            injection h' with hq
            injection hq with hq1 hq2
            rw [← hq2]
            exact hpo1
          | none =>
            exact ih4 g rest ntr p1 r p' hpo1 h

theorem add_token_loop_poisoned (g : Grammar) (fuel : Nat) (er : Bool)
    (tok : Token) (ptr : List TransitionKey) :
    ∀ (bound : Nat) (stack st2 : List StackNode) (p p2 : Proxy),
    poisoned p.release_ranges = true →
    add_token_loop g fuel er tok ptr bound stack p = .ok (st2, p2) →
    poisoned p2.release_ranges = true := by
  intro bound
  induction bound with
  | zero => intro stack st2 p p2 _ h; cases h
  | succ lf ih =>
    intro stack st2 p p2 hpo h
    cases stack with
    | nil => cases h
    | cons tos rest =>
      rw [add_token_loop_succ_cons] at h
      cases hg : get_possible_plan g fuel ptr (g.dfa tos.dfa).transitions p
        with
      | error e => rw [hg] at h; cases h
      | ok q =>
        rcases q with ⟨r, p'⟩
        rw [hg] at h
        have hpo' := (gpp_family_poisoned fuel).1 g ptr
          (g.dfa tos.dfa).transitions p r p' hpo hg
        cases r with
        | some plan =>
          have h1 : (match plan.dfa_pushes.reverse.map
              (fun d => (⟨d, []⟩ : StackNode))
              ++ ({ tos with dfa := plan.next_dfa } :: rest) with
            | [] =>
              (Except.error PErr.indexErr :
                Except PErr (List StackNode × Proxy))
            | top :: rest2 =>
              Except.ok (({ top with nodes := top.nodes ++
                [convert_leaf tok.typ tok.string tok.pfx tok.start_pos] } :
                  StackNode) :: rest2, p')) = .ok (st2, p2) := h
          cases hps : plan.dfa_pushes.reverse with
          | nil =>
            rw [hps] at h1
            have h' : (Except.ok ((⟨plan.next_dfa, tos.nodes ++
                [convert_leaf tok.typ tok.string tok.pfx tok.start_pos]⟩ :
                StackNode) :: rest, p') :
                Except PErr (List StackNode × Proxy)) = .ok (st2, p2) := h1
            injection h' with hq
            injection hq with hq1 hq2
            rw [← hq2]
            exact hpo'
          | cons d ds =>
            rw [hps] at h1
            have h' : (Except.ok ((⟨d, [] ++ [convert_leaf tok.typ
                tok.string tok.pfx tok.start_pos]⟩ : StackNode) ::
                (ds.map (fun d => (⟨d, []⟩ : StackNode)) ++
                  ({ tos with dfa := plan.next_dfa } :: rest)), p') :
                Except PErr (List StackNode × Proxy)) = .ok (st2, p2) := h1
            injection h' with hq
            injection hq with hq1 hq2
            rw [← hq2]
            exact hpo'
        | none =>
          have h1 : (if (g.dfa tos.dfa).is_final then
              match rest with
              | [] =>
                (Except.error PErr.indexErr :
                  Except PErr (List StackNode × Proxy))
              | parent :: below =>
                  add_token_loop g fuel er tok ptr lf
                    ({ parent with nodes :=
                        parent.nodes ++ [pop_new_node g tos] } :: below) p'
            else .error (error_recovery er tok)) = .ok (st2, p2) := h
          by_cases hfin : (g.dfa tos.dfa).is_final = true
          · rw [if_pos hfin] at h1
            cases rest with
            | nil => cases h1
            | cons parent below =>
              exact ih _ st2 p' p2 hpo' h1
          · rw [if_neg hfin] at h1
            cases h1

theorem main_loop_succ (g : Grammar) (er : Bool) (f : Nat)
    (stack : List StackNode) (p : Proxy) (last : Option Token) :
    main_loop g er (f + 1) stack p last =
      match p.next with
      | .error e => .error e
      | .ok none => .ok (stack, p, last)
      | .ok (some (token, p')) =>
        match add_token g (f + 1) er token stack p' with
        | .error e => .error e
        | .ok (stack', p'') => main_loop g er f stack' p'' (some token)
          := rfl

theorem main_loop_poisoned (g : Grammar) (er : Bool) :
    ∀ (f : Nat) (stack : List StackNode) (p : Proxy) (last : Option Token)
    (out : List StackNode × Proxy × Option Token),
    poisoned p.release_ranges = true →
    main_loop g er f stack p last = .ok out → False := by
  intro f
  induction f with
  | zero => intro stack p last out _ h; cases h
  | succ f ih =>
    intro stack p last out hpo h
    rw [main_loop_succ] at h
    cases hn : p.next with
    | error e => rw [hn] at h; cases h
    | ok o =>
      rw [hn] at h
      cases o with
      | none => exact next_poisoned_not_none hpo hn
      | some tp =>
        rcases tp with ⟨token, p'⟩
        obtain ⟨hr, _, _⟩ := next_ranges hn
        have hpo' : poisoned p'.release_ranges = true := by
          rw [hr]; exact hpo
        have h1 : (match add_token g (f + 1) er token stack p' with
          | Except.error e =>
              (Except.error e :
                Except PErr (List StackNode × Proxy × Option Token))
          | Except.ok (stack', p'') =>
              main_loop g er f stack' p'' (some token)) = .ok out := h
        cases ha : add_token g (f + 1) er token stack p' with
        | error e => rw [ha] at h1; cases h1
        | ok q =>
          rcases q with ⟨stack', p''⟩
          rw [ha] at h1
          have hpo'' := add_token_loop_poisoned g (f + 1) er token _ _
            stack stack' p' p'' hpo' ha
          exact ih stack' p'' (some token) out hpo'' h1

/-! ## C1: pure behaviour of the resolver under an enclosing scope -/

theorem gpp_eq_nil (g : Grammar) (f : Nat) (K : List TransitionKey)
    (T : List (TransitionKey × Plan)) (p : Proxy)
    (h : plansOf K T = []) :
    get_possible_plan g (f + 1) K T p = .ok (none, p) := by
  have h2 : K.filterMap
      (fun tr => (T.find? (fun e => e.1 == tr)).map Prod.snd) = [] := h
  rw [get_possible_plan, h2]

theorem gpp_eq_single (g : Grammar) (f : Nat) (K : List TransitionKey)
    (T : List (TransitionKey × Plan)) (p : Proxy) (pl : Plan)
    (h : plansOf K T = [pl]) :
    get_possible_plan g (f + 1) K T p = .ok (some pl, p) := by
  have h2 : K.filterMap
      (fun tr => (T.find? (fun e => e.1 == tr)).map Prod.snd) = [pl] := h
  rw [get_possible_plan, h2]

theorem gpp_eq_multi (g : Grammar) (f : Nat) (K : List TransitionKey)
    (T : List (TransitionKey × Plan)) (p : Proxy) (a b : Plan)
    (m : List Plan) (h : plansOf K T = a :: b :: m) :
    get_possible_plan g (f + 1) K T p =
      match lookahead_loop g f [] (mkPlanTable (a :: b :: m)) 0
          p.releaseOpen with
      | .error e => .error e
      | .ok (r, p') => .ok (r, p'.releaseClose) := by
  have h2 : K.filterMap
      (fun tr => (T.find? (fun e => e.1 == tr)).map Prod.snd) =
      a :: b :: m := h
  rw [get_possible_plan, h2]

theorem scanHit_cons (g : Grammar) (d : Nat) (rest : List Nat)
    (K : List TransitionKey) :
    scanHit g (d :: rest) K =
      match plansOf K (g.dfa d).transitions with
      | [] => scanHit g rest K
      | [pl] => some pl
      | _ => none := rfl

theorem extend_pure_cons (g : Grammar) (dead : List Plan) (origin : Plan)
    (branch : List Plan) (rest : List (Plan × List Plan))
    (K : List TransitionKey) :
    extend_pure g dead ((origin, branch) :: rest) K =
      if dead.contains origin then
        ((extend_pure g dead rest K).1,
          (origin, branch) :: (extend_pure g dead rest K).2)
      else
        match scanHit g (branch.getLast?.getD origin).dfa_pushes.reverse K
          with
        | none =>
          ((extend_pure g (dead ++ [origin]) rest K).1,
            (origin, branch) :: (extend_pure g (dead ++ [origin]) rest K).2)
        | some np =>
          ((extend_pure g dead rest K).1,
            (origin, branch ++ [np]) :: (extend_pure g dead rest K).2) := rfl

theorem gpp_family_pure (fuel : Nat) :
    (∀ (g : Grammar) (K : List TransitionKey)
      (T : List (TransitionKey × Plan)) (p : Proxy) (r : Option Plan)
      (p' : Proxy) (lr : ReleaseRange),
      p.release_ranges.getLast? = some lr → lr.stop = none →
      get_possible_plan g fuel K T p = .ok (r, p') →
      poisoned p'.release_ranges = true ∨
      (p' = p ∧ ((plansOf K T = [] ∧ r = none) ∨
        ∃ pl, plansOf K T = [pl] ∧ r = some pl))) ∧
    (∀ (g : Grammar) (dead : List Plan) (entries : List (Plan × List Plan))
      (K : List TransitionKey) (p : Proxy) (d' : List Plan)
      (e' : List (Plan × List Plan)) (p' : Proxy) (lr : ReleaseRange),
      p.release_ranges.getLast? = some lr → lr.stop = none →
      extend_table g fuel dead entries K p = .ok (d', e', p') →
      poisoned p'.release_ranges = true ∨
      (p' = p ∧ (d', e') = extend_pure g dead entries K)) ∧
    (∀ (g : Grammar) (ds : List Nat) (K : List TransitionKey) (p : Proxy)
      (r : Option Plan) (p' : Proxy) (lr : ReleaseRange),
      p.release_ranges.getLast? = some lr → lr.stop = none →
      try_pushes g fuel ds K p = .ok (r, p') →
      poisoned p'.release_ranges = true ∨
      (p' = p ∧ r = scanHit g ds K)) := by
  induction fuel with
  | zero =>
    refine ⟨?_, ?_, ?_⟩ <;> intro g
    · intro K T p r p' lr _ _ h
      rw [get_possible_plan] at h
      cases h
    · intro dead entries K p d' e' p' lr _ _ h
      rw [extend_table] at h
      cases h
    · intro ds K p r p' lr _ _ h
      rw [try_pushes] at h
      cases h
  | succ f ih =>
    obtain ⟨ih1, ih3, ih4⟩ := ih
    refine ⟨?_, ?_, ?_⟩ <;> intro g
    · -- get_possible_plan
      intro K T p r p' lr hlg hlnone h
      cases hpl : plansOf K T with
      | nil =>
        rw [gpp_eq_nil g f K T p hpl] at h
        injection h with hq
        injection hq with hq1 hq2
        exact Or.inr ⟨hq2.symm, Or.inl ⟨rfl, hq1.symm⟩⟩
      | cons a l =>
        cases l with
        | nil =>
          rw [gpp_eq_single g f K T p a hpl] at h
          injection h with hq
          injection hq with hq1 hq2
          exact Or.inr ⟨hq2.symm, Or.inr ⟨a, rfl, hq1.symm⟩⟩
        | cons b m =>
          rw [gpp_eq_multi g f K T p a b m hpl] at h
          have hopo : poisoned p.releaseOpen.release_ranges = true :=
            lastOpen_releaseOpen_poisoned hlg hlnone
          cases hll : lookahead_loop g f [] (mkPlanTable (a :: b :: m)) 0
              p.releaseOpen with
          | error e => rw [hll] at h; cases h
          | ok q =>
            rcases q with ⟨r0, p2⟩
            rw [hll] at h
            have h' : (Except.ok (r0, p2.releaseClose) :
                Except PErr (Option Plan × Proxy)) = .ok (r, p') := h
            injection h' with hq
            injection hq with hq1 hq2
            have hpo2 := (gpp_family_poisoned f).2.1 g []
              (mkPlanTable (a :: b :: m)) 0 p.releaseOpen r0 p2 hopo hll
            refine Or.inl ?_
            rw [← hq2, releaseClose_poisoned]
            exact hpo2
    · -- extend_table
      intro dead entries K p d' e' p' lr hlg hlnone h
      cases entries with
      | nil =>
        have h' : (Except.ok (dead, ([], p)) :
            Except PErr (List Plan × List (Plan × List Plan) × Proxy)) =
            .ok (d', e', p') := h
        injection h' with hq
        injection hq with hq1 hq2
        injection hq2 with hq3 hq4
        refine Or.inr ⟨hq4.symm, ?_⟩
        rw [← hq1, ← hq3]
        rfl
      | cons a rest =>
        rcases a with ⟨origin, branch⟩
        rw [extend_table_succ_cons] at h
        by_cases hd : dead.contains origin
        · rw [if_pos hd] at h
          cases hex : extend_table g f dead rest K p with
          | error e => rw [hex] at h; cases h
          | ok q =>
            rcases q with ⟨d2, r2, p2⟩
            rw [hex] at h
            have h' : (Except.ok (d2, (origin, branch) :: r2, p2) :
                Except PErr (List Plan × List (Plan × List Plan) × Proxy)) =
                .ok (d', e', p') := h
            injection h' with hq
            injection hq with hq1 hq2
            injection hq2 with hq3 hq4
            rcases ih3 g dead rest K p d2 r2 p2 lr hlg hlnone hex with
              hpo | ⟨hpp, hpure⟩
            · refine Or.inl ?_
              rw [← hq4]
              exact hpo
            · refine Or.inr ⟨by rw [← hq4, hpp], ?_⟩
              rw [extend_pure_cons, if_pos hd, ← hq1, ← hq3]
              have hd2 : d2 = (extend_pure g dead rest K).1 := by
                rw [← hpure]
              have hr2 : r2 = (extend_pure g dead rest K).2 := by
                rw [← hpure]
              rw [hd2, hr2]
        · rw [if_neg hd] at h
          cases htp : try_pushes g f
              (branch.getLast?.getD origin).dfa_pushes.reverse K p with
          | error e => rw [htp] at h; cases h
          | ok q =>
            rcases q with ⟨nxt, p1⟩
            rw [htp] at h
            rcases ih4 g (branch.getLast?.getD origin).dfa_pushes.reverse K
                p nxt p1 lr hlg hlnone htp with hpo1 | ⟨hpp1, hscan⟩
            · -- the scan corrupted the record: everything after stays corrupt
              cases nxt with
              | none =>
                have h' : (match extend_table g f (dead ++ [origin]) rest K
                    p1 with
                  | Except.error e => (Except.error e :
                      Except PErr (List Plan × List (Plan × List Plan) ×
                        Proxy))
                  | Except.ok (dead2, rest2, p2) =>
                      Except.ok (dead2, (origin, branch) :: rest2, p2)) =
                    Except.ok (d', e', p') := h
                cases hex : extend_table g f (dead ++ [origin]) rest K p1
                  with
                | error e => rw [hex] at h'; cases h'
                | ok q2 =>
                  rcases q2 with ⟨d2, r2, p2⟩
                  rw [hex] at h'
                  have h'' : (Except.ok (d2, (origin, branch) :: r2, p2) :
                      Except PErr (List Plan × List (Plan × List Plan) ×
                        Proxy)) = .ok (d', e', p') := h'
                  injection h'' with hq
                  injection hq with hq1 hq2
                  injection hq2 with hq3 hq4
                  refine Or.inl ?_
                  rw [← hq4]
                  exact (gpp_family_poisoned f).2.2.1 g (dead ++ [origin])
                    rest K p1 d2 r2 p2 hpo1 hex
              | some np =>
                have h' : (match extend_table g f dead rest K p1 with
                  | Except.error e => (Except.error e :
                      Except PErr (List Plan × List (Plan × List Plan) ×
                        Proxy))
                  | Except.ok (dead2, rest2, p2) =>
                      Except.ok (dead2, (origin, branch ++ [np]) :: rest2,
                        p2)) = Except.ok (d', e', p') := h
                cases hex : extend_table g f dead rest K p1 with
                | error e => rw [hex] at h'; cases h'
                | ok q2 =>
                  rcases q2 with ⟨d2, r2, p2⟩
                  rw [hex] at h'
                  have h'' : (Except.ok (d2, (origin, branch ++ [np]) :: r2,
                      p2) : Except PErr (List Plan × List (Plan × List Plan)
                        × Proxy)) = .ok (d', e', p') := h'
                  injection h'' with hq
                  injection hq with hq1 hq2
                  injection hq2 with hq3 hq4
                  refine Or.inl ?_
                  rw [← hq4]
                  exact (gpp_family_poisoned f).2.2.1 g dead rest K p1 d2 r2
                    p2 hpo1 hex
            · -- clean scan: continue with the pure table
              cases nxt with
              | none =>
                have h' : (match extend_table g f (dead ++ [origin]) rest K
                    p1 with
                  | Except.error e => (Except.error e :
                      Except PErr (List Plan × List (Plan × List Plan) ×
                        Proxy))
                  | Except.ok (dead2, rest2, p2) =>
                      Except.ok (dead2, (origin, branch) :: rest2, p2)) =
                    Except.ok (d', e', p') := h
                cases hex : extend_table g f (dead ++ [origin]) rest K p1
                  with
                | error e => rw [hex] at h'; cases h'
                | ok q2 =>
                  rcases q2 with ⟨d2, r2, p2⟩
                  rw [hex] at h'
                  have h'' : (Except.ok (d2, (origin, branch) :: r2, p2) :
                      Except PErr (List Plan × List (Plan × List Plan) ×
                        Proxy)) = .ok (d', e', p') := h'
                  injection h'' with hq
                  injection hq with hq1 hq2
                  injection hq2 with hq3 hq4
                  have hlg1 : p1.release_ranges.getLast? = some lr := by
                    rw [hpp1]; exact hlg
                  rcases ih3 g (dead ++ [origin]) rest K p1 d2 r2 p2 lr hlg1
                      hlnone hex with hpo | ⟨hpp, hpure⟩
                  · refine Or.inl ?_
                    rw [← hq4]
                    exact hpo
                  · refine Or.inr ⟨by rw [← hq4, hpp, hpp1], ?_⟩
                    rw [extend_pure_cons, if_neg hd, ← hscan]
                    have hd2 : d2 = (extend_pure g (dead ++ [origin]) rest
                        K).1 := by rw [← hpure]
                    have hr2 : r2 = (extend_pure g (dead ++ [origin]) rest
                        K).2 := by rw [← hpure]
                    rw [← hq1, ← hq3, hd2, hr2]
              | some np =>
                have h' : (match extend_table g f dead rest K p1 with
                  | Except.error e => (Except.error e :
                      Except PErr (List Plan × List (Plan × List Plan) ×
                        Proxy))
                  | Except.ok (dead2, rest2, p2) =>
                      Except.ok (dead2, (origin, branch ++ [np]) :: rest2,
                        p2)) = Except.ok (d', e', p') := h
                cases hex : extend_table g f dead rest K p1 with
                | error e => rw [hex] at h'; cases h'
                | ok q2 =>
                  rcases q2 with ⟨d2, r2, p2⟩
                  rw [hex] at h'
                  have h'' : (Except.ok (d2, (origin, branch ++ [np]) :: r2,
                      p2) : Except PErr (List Plan × List (Plan × List Plan)
                        × Proxy)) = .ok (d', e', p') := h'
                  injection h'' with hq
                  injection hq with hq1 hq2
                  injection hq2 with hq3 hq4
                  have hlg1 : p1.release_ranges.getLast? = some lr := by
                    rw [hpp1]; exact hlg
                  rcases ih3 g dead rest K p1 d2 r2 p2 lr hlg1 hlnone hex
                    with hpo | ⟨hpp, hpure⟩
                  · refine Or.inl ?_
                    rw [← hq4]
                    exact hpo
                  · refine Or.inr ⟨by rw [← hq4, hpp, hpp1], ?_⟩
                    rw [extend_pure_cons, if_neg hd, ← hscan]
                    have hd2 : d2 = (extend_pure g dead rest K).1 := by
                      rw [← hpure]
                    have hr2 : r2 = (extend_pure g dead rest K).2 := by
                      rw [← hpure]
                    rw [← hq1, ← hq3, hd2, hr2]
    · -- try_pushes
      intro ds K p r p' lr hlg hlnone h
      cases ds with
      | nil =>
        have h' : (Except.ok (none, p) :
            Except PErr (Option Plan × Proxy)) = .ok (r, p') := h
        injection h' with hq
        injection hq with hq1 hq2
        exact Or.inr ⟨hq2.symm, hq1.symm⟩
      | cons d rest =>
        rw [try_pushes_succ_cons] at h
        cases hg : get_possible_plan g f K (g.dfa d).transitions p with
        | error e => rw [hg] at h; cases h
        | ok q =>
          rcases q with ⟨pl, p1⟩
          rw [hg] at h
          rcases ih1 g K (g.dfa d).transitions p pl p1 lr hlg hlnone hg with
            hpo1 | ⟨hpp1, hcase⟩
          · cases pl with
            | some x =>
              have h' : (Except.ok (some x, p1) :
                  Except PErr (Option Plan × Proxy)) = .ok (r, p') := h
              injection h' with hq
              injection hq with hq1 hq2
              refine Or.inl ?_
              rw [← hq2]
              exact hpo1
            | none =>
              refine Or.inl ?_
              exact (gpp_family_poisoned f).2.2.2 g rest K p1 r p' hpo1 h
          · rcases hcase with ⟨hnilT, hplnone⟩ | ⟨pl0, hsingT, hplsome⟩
            · subst hplnone
              have h' : try_pushes g f rest K p1 = .ok (r, p') := h
              have hlg1 : p1.release_ranges.getLast? = some lr := by
                rw [hpp1]; exact hlg
              rcases ih4 g rest K p1 r p' lr hlg1 hlnone h' with
                hpo | ⟨hpp, hr⟩
              · exact Or.inl hpo
              · refine Or.inr ⟨by rw [hpp, hpp1], ?_⟩
                rw [scanHit_cons, hnilT]
                exact hr
            · subst hplsome
              have h' : (Except.ok (some pl0, p1) :
                  Except PErr (Option Plan × Proxy)) = .ok (r, p') := h
              injection h' with hq
              injection hq with hq1 hq2
              refine Or.inr ⟨by rw [← hq2, hpp1], ?_⟩
              rw [scanHit_cons, hsingT, ← hq1]

/-! ## C1: chain, table and window helper lemmas -/

theorem getLast_getD_cons (a x : Plan) (l : List Plan) :
    (a :: l).getLast?.getD x = l.getLast?.getD a := by
  cases l with
  | nil => rfl
  | cons b m =>
    rw [List.getLast?_cons_cons]
    cases hg : (b :: m).getLast? with
    | none => simp at hg
    | some y => rfl

theorem chain_ok_nil (g : Grammar) (P : Plan) :
    chain_ok g P [] [] = true := rfl

theorem chain_ok_cons (g : Grammar) (P P' : Plan) (L : List Plan)
    (t : Token) (ts : List Token) :
    chain_ok g P (P' :: L) (t :: ts) =
      ((scanHit g P.dfa_pushes.reverse
        (token_to_transition g t.typ t.string) == some P') &&
      chain_ok g P' L ts) := rfl

theorem chain_ok_append (g : Grammar) :
    ∀ (L : List Plan) (P : Plan) (ts : List Token) (t : Token) (np : Plan),
    chain_ok g P L ts = true → L.length = ts.length →
    scanHit g ((L.getLast?.getD P).dfa_pushes.reverse)
      (token_to_transition g t.typ t.string) = some np →
    chain_ok g P (L ++ [np]) (ts ++ [t]) = true := by
  intro L
  induction L with
  | nil =>
    intro P ts t np hch hlen hscan
    cases ts with
    | nil =>
      have hscan2 : scanHit g P.dfa_pushes.reverse
          (token_to_transition g t.typ t.string) = some np := hscan
      rw [List.nil_append, List.nil_append, chain_ok_cons, hscan2]
      simp [chain_ok_nil]
    | cons u us => simp at hlen
  | cons P1 L' ih =>
    intro P ts t np hch hlen hscan
    cases ts with
    | nil => exact Bool.noConfusion (show false = true from hch)
    | cons t0 ts' =>
      rw [chain_ok_cons, Bool.and_eq_true, beq_iff_eq] at hch
      rw [List.cons_append, List.cons_append, chain_ok_cons,
        Bool.and_eq_true, beq_iff_eq]
      refine ⟨hch.1, ?_⟩
      have hlen' : L'.length = ts'.length := by
        simp at hlen; omega
      have hscan' : scanHit g ((L'.getLast?.getD P1).dfa_pushes.reverse)
          (token_to_transition g t.typ t.string) = some np := by
        rw [← getLast_getD_cons P1 P L']
        exact hscan
      exact ih P1 ts' t np hch.2 hlen' hscan'

theorem scanRanges_cons (c : Nat) (r : ReleaseRange)
    (rest : List ReleaseRange) :
    scanRanges c (r :: rest) =
      match r.stop with
      | none => Except.error PErr.assertFail
      | some stop =>
        if r.start ≤ c ∧ c < stop then
          (match r.cache[c - r.start]? with
            | some t => Except.ok (some t)
            | none => Except.error PErr.indexErr)
        else scanRanges c rest := rfl

theorem scanRanges_append (c : Nat) :
    ∀ (rs rs' : List ReleaseRange),
    scanRanges c (rs ++ rs') =
      match scanRanges c rs with
      | .ok none => scanRanges c rs'
      | .ok (some t) => .ok (some t)
      | .error e => .error e := by
  intro rs
  induction rs with
  | nil => intro rs'; rfl
  | cons r rest ih =>
    intro rs'
    rw [List.cons_append]
    cases hst : r.stop with
    | none =>
      have hl : scanRanges c (r :: (rest ++ rs')) =
          Except.error PErr.assertFail := by
        rw [scanRanges_cons, hst]
      have hr2 : scanRanges c (r :: rest) =
          Except.error PErr.assertFail := by
        rw [scanRanges_cons, hst]
      rw [hl, hr2]
    | some stop =>
      have hl : scanRanges c (r :: (rest ++ rs')) =
          if r.start ≤ c ∧ c < stop then
            (match r.cache[c - r.start]? with
              | some t => Except.ok (some t)
              | none => Except.error PErr.indexErr)
          else scanRanges c (rest ++ rs') := by
        rw [scanRanges_cons, hst]
      have hr2 : scanRanges c (r :: rest) =
          if r.start ≤ c ∧ c < stop then
            (match r.cache[c - r.start]? with
              | some t => Except.ok (some t)
              | none => Except.error PErr.indexErr)
          else scanRanges c rest := by
        rw [scanRanges_cons, hst]
      rw [hl, hr2]
      by_cases hin : r.start ≤ c ∧ c < stop
      · rw [if_pos hin, if_pos hin]
        cases hcc : r.cache[c - r.start]? with
        | some t => rfl
        | none => rfl
      · rw [if_neg hin, if_neg hin]
        exact ih rs'

theorem mkPlanTable_go (l : List Plan) :
    ∀ (acc : List (Plan × List Plan)),
    ((acc.map Prod.fst).Nodup →
      ((l.foldl (fun acc pl => if acc.any (fun e => e.1 == pl) then acc
        else acc ++ [(pl, [pl])]) acc).map Prod.fst).Nodup) ∧
    (∀ e ∈ l.foldl (fun acc pl => if acc.any (fun e => e.1 == pl) then acc
        else acc ++ [(pl, [pl])]) acc, e ∈ acc ∨ e.2 = [e.1]) ∧
    acc.length ≤ (l.foldl (fun acc pl => if acc.any (fun e => e.1 == pl)
        then acc else acc ++ [(pl, [pl])]) acc).length := by
  induction l with
  | nil => intro acc; exact ⟨fun h => h, fun e he => Or.inl he, le_refl _⟩
  | cons a l ih =>
    intro acc
    rw [List.foldl_cons]
    by_cases ha : acc.any (fun e => e.1 == a) = true
    · rw [if_pos ha]
      exact ih acc
    · rw [if_neg ha]
      obtain ⟨ih1, ih2, ih3⟩ := ih (acc ++ [(a, [a])])
      have hafalse : acc.any (fun e => e.1 == a) = false :=
        Bool.eq_false_iff.2 ha
      have hnotin : a ∉ acc.map Prod.fst := by
        intro hmem
        obtain ⟨e, he, hfst⟩ := List.mem_map.1 hmem
        rw [List.any_eq_false] at hafalse
        have := hafalse e he
        rw [hfst] at this
        simp at this
      refine ⟨?_, ?_, ?_⟩
      · intro hnd
        apply ih1
        rw [List.map_append]
        rw [show (([(a, [a])] : List (Plan × List Plan)).map Prod.fst)
          = [a] from rfl]
        rw [List.nodup_append]
        refine ⟨hnd, by simp, ?_⟩
        intro x hx1 hx2
        simp at hx2
        subst hx2
        exact hnotin hx1
      · intro e he
        rcases ih2 e he with hin | hsh
        · rcases List.mem_append.1 hin with h1 | h1
          · exact Or.inl h1
          · simp at h1
            rw [h1]
            exact Or.inr rfl
        · exact Or.inr hsh
      · calc acc.length ≤ (acc ++ [(a, [a])]).length := by simp
          _ ≤ _ := ih3

theorem mkPlanTable_nodup (l : List Plan) :
    ((mkPlanTable l).map Prod.fst).Nodup :=
  (mkPlanTable_go l []).1 List.nodup_nil

theorem mkPlanTable_entries (l : List Plan) :
    ∀ e ∈ mkPlanTable l, e.2 = [e.1] := by
  intro e he
  rcases (mkPlanTable_go l []).2.1 e he with h | h
  · cases h
  · exact h

theorem mkPlanTable_ne_nil (a : Plan) (l : List Plan) :
    mkPlanTable (a :: l) ≠ [] := by
  have heq : mkPlanTable (a :: l) =
      l.foldl (fun acc pl => if acc.any (fun e => e.1 == pl) then acc
        else acc ++ [(pl, [pl])]) [(a, [a])] := rfl
  have h3 := (mkPlanTable_go l [(a, [a])]).2.2
  rw [heq]
  intro hnil
  rw [hnil] at h3
  simp at h3

theorem superior_by_count {table : List (Plan × List Plan)} {v : Nat}
    (hbound : ∀ e ∈ table, e.2.length ≤ v)
    (hatt : ∃ e ∈ table, e.2.length = v) :
    ∃ w b, (w, b) ∈ table ∧ b.length = v ∧
      superior_plan table true = some w ∧
      ((table.map (fun e => e.2.length)).count v ≠ 1 →
        superior_plan table false = none) := by
  obtain ⟨ea, hea, heav⟩ := hatt
  cases htab : table with
  | nil => rw [htab] at hea; cases hea
  | cons e0 rest0 =>
    subst htab
    obtain ⟨s1, s2, s3⟩ := maxFirstGo_spec
      (rest0.map (fun ob => (ob.1, ob.2.length))) (e0.1, e0.2.length)
    set r := maxFirstGo (e0.1, e0.2.length)
      (rest0.map (fun ob => (ob.1, ob.2.length))) with hr
    have hP : (e0 :: rest0).map (fun ob => (ob.1, ob.2.length)) =
        (e0.1, e0.2.length) :: rest0.map (fun ob => (ob.1, ob.2.length)) :=
      List.map_cons _ _ _
    have hrmem : r ∈ (e0 :: rest0).map (fun ob => (ob.1, ob.2.length)) := by
      rw [hP]
      rcases s1 with h | h
      · rw [h]; exact List.mem_cons_self _ _
      · exact List.mem_cons_of_mem _ h
    have hbound' : ∀ x ∈ (e0 :: rest0).map (fun ob => (ob.1, ob.2.length)),
        x.2 ≤ r.2 := by
      intro x hx
      rw [hP] at hx
      rcases List.mem_cons.1 hx with hx | hx
      · rw [hx]; exact s2
      · exact s3 x hx
    have hvle : v ≤ r.2 := by
      have hm : (ea.1, ea.2.length) ∈ (e0 :: rest0).map
          (fun ob => (ob.1, ob.2.length)) := List.mem_map.2 ⟨ea, hea, rfl⟩
      have := hbound' _ hm
      rw [heav] at this
      exact this
    have hrle : r.2 ≤ v := by
      obtain ⟨e, he, hre⟩ := List.mem_map.1 hrmem
      rw [← hre]
      exact hbound e he
    have hrv : r.2 = v := le_antisymm hrle hvle
    obtain ⟨ew, hew, hrew⟩ := List.mem_map.1 hrmem
    have hmf : maxFirst ((e0 :: rest0).map (fun ob => (ob.1, ob.2.length)))
        = some r := by
      rw [hP, maxFirst, ← hr]
    have hwlen : ew.2.length = v := by
      have : (ew.1, ew.2.length).2 = r.2 := by rw [hrew]
      rw [← hrv]
      exact this
    have hwfst : r.1 = ew.1 := by
      rw [← hrew]
    refine ⟨ew.1, ew.2, ?_, hwlen, ?_, ?_⟩
    · exact hew
    · rw [superior_plan_eq, hmf]
      have hcond : (((e0 :: rest0).map
          (fun ob => (ob.1, ob.2.length))).map Prod.snd).count r.2 = 1
          ∨ (true = true) := Or.inr rfl
      show (if (((e0 :: rest0).map
          (fun ob => (ob.1, ob.2.length))).map Prod.snd).count r.2 = 1
          ∨ (true = true) then some r.1 else none) = some ew.1
      rw [if_pos hcond, hwfst]
    · intro hcnt
      rw [superior_plan_eq, hmf]
      have hcond : ¬ ((((e0 :: rest0).map
          (fun ob => (ob.1, ob.2.length))).map Prod.snd).count r.2 = 1
          ∨ (false = true)) := by
        rw [possibilities_snd, hrv]
        intro hor
        rcases hor with hor | hor
        · exact hcnt hor
        · cases hor
      show (if (((e0 :: rest0).map
          (fun ob => (ob.1, ob.2.length))).map Prod.snd).count r.2 = 1
          ∨ (false = true) then some r.1 else none) = none
      rw [if_neg hcond]

theorem contains_iff_mem (l : List Plan) (x : Plan) :
    l.contains x = true ↔ x ∈ l := List.elem_iff

theorem lastCache_window {q : Proxy} {closed : List ReleaseRange}
    (hgo : goodOpen q closed = true) :
    q.lastCache = (q.src.drop q.counter).take (q.srcPos - q.counter) ∧
    q.lastCache.length = q.srcPos - q.counter := by
  obtain ⟨h1, h2, h3, h4, h5, h6⟩ := goodOpen_parts hgo
  have hg : q.release_ranges.getLast? = some ⟨q.counter, none,
      (q.src.drop q.counter).take (q.srcPos - q.counter)⟩ := by
    rw [h1, List.getLast?_concat]
  have hc : q.lastCache = (q.src.drop q.counter).take
      (q.srcPos - q.counter) := by
    rw [Proxy.lastCache, hg]
    rfl
  refine ⟨hc, ?_⟩
  rw [hc, List.length_take, List.length_drop]
  omega

theorem eat_window_none {q : Proxy} {closed : List ReleaseRange} {n : Nat}
    (hgo : goodOpen q closed = true) (hsp : q.srcPos = q.counter + n)
    (hx : q.src[q.counter + n]? = none) :
    q.eat n = (none, q) := by
  obtain ⟨hc, hlen⟩ := lastCache_window hgo
  have hlen' : q.lastCache.length = n := by omega
  rw [Proxy.eat, hlen']
  rw [if_neg (by omega)]
  rw [show n + 1 - n = 1 from by omega]
  have hpull : q.pullN 1 = (q, false) := by
    rw [Proxy.pullN, Proxy.rawNext, hsp, hx]
  rw [hpull]

theorem eat_window_some {q : Proxy} {closed : List ReleaseRange} {n : Nat}
    {t : Token} (hgo : goodOpen q closed = true)
    (hsp : q.srcPos = q.counter + n)
    (hx : q.src[q.counter + n]? = some t) :
    ∃ q2, q.eat n = (some t, q2) ∧ goodOpen q2 closed = true ∧
      q2.srcPos = q.counter + n + 1 ∧ q2.counter = q.counter ∧
      q2.src = q.src ∧ q2.release_ranges.getLast? =
        some ⟨q.counter, none, (q.src.drop q.counter).take (n + 1)⟩ := by
  obtain ⟨hc, hlen⟩ := lastCache_window hgo
  obtain ⟨h1, h2, h3, h4, h5, h6⟩ := goodOpen_parts hgo
  have hlen' : q.lastCache.length = n := by omega
  have hpull : q.pullN 1 =
      ((({ q with srcPos := q.srcPos + 1 } : Proxy)).modifyLast
        (fun r => { r with cache := r.cache ++ [t] }), true) := by
    rw [Proxy.pullN, Proxy.rawNext, hsp, hx]
    rfl
  set q2 := (({ q with srcPos := q.srcPos + 1 } : Proxy)).modifyLast
    (fun r => { r with cache := r.cache ++ [t] }) with hq2
  obtain ⟨j1, j2, j3⟩ := pullN_goodOpen hgo 1
  rw [hpull] at j1 j2 j3
  have hranges2 : q2.release_ranges = closed ++ [⟨q.counter, none,
      ((q.src.drop q.counter).take (q.srcPos - q.counter)) ++ [t]⟩] := by
    rw [hq2]
    show (match (q.release_ranges).getLast? with
      | some r => q.release_ranges.dropLast ++
          [{ r with cache := r.cache ++ [t] }]
      | none => q.release_ranges) = _
    rw [h1, List.getLast?_concat, List.dropLast_concat]
  have hsp2 : q2.srcPos = q.srcPos + 1 := rfl
  have hcache2 : ((q.src.drop q.counter).take (q.srcPos - q.counter)) ++ [t]
      = (q.src.drop q.counter).take (n + 1) := by
    have hdg : (q.src.drop q.counter)[n]? = some t := by
      rw [List.getElem?_drop]
      exact hx
    rw [hsp, show q.counter + n - q.counter = n from by omega,
      List.take_succ, hdg]
    rfl
  have hlast2 : q2.release_ranges.getLast? =
      some ⟨q.counter, none, (q.src.drop q.counter).take (n + 1)⟩ := by
    rw [hranges2, List.getLast?_concat, hcache2]
  have hcache2len : q2.lastCache = (q.src.drop q.counter).take (n + 1) := by
    rw [Proxy.lastCache, hlast2]
    rfl
  have hlt : q.counter + n < q.src.length := by
    by_contra hge
    rw [List.getElem?_eq_none_iff.2 (by omega)] at hx
    cases hx
  have hcl2 : q2.lastCache.length = n + 1 := by
    rw [hcache2len, List.length_take, List.length_drop]
    omega
  refine ⟨q2, ?_, j1, by rw [hsp2, hsp], j2, j3, hlast2⟩
  rw [Proxy.eat, hlen']
  rw [if_neg (by omega)]
  rw [show n + 1 - n = 1 from by omega]
  rw [hpull]
  show (q2.lastCache[n]?, q2) = (some t, q2)
  rw [hcache2len]
  have : ((q.src.drop q.counter).take (n + 1))[n]? = some t := by
    rw [List.getElem?_take_of_lt (by omega), List.getElem?_drop]
    exact hx
  rw [this]

theorem extend_round (g : Grammar) (t : Token) (K : List TransitionKey)
    (hK : K = token_to_transition g t.typ t.string) (n : Nat)
    (ts : List Token) (hts : ts.length = n) :
    ∀ (entries : List (Plan × List Plan)) (dead : List Plan),
    ((entries.map Prod.fst).Nodup) →
    (∀ e ∈ entries, ∃ b', e.2 = e.1 :: b' ∧ b'.length ≤ n ∧
      chain_ok g e.1 b' (ts.take b'.length) = true ∧
      (e.1 ∉ dead ↔ b'.length = n)) →
    ((extend_pure g dead entries K).2.map Prod.fst = entries.map Prod.fst) ∧
    (∀ x ∈ dead, x ∈ (extend_pure g dead entries K).1) ∧
    (∀ x ∈ (extend_pure g dead entries K).1,
      x ∈ dead ∨ x ∈ entries.map Prod.fst) ∧
    (∀ e ∈ (extend_pure g dead entries K).2, ∃ b',
      e.2 = e.1 :: b' ∧ b'.length ≤ n + 1 ∧
      chain_ok g e.1 b' ((ts ++ [t]).take b'.length) = true ∧
      (e.1 ∉ (extend_pure g dead entries K).1 ↔ b'.length = n + 1)) ∧
    ((extend_pure g dead entries K).2 = entries ∨
      ∃ e ∈ (extend_pure g dead entries K).2, e.2.length = n + 2) := by
  intro entries
  induction entries with
  | nil =>
    intro dead hnodup hent
    refine ⟨rfl, fun x hx => hx, fun x hx => Or.inl hx, ?_, Or.inl rfl⟩
    intro e he
    cases he
  | cons a rest ih =>
    intro dead hnodup hent
    rcases a with ⟨o, b⟩
    have hkeys : (rest.map Prod.fst).Nodup ∧ o ∉ rest.map Prod.fst := by
      rw [List.map_cons, List.nodup_cons] at hnodup
      exact ⟨hnodup.2, hnodup.1⟩
    obtain ⟨bh', hbh, hbhle, hbhch, hbhiff⟩ := hent (o, b)
      (List.mem_cons_self _ _)
    have hbh2 : b = o :: bh' := hbh
    rw [extend_pure_cons]
    by_cases hd : o ∈ dead
    · rw [if_pos ((contains_iff_mem _ _).2 hd)]
      obtain ⟨c1, c2, c3, c4, c5⟩ := ih dead hkeys.1
        (fun e he => hent e (List.mem_cons_of_mem _ he))
      refine ⟨?_, c2, ?_, ?_, ?_⟩
      · rw [List.map_cons, c1, List.map_cons]
      · intro x hx
        rcases c3 x hx with h | h
        · exact Or.inl h
        · exact Or.inr (by rw [List.map_cons]; exact List.mem_cons_of_mem _ h)
      · intro e he
        rcases List.mem_cons.1 he with he | he
        · subst he
          refine ⟨bh', hbh, by omega, ?_, ?_⟩
          · rw [List.take_append_of_le_length (by omega)]
            exact hbhch
          · constructor
            · intro hne
              exact absurd (c2 o hd) hne
            · intro heq
              exact absurd heq (by omega)
        · exact c4 e he
      · rcases c5 with h | h
        · exact Or.inl (by rw [h])
        · obtain ⟨e, he, hlen⟩ := h
          exact Or.inr ⟨e, List.mem_cons_of_mem _ he, hlen⟩
    · rw [if_neg (fun hc => hd ((contains_iff_mem _ _).1 hc))]
      have halive : bh'.length = n := hbhiff.1 hd
      cases hsc : scanHit g ((b.getLast?.getD o).dfa_pushes.reverse) K with
      | none =>
        have hent' : ∀ e ∈ rest, ∃ b', e.2 = e.1 :: b' ∧ b'.length ≤ n ∧
            chain_ok g e.1 b' (ts.take b'.length) = true ∧
            (e.1 ∉ dead ++ [o] ↔ b'.length = n) := by
          intro e he
          obtain ⟨b', h1, h2, h3, h4⟩ := hent e (List.mem_cons_of_mem _ he)
          have hne : e.1 ≠ o := by
            intro heq
            exact hkeys.2 (heq ▸ List.mem_map.2 ⟨e, he, rfl⟩)
          refine ⟨b', h1, h2, h3, ?_⟩
          constructor
          · intro hnin
            exact h4.1 (fun hin => hnin (List.mem_append.2 (Or.inl hin)))
          · intro hlen hin
            rcases List.mem_append.1 hin with hin | hin
            · exact (h4.2 hlen) hin
            · simp at hin
              exact hne hin
        obtain ⟨c1, c2, c3, c4, c5⟩ := ih (dead ++ [o]) hkeys.1 hent'
        refine ⟨?_, ?_, ?_, ?_, ?_⟩
        · rw [List.map_cons, c1, List.map_cons]
        · intro x hx
          exact c2 x (List.mem_append.2 (Or.inl hx))
        · intro x hx
          rcases c3 x hx with h | h
          · rcases List.mem_append.1 h with h1 | h1
            · exact Or.inl h1
            · simp at h1
              subst h1
              exact Or.inr (by rw [List.map_cons]; exact List.mem_cons_self _ _)
          · exact Or.inr (by rw [List.map_cons]; exact List.mem_cons_of_mem _ h)
        · intro e he
          rcases List.mem_cons.1 he with he | he
          · subst he
            refine ⟨bh', hbh, by omega, ?_, ?_⟩
            · rw [List.take_append_of_le_length (by omega)]
              exact hbhch
            · constructor
              · intro hne
                exact absurd (c2 o (List.mem_append.2 (Or.inr (by simp)))) hne
              · intro heq
                exact absurd heq (by omega)
          · exact c4 e he
        · rcases c5 with h | h
          · exact Or.inl (by rw [h])
          · obtain ⟨e, he, hlen⟩ := h
            exact Or.inr ⟨e, List.mem_cons_of_mem _ he, hlen⟩
      | some np =>
        obtain ⟨c1, c2, c3, c4, c5⟩ := ih dead hkeys.1
          (fun e he => hent e (List.mem_cons_of_mem _ he))
        have hchainext : chain_ok g o (bh' ++ [np]) (ts ++ [t]) = true := by
          refine chain_ok_append g bh' o ts t np ?_ (by omega) ?_
          · have hfull : ts.take bh'.length = ts := by
              rw [halive, ← hts, List.take_length]
            rw [hfull] at hbhch
            exact hbhch
          · rw [← hK]
            rw [hbh2] at hsc
            rw [← getLast_getD_cons o o bh']
            exact hsc
        refine ⟨?_, c2, ?_, ?_, ?_⟩
        · rw [List.map_cons, c1, List.map_cons]
        · intro x hx
          rcases c3 x hx with h | h
          · exact Or.inl h
          · exact Or.inr (by rw [List.map_cons]; exact List.mem_cons_of_mem _ h)
        · intro e he
          rcases List.mem_cons.1 he with he | he
          · subst he
            refine ⟨bh' ++ [np],
              by show b ++ [np] = o :: (bh' ++ [np]); rw [hbh2, List.cons_append],
              by simp; omega, ?_, ?_⟩
            · have hl : (bh' ++ [np]).length = n + 1 := by simp; omega
              rw [hl]
              have hfull : (ts ++ [t]).take (n + 1) = ts ++ [t] := by
                have hlen2 : (ts ++ [t]).length = n + 1 := by simp; omega
                rw [← hlen2, List.take_length]
              rw [hfull]
              exact hchainext
            · constructor
              · intro _
                simp
                omega
              · intro _ hin
                rcases c3 o hin with h | h
                · exact hd h
                · exact hkeys.2 h
          · exact c4 e he
        · refine Or.inr ⟨(o, b ++ [np]), List.mem_cons_self _ _, ?_⟩
          show (b ++ [np]).length = n + 2
          rw [hbh2]
          simp
          omega

theorem superior_true_some (table : List (Plan × List Plan))
    (hne : table ≠ []) : ∃ w, superior_plan table true = some w := by
  cases table with
  | nil => exact absurd rfl hne
  | cons e0 rest0 =>
    rw [superior_plan_eq, List.map_cons, maxFirst]
    refine ⟨(maxFirstGo (e0.1, e0.2.length)
      (rest0.map (fun ob => (ob.1, ob.2.length)))).1, ?_⟩
    have hcond : ((((e0.1, e0.2.length) :: rest0.map
        (fun ob => (ob.1, ob.2.length))).map Prod.snd).count
        (maxFirstGo (e0.1, e0.2.length)
          (rest0.map (fun ob => (ob.1, ob.2.length)))).2 = 1
        ∨ (true = true)) := Or.inr rfl
    show (if (((e0.1, e0.2.length) :: rest0.map
        (fun ob => (ob.1, ob.2.length))).map Prod.snd).count
        (maxFirstGo (e0.1, e0.2.length)
          (rest0.map (fun ob => (ob.1, ob.2.length)))).2 = 1
        ∨ (true = true) then
      some (maxFirstGo (e0.1, e0.2.length)
        (rest0.map (fun ob => (ob.1, ob.2.length)))).1 else none) = _
    rw [if_pos hcond]

theorem window_take_succ {src : List Token} {c n : Nat} {t : Token}
    (hx : src[c + n]? = some t) :
    (src.drop c).take (n + 1) = (src.drop c).take n ++ [t] := by
  have hdg : (src.drop c)[n]? = some t := by
    rw [List.getElem?_drop]
    exact hx
  rw [List.take_succ, hdg]
  rfl

theorem window_length {src : List Token} {c n : Nat}
    (h : c + n ≤ src.length) : ((src.drop c).take n).length = n := by
  rw [List.length_take, List.length_drop]
  omega

theorem lookahead_post (g : Grammar) :
    ∀ (fuel : Nat) (dead : List Plan) (table : List (Plan × List Plan))
      (n : Nat) (q : Proxy) (closed : List ReleaseRange) (r : Option Plan)
      (q' : Proxy),
    goodOpen q closed = true →
    q.srcPos = q.counter + n →
    (table.map Prod.fst).Nodup →
    table ≠ [] →
    (∀ e ∈ table, ∃ b', e.2 = e.1 :: b' ∧ b'.length ≤ n ∧
      chain_ok g e.1 b' (((q.src.drop q.counter).take n).take b'.length)
        = true ∧ (e.1 ∉ dead ↔ b'.length = n)) →
    (1 ≤ (table.map (fun e => e.2.length)).count (n + 1) ∨
      superior_plan table false = none) →
    lookahead_loop g fuel dead table n q = .ok (r, q') →
    poisoned q'.release_ranges = true ∨
    ∃ (m : Nat) (W : Plan), n ≤ m ∧ r = some W ∧
      goodOpen q' closed = true ∧ q'.srcPos = q.counter + m ∧
      q'.counter = q.counter ∧ q'.src = q.src ∧
      ((∃ L, L.length = m ∧
        chain_ok g W L ((q.src.drop q.counter).take m) = true) ∨
        q.counter + m = q.src.length) := by
  intro fuel
  induction fuel with
  | zero =>
    intro dead table n q closed r q' _ _ _ _ _ _ h
    cases h
  | succ f ih =>
    intro dead table n q closed r q' hgo hsp hnodup hne hent hsup h
    rw [lookahead_loop_succ] at h
    by_cases hs : (superior_plan table false).isSome = true
    · -- resolution at the top of the loop
      rw [if_pos hs] at h
      have h' : (Except.ok (superior_plan table true, q) :
          Except PErr (Option Plan × Proxy)) = .ok (r, q') := h
      injection h' with hq
      injection hq with hq1 hq2
      rcases hsup with hcount | hnone
      · have hbound : ∀ e ∈ table, e.2.length ≤ n + 1 := by
          intro e he
          obtain ⟨b', hb, hble, _, _⟩ := hent e he
          rw [hb]
          simp
          omega
        have hatt : ∃ e ∈ table, e.2.length = n + 1 := by
          have hpos : 0 < (table.map (fun e => e.2.length)).count (n + 1) :=
            by omega
          have hmem := List.count_pos_iff.1 hpos
          obtain ⟨e, he, hlen⟩ := List.mem_map.1 hmem
          exact ⟨e, he, hlen⟩
        obtain ⟨w, bw, hwmem, hwlen, hsuptrue, _⟩ :=
          superior_by_count hbound hatt
        obtain ⟨b', hb, hble, hch, _⟩ := hent (w, bw) hwmem
        have hb2 : bw = w :: b' := hb
        have hblen : b'.length = n := by
          rw [hb2] at hwlen
          simp at hwlen
          omega
        refine Or.inr ⟨n, w, le_refl n, ?_, ?_, ?_, ?_, ?_, ?_⟩
        · rw [← hq1, hsuptrue]
        · rw [← hq2]; exact hgo
        · rw [← hq2]; exact hsp
        · rw [← hq2]
        · rw [← hq2]
        · refine Or.inl ⟨b', hblen, ?_⟩
          have hch2 : chain_ok g w b'
              (((q.src.drop q.counter).take n).take b'.length) = true := hch
          rw [hblen, List.take_take, Nat.min_self] at hch2
          exact hch2
      · rw [hnone] at hs
        cases hs
    · -- the loop body runs
      rw [if_neg hs] at h
      have hnone : superior_plan table false = none :=
        Option.not_isSome_iff_eq_none.1 hs
      cases hx : q.src[q.counter + n]? with
      | none =>
        have heat := eat_window_none hgo hsp hx
        rw [heat] at h
        have h' : (Except.ok (superior_plan table true, q) :
            Except PErr (Option Plan × Proxy)) = .ok (r, q') := h
        injection h' with hq
        injection hq with hq1 hq2
        obtain ⟨w, hw⟩ := superior_true_some table hne
        obtain ⟨g1, g2, g3, g4, g5, g6⟩ := goodOpen_parts hgo
        have hlen : q.src.length ≤ q.counter + n := by
          by_contra hlt
          rw [List.getElem?_eq_getElem (by omega)] at hx
          cases hx
        refine Or.inr ⟨n, w, le_refl n, ?_, ?_, ?_, ?_, ?_, Or.inr ?_⟩
        · rw [← hq1, hw]
        · rw [← hq2]; exact hgo
        · rw [← hq2]; exact hsp
        · rw [← hq2]
        · rw [← hq2]
        · omega
      | some t =>
        obtain ⟨q2, heat, hgo2, hsp2, hcnt2, hsrc2, hlast2⟩ :=
          eat_window_some hgo hsp hx
        rw [heat] at h
        have h' : (match extend_table g f dead table
            (token_to_transition g t.typ t.string) q2 with
          | Except.error e =>
              (Except.error e : Except PErr (Option Plan × Proxy))
          | Except.ok (dead', table', p'') =>
              lookahead_loop g f dead' table' (n + 1) p'') = .ok (r, q') := h
        cases hex : extend_table g f dead table
            (token_to_transition g t.typ t.string) q2 with
        | error e => rw [hex] at h'; cases h'
        | ok res =>
          rcases res with ⟨d2, t2, p2⟩
          rw [hex] at h'
          rcases (gpp_family_pure f).2.1 g dead table
              (token_to_transition g t.typ t.string) q2 d2 t2 p2
              ⟨q.counter, none, (q.src.drop q.counter).take (n + 1)⟩
              hlast2 rfl hex with hpo | ⟨hpp, hpure⟩
          · refine Or.inl ?_
            exact (gpp_family_poisoned f).2.1 g d2 t2 (n + 1) p2 r q' hpo h'
          · have h'' : lookahead_loop g f d2 t2 (n + 1) q2 =
                .ok (r, q') := by
              rw [← hpp]
              exact h'
            have hd2 : d2 = (extend_pure g dead table
                (token_to_transition g t.typ t.string)).1 := by
              rw [← hpure]
            have ht2 : t2 = (extend_pure g dead table
                (token_to_transition g t.typ t.string)).2 := by
              rw [← hpure]
            have hwinlen : ((q.src.drop q.counter).take n).length = n := by
              apply window_length
              rw [← hsp]
              exact (goodOpen_parts hgo).2.2.2.2.2
            obtain ⟨c1, c2, c3, c4, c5⟩ := extend_round g t
              (token_to_transition g t.typ t.string) rfl n
              ((q.src.drop q.counter).take n) hwinlen table dead hnodup hent
            have hwin : (q.src.drop q.counter).take (n + 1) =
                (q.src.drop q.counter).take n ++ [t] := window_take_succ hx
            -- invariants at the next round
            have hnodup2 : (t2.map Prod.fst).Nodup := by
              rw [ht2, c1]
              exact hnodup
            have hne2 : t2 ≠ [] := by
              rw [ht2]
              intro hnil
              have := c1
              rw [hnil] at this
              cases table with
              | nil => exact hne rfl
              | cons a l => rw [List.map_cons] at this; cases this
            have hent2 : ∀ e ∈ t2, ∃ b', e.2 = e.1 :: b' ∧
                b'.length ≤ n + 1 ∧
                chain_ok g e.1 b'
                  (((q2.src.drop q2.counter).take (n + 1)).take b'.length)
                  = true ∧
                (e.1 ∉ d2 ↔ b'.length = n + 1) := by
              intro e he
              rw [ht2] at he
              obtain ⟨b', hb, hble, hch, hiff⟩ := c4 e he
              refine ⟨b', hb, hble, ?_, ?_⟩
              · rw [hsrc2, hcnt2, hwin]
                exact hch
              · rw [hd2]
                exact hiff
            have hsup2 : 1 ≤ (t2.map (fun e => e.2.length)).count (n + 2)
                ∨ superior_plan t2 false = none := by
              by_cases hc1 : 1 ≤ (t2.map (fun e => e.2.length)).count (n + 2)
              · exact Or.inl hc1
              · refine Or.inr ?_
                rcases c5 with hsame | ⟨e, he, hlen⟩
                · rw [ht2, hsame]
                  exact hnone
                · exfalso
                  apply hc1
                  have hmem : (n + 2) ∈ t2.map (fun e => e.2.length) := by
                    rw [ht2]
                    exact List.mem_map.2 ⟨e, he, hlen⟩
                  have := List.count_pos_iff.2 hmem
                  omega
            have hsp2' : q2.srcPos = q2.counter + (n + 1) := by
              rw [hcnt2, hsp2]
              omega
            rcases ih d2 t2 (n + 1) q2 closed r q' hgo2 hsp2' hnodup2 hne2
                hent2 hsup2 h'' with hpo | ⟨m, W, hm, hr, hgo', hsp', hcnt',
                  hsrc', hdisj⟩
            · exact Or.inl hpo
            · refine Or.inr ⟨m, W, by omega, hr, hgo', ?_, ?_, ?_, ?_⟩
              · rw [hsp', hcnt2]
              · rw [hcnt', hcnt2]
              · rw [hsrc', hsrc2]
              · rcases hdisj with ⟨L, hL, hch⟩ | hexh
                · refine Or.inl ⟨L, hL, ?_⟩
                  rw [hsrc2, hcnt2] at hch
                  exact hch
                · refine Or.inr ?_
                  rw [hcnt2, hsrc2] at hexh
                  exact hexh

theorem releaseOpen_counter (p : Proxy) :
    p.releaseOpen.counter = p.counter := rfl

theorem releaseOpen_srcPos (p : Proxy) :
    p.releaseOpen.srcPos = p.srcPos := rfl

theorem releaseOpen_src (p : Proxy) : p.releaseOpen.src = p.src := rfl

theorem releaseClose_srcPos (p : Proxy) :
    p.releaseClose.srcPos = p.srcPos := rfl

theorem releaseClose_lastStop {p : Proxy} {closed : List ReleaseRange}
    (h : goodOpen p closed = true) :
    lastStop p.releaseClose.release_ranges =
      p.counter + (p.srcPos - p.counter) := by
  obtain ⟨h1, h2, h3, h4, h5, h6⟩ := goodOpen_parts h
  have hq : p.releaseClose.release_ranges = closed ++
      [⟨p.counter, some (p.counter + (p.srcPos - p.counter)),
        ((p.src.drop p.counter).take (p.srcPos - p.counter))⟩] := by
    show (match p.release_ranges.getLast? with
      | some r => p.release_ranges.dropLast ++
          [{ r with stop := some (p.counter + r.cache.length) }]
      | none => p.release_ranges) = _
    rw [h1, List.getLast?_concat, List.dropLast_concat]
    have hclen : ((p.src.drop p.counter).take
        (p.srcPos - p.counter)).length = p.srcPos - p.counter := by
      rw [List.length_take, List.length_drop]
      omega
    show closed ++ [⟨p.counter, some (p.counter +
      ((p.src.drop p.counter).take (p.srcPos - p.counter)).length),
      (p.src.drop p.counter).take (p.srcPos - p.counter)⟩] = _
    rw [hclen]
  rw [hq, lastStop_concat]
  rfl

theorem open_close_empty_ranges (p : Proxy) :
    p.releaseOpen.releaseClose.release_ranges =
      p.release_ranges ++ [⟨p.counter, some p.counter, []⟩] := by
  show (match p.releaseOpen.release_ranges.getLast? with
    | some r => p.releaseOpen.release_ranges.dropLast ++
        [{ r with stop := some (p.releaseOpen.counter + r.cache.length) }]
    | none => p.releaseOpen.release_ranges) = _
  rw [releaseOpen_ranges, List.getLast?_concat, List.dropLast_concat]
  rfl

theorem gpp_window (g : Grammar) (fuel : Nat) (K : List TransitionKey)
    (T : List (TransitionKey × Plan)) (p : Proxy) (r : Option Plan)
    (p' : Proxy) (hg : good p = true) (hf : atFresh p = true)
    (h : get_possible_plan g fuel K T p = .ok (r, p')) :
    poisoned p'.release_ranges = true ∨
    (p' = p ∧ ((plansOf K T = [] ∧ r = none) ∨
      ∃ pl, plansOf K T = [pl] ∧ r = some pl)) ∨
    (∃ (m : Nat) (W : Plan), r = some W ∧ good p' = true ∧
      p'.counter = p.counter ∧ p'.src = p.src ∧
      lastStop p'.release_ranges = p.counter + m ∧
      p.counter + m ≤ p.src.length ∧
      ((∃ L, L.length = m ∧
        chain_ok g W L ((p.src.drop p.counter).take m) = true) ∨
        p.counter + m = p.src.length)) := by
  cases fuel with
  | zero => cases h
  | succ f =>
    cases hpl : plansOf K T with
    | nil =>
      rw [gpp_eq_nil g f K T p hpl] at h
      injection h with hq
      injection hq with hq1 hq2
      exact Or.inr (Or.inl ⟨hq2.symm, Or.inl ⟨rfl, hq1.symm⟩⟩)
    | cons a l =>
      cases l with
      | nil =>
        rw [gpp_eq_single g f K T p a hpl] at h
        injection h with hq
        injection hq with hq1 hq2
        exact Or.inr (Or.inl ⟨hq2.symm, Or.inr ⟨a, rfl, hq1.symm⟩⟩)
      | cons b mm =>
        rw [gpp_eq_multi g f K T p a b mm hpl] at h
        have hgo0 : goodOpen p.releaseOpen p.release_ranges = true :=
          releaseOpen_goodOpen hg hf
        obtain ⟨g1, g2, g3, g4⟩ := good_parts hg
        have hfr : lastStop p.release_ranges ≤ p.counter := by
          simp only [atFresh, decide_eq_true_eq] at hf
          exact hf
        have hsp0 : p.releaseOpen.srcPos = p.releaseOpen.counter + 0 := by
          rw [releaseOpen_srcPos, releaseOpen_counter]
          omega
        have hnodup0 := mkPlanTable_nodup (a :: b :: mm)
        have hne0 := mkPlanTable_ne_nil a (b :: mm)
        have hent0 : ∀ e ∈ mkPlanTable (a :: b :: mm), ∃ b',
            e.2 = e.1 :: b' ∧ b'.length ≤ 0 ∧
            chain_ok g e.1 b'
              (((p.releaseOpen.src.drop p.releaseOpen.counter).take 0).take
                b'.length) = true ∧
            (e.1 ∉ ([] : List Plan) ↔ b'.length = 0) := by
          intro e he
          refine ⟨[], ?_, le_refl 0, rfl, ?_⟩
          · rw [mkPlanTable_entries _ e he]
          · exact ⟨fun _ => rfl, fun _ => List.not_mem_nil e.1⟩
        have hsup0 : 1 ≤ ((mkPlanTable (a :: b :: mm)).map
            (fun e => e.2.length)).count (0 + 1) ∨
            superior_plan (mkPlanTable (a :: b :: mm)) false = none := by
          refine Or.inl ?_
          cases heq : mkPlanTable (a :: b :: mm) with
          | nil => exact absurd heq hne0
          | cons e0 rest0 =>
            have he0 : e0.2 = [e0.1] := by
              apply mkPlanTable_entries (a :: b :: mm)
              rw [heq]
              exact List.mem_cons_self _ _
            have hmem : (0 + 1) ∈ (e0 :: rest0).map
                (fun e => e.2.length) := by
              rw [List.map_cons]
              refine List.mem_cons.2 (Or.inl ?_)
              rw [he0]
              rfl
            have := List.count_pos_iff.2 hmem
            omega
        cases hll : lookahead_loop g f [] (mkPlanTable (a :: b :: mm)) 0
            p.releaseOpen with
        | error e => rw [hll] at h; cases h
        | ok res =>
          rcases res with ⟨r0, q2⟩
          rw [hll] at h
          have h' : (Except.ok (r0, q2.releaseClose) :
              Except PErr (Option Plan × Proxy)) = .ok (r, p') := h
          injection h' with hq
          injection hq with hq1 hq2
          rcases lookahead_post g f [] (mkPlanTable (a :: b :: mm)) 0
              p.releaseOpen p.release_ranges r0 q2 hgo0 hsp0 hnodup0 hne0
              hent0 hsup0 hll with hpo | ⟨m, W, _, hr0, hgo', hsp', hcnt',
                hsrc', hdisj⟩
          · refine Or.inl ?_
            rw [← hq2, releaseClose_poisoned]
            exact hpo
          · obtain ⟨k1, k2, k3⟩ := releaseClose_good hgo'
            have hstop := releaseClose_lastStop hgo'
            have e3 : q2.srcPos = p.counter + m := hsp'
            have e4 : q2.counter = p.counter := hcnt'
            have e5 : q2.src = p.src := hsrc'
            refine Or.inr (Or.inr ⟨m, W, ?_, ?_, ?_, ?_, ?_, ?_, ?_⟩)
            · rw [← hq1, hr0]
            · rw [← hq2]; exact k1
            · rw [← hq2, k2]; exact e4
            · rw [← hq2, k3]; exact e5
            · rw [← hq2, hstop, e3, e4]
              omega
            · have h6 := (goodOpen_parts hgo').2.2.2.2.2
              rw [e3, e5] at h6
              exact h6
            · rcases hdisj with ⟨L, hL, hch⟩ | hexh
              · refine Or.inl ⟨L, hL, ?_⟩
                exact hch
              · refine Or.inr ?_
                exact hexh

theorem gpp_exh (g : Grammar) (fuel : Nat) (K : List TransitionKey)
    (T : List (TransitionKey × Plan)) (p : Proxy) (r : Option Plan)
    (p' : Proxy) (hsp : p.srcPos = p.src.length)
    (h : get_possible_plan g fuel K T p = .ok (r, p')) :
    p' = p ∨
    (p'.release_ranges = p.release_ranges ++
        [⟨p.counter, some p.counter, []⟩] ∧
      p'.counter = p.counter ∧ p'.src = p.src ∧ p'.srcPos = p.srcPos) := by
  cases fuel with
  | zero => cases h
  | succ f =>
    cases hpl : plansOf K T with
    | nil =>
      rw [gpp_eq_nil g f K T p hpl] at h
      injection h with hq
      injection hq with hq1 hq2
      exact Or.inl hq2.symm
    | cons a l =>
      cases l with
      | nil =>
        rw [gpp_eq_single g f K T p a hpl] at h
        injection h with hq
        injection hq with hq1 hq2
        exact Or.inl hq2.symm
      | cons b mm =>
        rw [gpp_eq_multi g f K T p a b mm hpl] at h
        cases f with
        | zero => rw [lookahead_loop] at h; cases h
        | succ f2 =>
          have hll : lookahead_loop g (f2 + 1) []
              (mkPlanTable (a :: b :: mm)) 0 p.releaseOpen =
              .ok (superior_plan (mkPlanTable (a :: b :: mm)) true,
                p.releaseOpen) := by
            rw [lookahead_loop_succ]
            by_cases hs : (superior_plan (mkPlanTable (a :: b :: mm))
                false).isSome = true
            · rw [if_pos hs]
            · rw [if_neg hs]
              have hlc : p.releaseOpen.lastCache = [] := by
                rw [Proxy.lastCache, releaseOpen_ranges,
                  List.getLast?_concat]
                rfl
              have heat0 : p.releaseOpen.eat 0 = (none, p.releaseOpen) := by
                rw [Proxy.eat, hlc]
                rw [if_neg (by simp)]
                rw [show 0 + 1 - ([] : List Token).length = 1 from rfl]
                have hpull : p.releaseOpen.pullN 1 = (p.releaseOpen, false)
                  := by
                  rw [Proxy.pullN, Proxy.rawNext, releaseOpen_srcPos,
                    releaseOpen_src, hsp,
                    List.getElem?_eq_none_iff.2 (le_refl _)]
                rw [hpull]
              rw [heat0]
          rw [hll] at h
          have h' : (Except.ok (superior_plan (mkPlanTable (a :: b :: mm))
              true, p.releaseOpen.releaseClose) :
              Except PErr (Option Plan × Proxy)) = .ok (r, p') := h
          injection h' with hq
          injection hq with hq1 hq2
          refine Or.inr ⟨?_, ?_, ?_, ?_⟩
          · rw [← hq2, open_close_empty_ranges]
          · rw [← hq2, releaseClose_counter, releaseOpen_counter]
          · rw [← hq2, releaseClose_src, releaseOpen_src]
          · rw [← hq2, releaseClose_srcPos, releaseOpen_srcPos]

theorem add_token_loop_counter_src (g : Grammar) (fuel : Nat) (er : Bool)
    (tok : Token) (ptr : List TransitionKey) :
    ∀ (bound : Nat) (stack st2 : List StackNode) (p p2 : Proxy),
    add_token_loop g fuel er tok ptr bound stack p = .ok (st2, p2) →
    p2.counter = p.counter ∧ p2.src = p.src := by
  intro bound
  induction bound with
  | zero => intro stack st2 p p2 h; cases h
  | succ lf ih =>
    intro stack st2 p p2 h
    cases stack with
    | nil => cases h
    | cons tos rest =>
      rw [add_token_loop_succ_cons] at h
      cases hg : get_possible_plan g fuel ptr (g.dfa tos.dfa).transitions p
        with
      | error e => rw [hg] at h; cases h
      | ok q =>
        rcases q with ⟨r, p'⟩
        rw [hg] at h
        obtain ⟨hc', hs'⟩ := (gpp_family_counter_src fuel).1 g ptr
          (g.dfa tos.dfa).transitions p r p' hg
        cases r with
        | some plan =>
          have h1 : (match plan.dfa_pushes.reverse.map
              (fun d => (⟨d, []⟩ : StackNode))
              ++ ({ tos with dfa := plan.next_dfa } :: rest) with
            | [] =>
              (Except.error PErr.indexErr :
                Except PErr (List StackNode × Proxy))
            | top :: rest2 =>
              Except.ok (({ top with nodes := top.nodes ++
                [convert_leaf tok.typ tok.string tok.pfx tok.start_pos] } :
                  StackNode) :: rest2, p')) = .ok (st2, p2) := h
          cases hps : plan.dfa_pushes.reverse with
          | nil =>
            rw [hps] at h1
            have h' : (Except.ok ((⟨plan.next_dfa, tos.nodes ++
                [convert_leaf tok.typ tok.string tok.pfx tok.start_pos]⟩ :
                StackNode) :: rest, p') :
                Except PErr (List StackNode × Proxy)) = .ok (st2, p2) := h1
            injection h' with hq
            injection hq with hq1 hq2
            rw [← hq2]
            exact ⟨hc', hs'⟩
          | cons d ds =>
            rw [hps] at h1
            have h' : (Except.ok ((⟨d, [] ++ [convert_leaf tok.typ
                tok.string tok.pfx tok.start_pos]⟩ : StackNode) ::
                (ds.map (fun d => (⟨d, []⟩ : StackNode)) ++
                  ({ tos with dfa := plan.next_dfa } :: rest)), p') :
                Except PErr (List StackNode × Proxy)) = .ok (st2, p2) := h1
            injection h' with hq
            injection hq with hq1 hq2
            rw [← hq2]
            exact ⟨hc', hs'⟩
        | none =>
          have h1 : (if (g.dfa tos.dfa).is_final then
              match rest with
              | [] =>
                (Except.error PErr.indexErr :
                  Except PErr (List StackNode × Proxy))
              | parent :: below =>
                  add_token_loop g fuel er tok ptr lf
                    ({ parent with nodes :=
                        parent.nodes ++ [pop_new_node g tos] } :: below) p'
            else .error (error_recovery er tok)) = .ok (st2, p2) := h
          by_cases hfin : (g.dfa tos.dfa).is_final = true
          · rw [if_pos hfin] at h1
            cases rest with
            | nil => cases h1
            | cons parent below =>
              obtain ⟨i1, i2⟩ := ih _ st2 p' p2 h1
              exact ⟨by rw [i1, hc'], by rw [i2, hs']⟩
          · rw [if_neg hfin] at h1
            cases h1

theorem map_dfa_mk (ds : List Nat) :
    ((ds.map (fun d => (⟨d, []⟩ : StackNode))).map StackNode.dfa) = ds := by
  induction ds with
  | nil => rfl
  | cons d rest ih => rw [List.map_cons, List.map_cons, ih]

theorem add_token_scan (g : Grammar) (fuel : Nat) (er : Bool)
    (tok : Token) :
    ∀ (bound : Nat) (B rest st2 : List StackNode) (P1 : Plan)
      (p p2 : Proxy),
    scanHit g (B.map StackNode.dfa)
      (token_to_transition g tok.typ tok.string) = some P1 →
    add_token_loop g fuel er tok
      (token_to_transition g tok.typ tok.string) bound (B ++ rest) p =
      .ok (st2, p2) →
    p2 = p ∧ ∃ B2 rest2, st2 = B2 ++ rest2 ∧
      B2.map StackNode.dfa = P1.dfa_pushes.reverse := by
  intro bound
  induction bound with
  | zero => intro B rest st2 P1 p p2 _ h; cases h
  | succ lf ih =>
    intro B rest st2 P1 p p2 hscan h
    cases B with
    | nil =>
      have hn : (none : Option Plan) = some P1 := hscan
      cases hn
    | cons f0 B' =>
      rw [List.cons_append, add_token_loop_succ_cons] at h
      rw [List.map_cons, scanHit_cons] at hscan
      cases fuel with
      | zero =>
        have h0 : (Except.error PErr.fuel :
            Except PErr (List StackNode × Proxy)) = .ok (st2, p2) := h
        cases h0
      | succ fl =>
        cases hcons : plansOf (token_to_transition g tok.typ tok.string)
            (g.dfa f0.dfa).transitions with
        | nil =>
          rw [hcons] at hscan
          rw [gpp_eq_nil g fl _ _ p hcons] at h
          have h1 : (if (g.dfa f0.dfa).is_final then
              match B' ++ rest with
              | [] =>
                (Except.error PErr.indexErr :
                  Except PErr (List StackNode × Proxy))
              | parent :: below =>
                  add_token_loop g (fl + 1) er tok
                    (token_to_transition g tok.typ tok.string) lf
                    ({ parent with nodes :=
                        parent.nodes ++ [pop_new_node g f0] } :: below) p
            else .error (error_recovery er tok)) = .ok (st2, p2) := h
          by_cases hfin : (g.dfa f0.dfa).is_final = true
          · rw [if_pos hfin] at h1
            cases B' with
            | nil =>
              have hn : (none : Option Plan) = some P1 := hscan
              cases hn
            | cons b1 B'' =>
              have h2 : add_token_loop g (fl + 1) er tok
                  (token_to_transition g tok.typ tok.string) lf
                  (({ b1 with nodes := b1.nodes ++ [pop_new_node g f0] } ::
                    B'') ++ rest) p = .ok (st2, p2) := h1
              have hscan2 : scanHit g
                  ((({ b1 with nodes :=
                    b1.nodes ++ [pop_new_node g f0] } :: B'') :
                      List StackNode).map StackNode.dfa)
                  (token_to_transition g tok.typ tok.string) = some P1 := by
                rw [List.map_cons]
                exact hscan
              exact ih _ rest st2 P1 p p2 hscan2 h2
          · rw [if_neg hfin] at h1
            cases h1
        | cons a l =>
          cases l with
          | nil =>
            rw [hcons] at hscan
            have ha : a = P1 := by
              have hsome : (some a : Option Plan) = some P1 := hscan
              injection hsome
            subst ha
            rw [gpp_eq_single g fl _ _ p a hcons] at h
            have h1 : (match a.dfa_pushes.reverse.map
                (fun d => (⟨d, []⟩ : StackNode))
                ++ ({ f0 with dfa := a.next_dfa } :: (B' ++ rest)) with
              | [] =>
                (Except.error PErr.indexErr :
                  Except PErr (List StackNode × Proxy))
              | top :: rest2 =>
                Except.ok (({ top with nodes := top.nodes ++
                  [convert_leaf tok.typ tok.string tok.pfx
                    tok.start_pos] } : StackNode) :: rest2, p)) =
                .ok (st2, p2) := h
            cases hps : a.dfa_pushes.reverse with
            | nil =>
              rw [hps] at h1
              have h' : (Except.ok ((⟨a.next_dfa, f0.nodes ++
                  [convert_leaf tok.typ tok.string tok.pfx
                    tok.start_pos]⟩ : StackNode) :: (B' ++ rest), p) :
                  Except PErr (List StackNode × Proxy)) = .ok (st2, p2) := h1
              injection h' with hq
              injection hq with hq1 hq2
              refine ⟨hq2.symm, [], st2, by rw [List.nil_append], ?_⟩
              rfl
            | cons d ds =>
              rw [hps] at h1
              have h' : (Except.ok ((⟨d, [] ++ [convert_leaf tok.typ
                  tok.string tok.pfx tok.start_pos]⟩ : StackNode) ::
                  (ds.map (fun d => (⟨d, []⟩ : StackNode)) ++
                    ({ f0 with dfa := a.next_dfa } :: (B' ++ rest))), p) :
                  Except PErr (List StackNode × Proxy)) = .ok (st2, p2) := h1
              injection h' with hq
              injection hq with hq1 hq2
              refine ⟨hq2.symm, (⟨d, [] ++ [convert_leaf tok.typ tok.string
                tok.pfx tok.start_pos]⟩ : StackNode) ::
                ds.map (fun d => (⟨d, []⟩ : StackNode)),
                { f0 with dfa := a.next_dfa } :: (B' ++ rest), ?_, ?_⟩
              · rw [← hq1, List.cons_append]
              · rw [List.map_cons, map_dfa_mk]
          | cons b m =>
            rw [hcons] at hscan
            have hn : (none : Option Plan) = some P1 := hscan
            cases hn

theorem phaseExh_of_window (p p' : Proxy) (m : Nat)
    (hgood' : good p' = true) (hcnt' : p'.counter = p.counter)
    (hsrc' : p'.src = p.src)
    (hstop' : lastStop p'.release_ranges = p.counter + m)
    (hexh : p.counter + m = p.src.length) : phaseExh p' := by
  obtain ⟨h1, h2, h3, h4⟩ := good_parts hgood'
  refine ⟨?_, ?_, ?_⟩
  · rw [h4, hstop', hcnt', hsrc']
    omega
  · rw [hcnt', hsrc']
    omega
  · intro c hc1 hc2
    have hscan : scanRanges c p'.release_ranges =
        .ok (if c < lastStop p'.release_ranges then p'.src[c]? else
          none) :=
      scanRanges_good h1 (fun r hr => le_trans (h2 r hr) (by omega))
    rw [hscan, hstop']
    by_cases hlt : c < p.counter + m
    · rw [if_pos hlt]
    · rw [if_neg hlt]
      have hnone : p'.src[c]? = none := by
        apply List.getElem?_eq_none_iff.2
        rw [hsrc']
        rw [hcnt'] at hc1
        omega
      rw [hnone]

theorem add_token_fresh (g : Grammar) (fuel : Nat) (er : Bool)
    (tok : Token) (ptr : List TransitionKey) :
    ∀ (bound : Nat) (stack st2 : List StackNode) (p p2 : Proxy),
    good p = true → atFresh p = true →
    add_token_loop g fuel er tok ptr bound stack p = .ok (st2, p2) →
    poisoned p2.release_ranges = true ∨ loopInv g st2 p2 := by
  intro bound
  induction bound with
  | zero => intro stack st2 p p2 _ _ h; cases h
  | succ lf ih =>
    intro stack st2 p p2 hgood hfresh h
    cases stack with
    | nil => cases h
    | cons tos rest =>
      rw [add_token_loop_succ_cons] at h
      cases hg : get_possible_plan g fuel ptr (g.dfa tos.dfa).transitions p
        with
      | error e => rw [hg] at h; cases h
      | ok q =>
        rcases q with ⟨r, p'⟩
        rw [hg] at h
        rcases gpp_window g fuel ptr (g.dfa tos.dfa).transitions p r p'
            hgood hfresh hg with hpo | ⟨hpp, _⟩ |
            ⟨m, W, hrW, hgood', hcnt', hsrc', hstop', hbound', hdisj⟩
        · -- the resolver corrupted the record
          cases r with
          | some plan =>
            have h1 : (match plan.dfa_pushes.reverse.map
                (fun d => (⟨d, []⟩ : StackNode))
                ++ ({ tos with dfa := plan.next_dfa } :: rest) with
              | [] =>
                (Except.error PErr.indexErr :
                  Except PErr (List StackNode × Proxy))
              | top :: rest2 =>
                Except.ok (({ top with nodes := top.nodes ++
                  [convert_leaf tok.typ tok.string tok.pfx tok.start_pos] } :
                    StackNode) :: rest2, p')) = .ok (st2, p2) := h
            cases hps : plan.dfa_pushes.reverse with
            | nil =>
              rw [hps] at h1
              have h' : (Except.ok ((⟨plan.next_dfa, tos.nodes ++
                  [convert_leaf tok.typ tok.string tok.pfx
                    tok.start_pos]⟩ : StackNode) :: rest, p') :
                  Except PErr (List StackNode × Proxy)) = .ok (st2, p2) := h1
              injection h' with hq
              injection hq with hq1 hq2
              rw [← hq2]
              exact Or.inl hpo
            | cons d ds =>
              rw [hps] at h1
              have h' : (Except.ok ((⟨d, [] ++ [convert_leaf tok.typ
                  tok.string tok.pfx tok.start_pos]⟩ : StackNode) ::
                  (ds.map (fun d => (⟨d, []⟩ : StackNode)) ++
                    ({ tos with dfa := plan.next_dfa } :: rest)), p') :
                  Except PErr (List StackNode × Proxy)) = .ok (st2, p2) := h1
              injection h' with hq
              injection hq with hq1 hq2
              rw [← hq2]
              exact Or.inl hpo
          | none =>
            have h1 : (if (g.dfa tos.dfa).is_final then
                match rest with
                | [] =>
                  (Except.error PErr.indexErr :
                    Except PErr (List StackNode × Proxy))
                | parent :: below =>
                    add_token_loop g fuel er tok ptr lf
                      ({ parent with nodes :=
                          parent.nodes ++ [pop_new_node g tos] } :: below)
                      p'
              else .error (error_recovery er tok)) = .ok (st2, p2) := h
            by_cases hfin : (g.dfa tos.dfa).is_final = true
            · rw [if_pos hfin] at h1
              cases rest with
              | nil => cases h1
              | cons parent below =>
                exact Or.inl (add_token_loop_poisoned g fuel er tok ptr lf
                  _ st2 p' p2 hpo h1)
            · rw [if_neg hfin] at h1
              cases h1
        · -- unambiguous consultation: the buffer is untouched
          subst hpp
          cases r with
          | some pl =>
            have h1 : (match pl.dfa_pushes.reverse.map
                (fun d => (⟨d, []⟩ : StackNode))
                ++ ({ tos with dfa := pl.next_dfa } :: rest) with
              | [] =>
                (Except.error PErr.indexErr :
                  Except PErr (List StackNode × Proxy))
              | top :: rest2 =>
                Except.ok (({ top with nodes := top.nodes ++
                  [convert_leaf tok.typ tok.string tok.pfx tok.start_pos] } :
                    StackNode) :: rest2, p')) = .ok (st2, p2) := h
            cases hps : pl.dfa_pushes.reverse with
            | nil =>
              rw [hps] at h1
              have h' : (Except.ok ((⟨pl.next_dfa, tos.nodes ++
                  [convert_leaf tok.typ tok.string tok.pfx
                    tok.start_pos]⟩ : StackNode) :: rest, p') :
                  Except PErr (List StackNode × Proxy)) = .ok (st2, p2) := h1
              injection h' with hq
              injection hq with hq1 hq2
              rw [← hq2]
              exact Or.inr (Or.inl ⟨hgood, hfresh⟩)
            | cons d ds =>
              rw [hps] at h1
              have h' : (Except.ok ((⟨d, [] ++ [convert_leaf tok.typ
                  tok.string tok.pfx tok.start_pos]⟩ : StackNode) ::
                  (ds.map (fun d => (⟨d, []⟩ : StackNode)) ++
                    ({ tos with dfa := pl.next_dfa } :: rest)), p') :
                  Except PErr (List StackNode × Proxy)) = .ok (st2, p2) := h1
              injection h' with hq
              injection hq with hq1 hq2
              rw [← hq2]
              exact Or.inr (Or.inl ⟨hgood, hfresh⟩)
          | none =>
            have h1 : (if (g.dfa tos.dfa).is_final then
                match rest with
                | [] =>
                  (Except.error PErr.indexErr :
                    Except PErr (List StackNode × Proxy))
                | parent :: below =>
                    add_token_loop g fuel er tok ptr lf
                      ({ parent with nodes :=
                          parent.nodes ++ [pop_new_node g tos] } :: below)
                      p'
              else .error (error_recovery er tok)) = .ok (st2, p2) := h
            by_cases hfin : (g.dfa tos.dfa).is_final = true
            · rw [if_pos hfin] at h1
              cases rest with
              | nil => cases h1
              | cons parent below =>
                exact ih _ st2 p' p2 hgood hfresh h1
            · rw [if_neg hfin] at h1
              cases h1
        · -- a lookahead window was created and the winner applied
          subst hrW
          have h1 : (match W.dfa_pushes.reverse.map
              (fun d => (⟨d, []⟩ : StackNode))
              ++ ({ tos with dfa := W.next_dfa } :: rest) with
            | [] =>
              (Except.error PErr.indexErr :
                Except PErr (List StackNode × Proxy))
            | top :: rest2 =>
              Except.ok (({ top with nodes := top.nodes ++
                [convert_leaf tok.typ tok.string tok.pfx tok.start_pos] } :
                  StackNode) :: rest2, p')) = .ok (st2, p2) := h
          cases hm : m with
          | zero =>
            -- empty window: the buffer is still fresh
            have hfresh' : atFresh p' = true := by
              simp only [atFresh, decide_eq_true_eq]
              rw [hstop', hcnt', hm]
              omega
            cases hps : W.dfa_pushes.reverse with
            | nil =>
              rw [hps] at h1
              have h' : (Except.ok ((⟨W.next_dfa, tos.nodes ++
                  [convert_leaf tok.typ tok.string tok.pfx
                    tok.start_pos]⟩ : StackNode) :: rest, p') :
                  Except PErr (List StackNode × Proxy)) = .ok (st2, p2) := h1
              injection h' with hq
              injection hq with hq1 hq2
              rw [← hq2]
              exact Or.inr (Or.inl ⟨hgood', hfresh'⟩)
            | cons d ds =>
              rw [hps] at h1
              have h' : (Except.ok ((⟨d, [] ++ [convert_leaf tok.typ
                  tok.string tok.pfx tok.start_pos]⟩ : StackNode) ::
                  (ds.map (fun d => (⟨d, []⟩ : StackNode)) ++
                    ({ tos with dfa := W.next_dfa } :: rest)), p') :
                  Except PErr (List StackNode × Proxy)) = .ok (st2, p2) := h1
              injection h' with hq
              injection hq with hq1 hq2
              rw [← hq2]
              exact Or.inr (Or.inl ⟨hgood', hfresh'⟩)
          | succ m0 =>
            rcases hdisj with ⟨L, hL, hch⟩ | hexh
            · -- a full winner chain covers the window: replay mode
              rw [hm] at hL hch
              cases hL2 : L with
              | nil => rw [hL2] at hL; simp at hL
              | cons P1 L' =>
                cases hw : (p.src.drop p.counter).take (m0 + 1) with
                | nil =>
                  have : ((p.src.drop p.counter).take (m0 + 1)).length =
                      m0 + 1 := window_length (by omega)
                  rw [hw] at this
                  simp at this
                | cons t0 ts =>
                  rw [hL2, hw, chain_ok_cons, Bool.and_eq_true,
                    beq_iff_eq] at hch
                  cases hps : W.dfa_pushes.reverse with
                  | nil =>
                    rw [hps] at hch
                    have : (none : Option Plan) = some P1 := hch.1
                    cases this
                  | cons d ds =>
                    rw [hps] at h1
                    have h' : (Except.ok ((⟨d, [] ++ [convert_leaf tok.typ
                        tok.string tok.pfx tok.start_pos]⟩ : StackNode) ::
                        (ds.map (fun d => (⟨d, []⟩ : StackNode)) ++
                          ({ tos with dfa := W.next_dfa } :: rest)), p') :
                        Except PErr (List StackNode × Proxy)) =
                        .ok (st2, p2) := h1
                    injection h' with hq
                    injection hq with hq1 hq2
                    rw [← hq2, ← hq1]
                    refine Or.inr (Or.inr (Or.inl ⟨hgood', ?_, ?_⟩))
                    · rw [hstop', hcnt', hm]
                      omega
                    · refine ⟨(⟨d, [] ++ [convert_leaf tok.typ tok.string
                        tok.pfx tok.start_pos]⟩ : StackNode) ::
                        ds.map (fun d => (⟨d, []⟩ : StackNode)),
                        { tos with dfa := W.next_dfa } :: rest, W, L,
                        ?_, ?_, ?_, ?_⟩
                      · rw [List.cons_append]
                      · rw [List.map_cons, map_dfa_mk, hps]
                      · rw [hstop', hcnt', hm, hL]
                        omega
                      · rw [hsrc', hcnt', hL2]
                        have hlen2 : (P1 :: L').length = m0 + 1 := by
                          rw [← hL2, hL]
                        rw [hlen2, hw, chain_ok_cons, Bool.and_eq_true,
                          beq_iff_eq]
                        exact hch
            · -- the window reaches the end of the source: exhausted mode
              have hx2 : phaseExh p' := phaseExh_of_window p p' m hgood'
                hcnt' hsrc' hstop' hexh
              cases hps : W.dfa_pushes.reverse with
              | nil =>
                rw [hps] at h1
                have h' : (Except.ok ((⟨W.next_dfa, tos.nodes ++
                    [convert_leaf tok.typ tok.string tok.pfx
                      tok.start_pos]⟩ : StackNode) :: rest, p') :
                    Except PErr (List StackNode × Proxy)) = .ok (st2, p2)
                  := h1
                injection h' with hq
                injection hq with hq1 hq2
                rw [← hq2]
                exact Or.inr (Or.inr (Or.inr hx2))
              | cons d ds =>
                rw [hps] at h1
                have h' : (Except.ok ((⟨d, [] ++ [convert_leaf tok.typ
                    tok.string tok.pfx tok.start_pos]⟩ : StackNode) ::
                    (ds.map (fun d => (⟨d, []⟩ : StackNode)) ++
                      ({ tos with dfa := W.next_dfa } :: rest)), p') :
                    Except PErr (List StackNode × Proxy)) = .ok (st2, p2)
                  := h1
                injection h' with hq
                injection hq with hq1 hq2
                rw [← hq2]
                exact Or.inr (Or.inr (Or.inr hx2))

theorem add_token_exh (g : Grammar) (fuel : Nat) (er : Bool)
    (tok : Token) (ptr : List TransitionKey) :
    ∀ (bound : Nat) (stack st2 : List StackNode) (p p2 : Proxy),
    phaseExh p →
    add_token_loop g fuel er tok ptr bound stack p = .ok (st2, p2) →
    phaseExh p2 := by
  intro bound
  induction bound with
  | zero => intro stack st2 p p2 _ h; cases h
  | succ lf ih =>
    intro stack st2 p p2 hx h
    cases stack with
    | nil => cases h
    | cons tos rest =>
      rw [add_token_loop_succ_cons] at h
      cases hg : get_possible_plan g fuel ptr (g.dfa tos.dfa).transitions p
        with
      | error e => rw [hg] at h; cases h
      | ok q =>
        rcases q with ⟨r, p'⟩
        rw [hg] at h
        have hx' : phaseExh p' := by
          rcases gpp_exh g fuel ptr (g.dfa tos.dfa).transitions p r p'
              hx.1 hg with hpp | ⟨hrr, hcc, hss, hpp⟩
          · rw [hpp]
            exact hx
          · refine ⟨?_, ?_, ?_⟩
            · rw [hpp, hss]
              exact hx.1
            · rw [hcc, hss]
              exact hx.2.1
            · intro c h1 h2
              rw [hrr, scanRanges_append]
              have horig := hx.2.2 c (by rw [hcc] at h1; exact h1)
                (by rw [hss] at h2; exact h2)
              rw [horig]
              cases hsrc : p.src[c]? with
              | some t =>
                show (Except.ok (some t) : Except PErr (Option Token)) =
                  Except.ok p'.src[c]?
                rw [hss, hsrc]
              | none =>
                have hred : scanRanges c
                    [(⟨p.counter, some p.counter, []⟩ : ReleaseRange)] =
                    .ok none := by
                  rw [scanRanges_cons]
                  show (if p.counter ≤ c ∧ c < p.counter then
                      (match ([] : List Token)[c - p.counter]? with
                        | some t => Except.ok (some t)
                        | none => Except.error PErr.indexErr)
                    else scanRanges c ([] : List ReleaseRange)) =
                    Except.ok none
                  rw [if_neg (by omega)]
                  rfl
                show scanRanges c
                    [(⟨p.counter, some p.counter, []⟩ : ReleaseRange)] =
                  Except.ok p'.src[c]?
                rw [hred, hss, hsrc]
        cases r with
        | some plan =>
          have h1 : (match plan.dfa_pushes.reverse.map
              (fun d => (⟨d, []⟩ : StackNode))
              ++ ({ tos with dfa := plan.next_dfa } :: rest) with
            | [] =>
              (Except.error PErr.indexErr :
                Except PErr (List StackNode × Proxy))
            | top :: rest2 =>
              Except.ok (({ top with nodes := top.nodes ++
                [convert_leaf tok.typ tok.string tok.pfx tok.start_pos] } :
                  StackNode) :: rest2, p')) = .ok (st2, p2) := h
          cases hps : plan.dfa_pushes.reverse with
          | nil =>
            rw [hps] at h1
            have h' : (Except.ok ((⟨plan.next_dfa, tos.nodes ++
                [convert_leaf tok.typ tok.string tok.pfx tok.start_pos]⟩ :
                StackNode) :: rest, p') :
                Except PErr (List StackNode × Proxy)) = .ok (st2, p2) := h1
            injection h' with hq
            injection hq with hq1 hq2
            rw [← hq2]
            exact hx'
          | cons d ds =>
            rw [hps] at h1
            have h' : (Except.ok ((⟨d, [] ++ [convert_leaf tok.typ
                tok.string tok.pfx tok.start_pos]⟩ : StackNode) ::
                (ds.map (fun d => (⟨d, []⟩ : StackNode)) ++
                  ({ tos with dfa := plan.next_dfa } :: rest)), p') :
                Except PErr (List StackNode × Proxy)) = .ok (st2, p2) := h1
            injection h' with hq
            injection hq with hq1 hq2
            rw [← hq2]
            exact hx'
        | none =>
          have h1 : (if (g.dfa tos.dfa).is_final then
              match rest with
              | [] =>
                (Except.error PErr.indexErr :
                  Except PErr (List StackNode × Proxy))
              | parent :: below =>
                  add_token_loop g fuel er tok ptr lf
                    ({ parent with nodes :=
                        parent.nodes ++ [pop_new_node g tos] } :: below) p'
            else .error (error_recovery er tok)) = .ok (st2, p2) := h
          by_cases hfin : (g.dfa tos.dfa).is_final = true
          · rw [if_pos hfin] at h1
            cases rest with
            | nil => cases h1
            | cons parent below =>
              exact ih _ st2 p' p2 hx' h1
          · rw [if_neg hfin] at h1
            cases h1

theorem tokensCode_cons (t : Token) (ts : List Token) :
    tokensCode (t :: ts) = t.pfx ++ t.string ++ tokensCode ts := rfl

theorem tokensCode_cons_drop {src : List Token} {c : Nat} {t : Token}
    (hx : src[c]? = some t) :
    tokensCode (src.drop c) =
      t.pfx ++ t.string ++ tokensCode (src.drop (c + 1)) := by
  have hlt : c < src.length := by
    by_contra hge
    rw [List.getElem?_eq_none_iff.2 (by omega)] at hx
    cases hx
  rw [List.drop_eq_getElem_cons hlt]
  have ht : src[c] = t := by
    rw [List.getElem?_eq_getElem hlt] at hx
    exact Option.some.inj hx
  rw [ht, tokensCode_cons]

theorem code_step (S a b r : String) :
    S ++ (a ++ b) ++ r = S ++ (a ++ b ++ r) := by
  rw [String.append_assoc]

theorem next_exh_some {p : Proxy} (hx2 : phaseExh p) {t : Token}
    (hsrc : p.src[p.counter]? = some t) :
    p.next = .ok (some (t, { p with counter := p.counter + 1 })) := by
  rw [Proxy.next]
  have hscan := hx2.2.2 p.counter (le_refl _) hx2.2.1
  rw [hscan, hsrc]

theorem drop_code_nil {src : List Token} {c : Nat} (h : src.length ≤ c) :
    tokensCode (src.drop c) = "" := by
  rw [List.drop_eq_nil_of_le h]
  rfl

theorem main_loop_code (g : Grammar) (er : Bool) :
    ∀ (f : Nat) (stack : List StackNode) (p : Proxy) (last : Option Token)
      (out : List StackNode × Proxy × Option Token),
    loopInv g stack p →
    main_loop g er f stack p last = .ok out →
    stackCode out.1 = stackCode stack ++ tokensCode (p.src.drop p.counter)
    := by
  intro f
  induction f with
  | zero => intro stack p last out _ h; cases h
  | succ f ih =>
    intro stack p last out hinv h
    rw [main_loop_succ] at h
    cases hn : p.next with
    | error e => rw [hn] at h; cases h
    | ok o =>
      rw [hn] at h
      cases o with
      | none =>
        have h' : (Except.ok (stack, p, last) :
            Except PErr (List StackNode × Proxy × Option Token)) =
            .ok out := h
        injection h' with hq'
        have hend : p.src.length ≤ p.counter := by
          rcases hinv with ⟨hgood, _⟩ | ⟨hgood, hlt, _⟩ | hx2
          · cases hx : p.src[p.counter]? with
            | some t =>
              obtain ⟨p1, hnx, _, _, _⟩ := next_good_some hgood hx
              rw [hnx] at hn
              cases hn
            | none =>
              exact List.getElem?_eq_none_iff.1 hx
          · have h1 := (good_parts hgood).1
            have h2 := rangesWF_lastStop_le_len h1
            cases hx : p.src[p.counter]? with
            | some t =>
              obtain ⟨p1, hnx, _, _, _⟩ := next_good_some hgood hx
              rw [hnx] at hn
              cases hn
            | none =>
              exact List.getElem?_eq_none_iff.1 hx
          · cases hx : p.src[p.counter]? with
            | some t =>
              rw [next_exh_some hx2 hx] at hn
              cases hn
            | none =>
              exact List.getElem?_eq_none_iff.1 hx
        rw [← hq', drop_code_nil hend, String.append_empty]
      | some tp =>
        rcases tp with ⟨token, p1⟩
        have h1 : (match add_token g (f + 1) er token stack p1 with
          | Except.error e =>
              (Except.error e :
                Except PErr (List StackNode × Proxy × Option Token))
          | Except.ok (stack', p'') =>
              main_loop g er f stack' p'' (some token)) = .ok out := h
        cases ha : add_token g (f + 1) er token stack p1 with
        | error e => rw [ha] at h1; cases h1
        | ok q =>
          rcases q with ⟨st2, p2⟩
          rw [ha] at h1
          obtain ⟨hra, hsa, hca⟩ := next_ranges hn
          have hcode : stackCode st2 =
              stackCode stack ++ (token.pfx ++ token.string) :=
            add_token_loop_code g (f + 1) er token _ _ _ st2 p1 p2 ha
          obtain ⟨hc2, hs2⟩ := add_token_loop_counter_src g (f + 1) er
            token _ _ _ st2 p1 p2 ha
          -- the consumed token is the next source token, and the
          -- loop invariant survives into the next round
          have hstep : token = p.src[p.counter]?.getD token ∧
              (poisoned p2.release_ranges = true ∨ loopInv g st2 p2) := by
            rcases hinv with ⟨hgood, hfresh⟩ | hrep | hx2
            · cases hx : p.src[p.counter]? with
              | none =>
                rw [next_good_none hgood hx] at hn
                cases hn
              | some t =>
                obtain ⟨p1', hnx, hg1, hc1, hs1⟩ := next_good_some hgood hx
                rw [hnx] at hn
                have hn' : (Except.ok (some (t, p1')) :
                    Except PErr (Option (Token × Proxy))) =
                    .ok (some (token, p1)) := hn
                injection hn' with hq
                injection hq with hq2
                injection hq2 with hq3 hq4
                have hfresh1 : atFresh p1 = true := by
                  simp only [atFresh, decide_eq_true_eq]
                  rw [hra, hca]
                  simp only [atFresh, decide_eq_true_eq] at hfresh
                  omega
                have hgood1 : good p1 = true := by
                  rw [← hq4]
                  exact hg1
                refine ⟨hq3.symm, ?_⟩
                exact add_token_fresh g (f + 1) er token _ _ stack st2 p1
                  p2 hgood1 hfresh1 ha
            · obtain ⟨hgood, hlt, B, rest0, P, L, hstack, hmap, hLlen,
                hch⟩ := hrep
              have hwf := (good_parts hgood).1
              have hlast := rangesWF_lastStop_le_len hwf
              have hclen : p.counter < p.src.length := by omega
              have hx : p.src[p.counter]? = some (p.src[p.counter]) :=
                List.getElem?_eq_getElem hclen
              obtain ⟨p1', hnx, hg1, hc1, hs1⟩ := next_good_some hgood hx
              rw [hnx] at hn
              have hn' : (Except.ok (some (p.src[p.counter], p1')) :
                  Except PErr (Option (Token × Proxy))) =
                  .ok (some (token, p1)) := hn
              injection hn' with hq
              injection hq with hq2
              injection hq2 with hq3 hq4
              cases hL2 : L with
              | nil =>
                rw [hL2] at hLlen
                simp at hLlen
                omega
              | cons P1 L' =>
                rw [hL2] at hLlen hch
                have hw : (p.src.drop p.counter).take ((P1 :: L').length)
                    = p.src[p.counter] ::
                      ((p.src.drop (p.counter + 1)).take L'.length) := by
                  rw [List.drop_eq_getElem_cons hclen]
                  rfl
                rw [hw, chain_ok_cons, Bool.and_eq_true, beq_iff_eq]
                  at hch
                have hscan : scanHit g (B.map StackNode.dfa)
                    (token_to_transition g token.typ token.string) =
                    some P1 := by
                  rw [hmap, ← hq3]
                  exact hch.1
                have ha2 : add_token_loop g (f + 1) er token
                    (token_to_transition g token.typ token.string)
                    ((B ++ rest0).length + 1) (B ++ rest0) p1 =
                    .ok (st2, p2) := by
                  rw [← hstack]
                  exact ha
                obtain ⟨hp21, B2, rest2, hst2, hmap2⟩ := add_token_scan g
                  (f + 1) er token _ B rest0 st2 P1 p1 p2 hscan ha2
                refine ⟨by rw [hx]; exact hq3.symm, Or.inr ?_⟩
                by_cases hlt2 : p1.counter < lastStop p1.release_ranges
                · refine Or.inr (Or.inl ⟨?_, ?_, B2, rest2, P1, L',
                    hst2, hmap2, ?_, ?_⟩)
                  · rw [hp21, ← hq4]
                    exact hg1
                  · rw [hp21]
                    exact hlt2
                  · rw [hp21, hra, hca]
                    rw [hra, hca] at hlt2
                    simp at hLlen ⊢
                    omega
                  · rw [hp21, hsa, hca]
                    exact hch.2
                · refine Or.inl ⟨?_, ?_⟩
                  · rw [hp21, ← hq4]
                    exact hg1
                  · simp only [atFresh, decide_eq_true_eq]
                    rw [hp21, hra, hca]
                    rw [hra, hca] at hlt2
                    omega
            · cases hx : p.src[p.counter]? with
              | none =>
                have hcl : p.src.length ≤ p.counter :=
                  List.getElem?_eq_none_iff.1 hx
                rw [Proxy.next] at hn
                have hscan := hx2.2.2 p.counter (le_refl _) hx2.2.1
                rw [hscan, hx] at hn
                have hraw : p.rawNext = none := by
                  rw [Proxy.rawNext, hx2.1,
                    List.getElem?_eq_none_iff.2 (le_refl _)]
                rw [hraw] at hn
                cases hn
              | some t =>
                rw [next_exh_some hx2 hx] at hn
                have hn' : (Except.ok (some (t,
                    ({ p with counter := p.counter + 1 } : Proxy))) :
                    Except PErr (Option (Token × Proxy))) =
                    .ok (some (token, p1)) := hn
                injection hn' with hq
                injection hq with hq2
                injection hq2 with hq3 hq4
                have hx1 : phaseExh p1 := by
                  rw [← hq4]
                  refine ⟨hx2.1, ?_, ?_⟩
                  · have hcl : p.counter < p.src.length := by
                      by_contra hge
                      rw [List.getElem?_eq_none_iff.2 (by omega)] at hx
                      cases hx
                    show p.counter + 1 ≤ p.src.length
                    omega
                  · intro c h1 h2
                    have h1' : p.counter + 1 ≤ c := h1
                    have h2' : c ≤ p.src.length := h2
                    show scanRanges c p.release_ranges = Except.ok
                      p.src[c]?
                    exact hx2.2.2 c (by omega) h2'
                refine ⟨hq3.symm, Or.inr ?_⟩
                exact Or.inr (Or.inr (add_token_exh g (f + 1) er token _ _
                  stack st2 p1 p2 hx1 ha))
          obtain ⟨htok, hnext⟩ := hstep
          rcases hnext with hpo | hinv2
          · exact absurd h1 (fun hcon =>
              main_loop_poisoned g er f st2 p2 (some token) out hpo hcon)
          · have hrec := ih st2 p2 (some token) out hinv2 h1
            have hsome : p.src[p.counter]? = some token := by
              cases hx : p.src[p.counter]? with
              | none =>
                rw [hx] at htok
                -- a token was delivered, so the source is not exhausted:
                -- derive the contradiction from the three phases
                exfalso
                rcases hinv with ⟨hgood, _⟩ | ⟨hgood, hlt, _⟩ | hx2
                · rw [next_good_none hgood hx] at hn
                  cases hn
                · have h1w := (good_parts hgood).1
                  have h2w := rangesWF_lastStop_le_len h1w
                  rw [next_good_none hgood hx] at hn
                  cases hn
                · rw [Proxy.next] at hn
                  have hscan := hx2.2.2 p.counter (le_refl _) hx2.2.1
                  rw [hscan, hx] at hn
                  have hraw : p.rawNext = none := by
                    rw [Proxy.rawNext, hx2.1,
                      List.getElem?_eq_none_iff.2 (le_refl _)]
                  rw [hraw] at hn
                  cases hn
              | some t =>
                rw [hx] at htok
                have htok2 : token = t := htok
                rw [htok2]
            rw [hrec, hs2, hsa, hc2, hca, hcode,
              tokensCode_cons_drop hsome, code_step]

/-- C1: whenever `parse` succeeds, it has consumed the tokens one at a
time, attached exactly one leaf per consumed token in consumption order,
and concatenating each result leaf's prefix followed by its text in
left-to-right leaf order over the returned tree reproduces the input
text exactly: `parse g fuel er toks = .ok tree` implies
`PTree.code tree = tokensCode toks`. -/
theorem c1_leaf_code_roundtrip (g : Grammar) (fuel : Nat) (er : Bool)
    (toks : List Token) (tree : PTree)
    (h : parse g fuel er toks = .ok tree) :
    PTree.code tree = tokensCode toks := by
  have h1 : (match main_loop g er fuel [(⟨g.start_dfa, []⟩ : StackNode)]
      (⟨toks, 0, 0, []⟩ : Proxy) none with
    | .error e => (.error e : Except PErr PTree)
    | .ok (stack', _, last) =>
        finish_loop g last (stack'.length + 1) stack') = .ok tree := h
  cases hm : main_loop g er fuel [(⟨g.start_dfa, []⟩ : StackNode)]
      (⟨toks, 0, 0, []⟩ : Proxy) none with
  | error e => rw [hm] at h1; cases h1
  | ok out =>
    rw [hm] at h1
    rcases out with ⟨stack2, p2, last⟩
    have h2 : finish_loop g last (stack2.length + 1) stack2 =
        .ok tree := h1
    have hcode := finish_loop_code g last (stack2.length + 1) stack2
      tree h2
    have hgood : good (⟨toks, 0, 0, []⟩ : Proxy) = true := by
      simp [good, rangesWF, lastStop]
    have hfresh : atFresh (⟨toks, 0, 0, []⟩ : Proxy) = true := by
      simp [atFresh, lastStop]
    have hml := main_loop_code g er fuel
      [(⟨g.start_dfa, []⟩ : StackNode)] (⟨toks, 0, 0, []⟩ : Proxy) none
      (stack2, p2, last) (Or.inl ⟨hgood, hfresh⟩) hm
    have hml2 : stackCode stack2 =
        stackCode [(⟨g.start_dfa, []⟩ : StackNode)] ++
          tokensCode toks := hml
    have hs : stackCode [(⟨g.start_dfa, []⟩ : StackNode)] = "" := rfl
    rw [hcode, hml2, hs, String.empty_append]

/-- Witness for C1: on the soft-keyword grammar `gramS` with source
`toksS`, the parse succeeds with a concrete tree whose leaf code
reproduces the full source text `" a x"` (prefixes included). -/
theorem c1_leaf_code_roundtrip_witness :
    PTree.code (PTree.node "S" [PTree.node "KW"
        [PTree.leaf "a" (1, 0) " ", PTree.leaf "x" (1, 2) " "],
      PTree.leaf "" (1, 3) ""]) = tokensCode toksS :=
  c1_leaf_code_roundtrip gramS 40 false toksS
    (PTree.node "S" [PTree.node "KW"
        [PTree.leaf "a" (1, 0) " ", PTree.leaf "x" (1, 2) " "],
      PTree.leaf "" (1, 3) ""]) (by decide)

end Parso
